import Mathlib

/-!
Verification of the influx-taggify line-protocol engine.

The Go source is embedded shallowly: buffers are lists of byte values
(`List Nat`, each entry a value in 0..255), loops become fuel-based
recursion (the fuel supplied by each wrapper is provably sufficient, so
the fuel-exhaustion branches are unreachable), Go errors become `Option`
or `Except` values, and Go runtime panics (out-of-range index or slice)
are modelled by an explicit `GoPanic` error where a claim depends on
them.  Byte reads `buf[i]` are modelled by `byteAt` (total, default 0);
every in-bounds read agrees with Go, and the few reads that Go would
refuse at runtime are noted at their definition sites.
-/

deriving instance DecidableEq for Except

namespace Taggify

/-- Go byte read `buf[i]`.  Total with default 0; in-bounds reads agree with
Go.  (Go panics out of bounds; call sites reached by the theorems below
only read in bounds, except where a panic is modelled explicitly.) -/
def byteAt (buf : List Nat) (i : Nat) : Nat := buf.getD i 0

/-- Go slice expression `buf[a:b]`. -/
def goSlice (buf : List Nat) (a b : Nat) : List Nat := (buf.take b).drop a

/-- Errors produced by the scanners (each constructor corresponds to one
distinct error message in the source). -/
inductive ScanErr where
  | missingMeasurement
  | missingFields
  | missingTagKey
  | missingTagValue
  | invalidTagFormat
  | duplicateTags
  | missingFieldKey
  | missingFieldValue
  | unbalancedQuotes
  | invalidFieldFormat
  | invalidNumber
  | unableToParseInteger
  | invalidFloat
  | invalidBoolean
  | badTimestamp
  deriving DecidableEq, Repr

/-- Go runtime panics that the embedding models explicitly. -/
inductive GoPanic where
  | indexOutOfRange
  | sliceOutOfRange
  deriving DecidableEq, Repr

/-- Go slice write `l[k] = v`: an out-of-range index panics. -/
def goSet (l : List Nat) (k v : Nat) : Except GoPanic (List Nat) :=
  if k < l.length then .ok (l.set k v) else .error .indexOutOfRange

/-- Go `copy(dst[pos:], src)`: copies `min` of the lengths, returns the
number of bytes written together with the updated destination. -/
def goCopyAt (dst : List Nat) (pos : Nat) (src : List Nat) : Nat × List Nat :=
  let n := min src.length (dst.length - pos)
  (n, dst.take pos ++ src.take n ++ dst.drop (pos + n))

/-- skipWhitespace loop body (source: skipWhitespace). -/
def skipWhitespaceF : Nat → List Nat → Nat → Nat
  | 0, _, i => i
  | fuel+1, buf, i =>
    if i < buf.length then
      if byteAt buf i != 32 && byteAt buf i != 9 && byteAt buf i != 0 then i
      else skipWhitespaceF fuel buf (i+1)
    else i

/-- skipWhitespace returns the end position after scanning over spaces,
tabs and NUL bytes. -/
def skipWhitespace (buf : List Nat) (i : Nat) : Nat :=
  skipWhitespaceF (buf.length + 1) buf i

/-- scanTo loop: advance until an occurrence of stop whose immediately
preceding byte is not a backslash, or end of buffer. -/
def scanToF : Nat → List Nat → Nat → Nat → Nat
  | 0, _, i, _ => i
  | fuel+1, buf, i, stop =>
    if i ≥ buf.length then i
    else if byteAt buf i == stop && (i == 0 || byteAt buf (i-1) != 92) then i
    else scanToF fuel buf (i+1) stop

/-- scanTo returns the end position in buf and the next consecutive block
of bytes, starting from i and ending with the stop byte (source: scanTo). -/
def scanTo (buf : List Nat) (i stop : Nat) : Nat × List Nat :=
  let e := scanToF (buf.length + 1) buf i stop
  (e, goSlice buf i e)

/-- scanToSpaceOr loop (source: scanToSpaceOr).  Note the Go loop checks
the escape byte before the bounds check; with a trailing backslash Go
would read one byte past the end (modelled by the total `byteAt`). -/
def scanToSpaceOrF : Nat → List Nat → Nat → Nat → Nat
  | 0, _, i, _ => i
  | fuel+1, buf, i, stop =>
    let j := i + 1
    if byteAt buf (j-1) == 92 then scanToSpaceOrF fuel buf j stop
    else if j ≥ buf.length then j
    else if byteAt buf j == stop || byteAt buf j == 32 then j
    else scanToSpaceOrF fuel buf j stop

/-- scanToSpaceOr: like scanTo but also stops on a space; the first byte
is checked directly so a zero-length match is possible. -/
def scanToSpaceOr (buf : List Nat) (i stop : Nat) : Nat × List Nat :=
  if byteAt buf i == stop || byteAt buf i == 32 then (i, goSlice buf i i)
  else
    let e := scanToSpaceOrF (buf.length + 2) buf i stop
    (e, goSlice buf i e)

/-- Scanner state constants (source: tagKeyState / tagValueState /
fieldsState, an iota block; errors return -1). -/
def tagKeyState : Int := 0

def tagValueState : Int := 1

def fieldsState : Int := 2

/-- scanMeasurement main loop (source: scanMeasurement). -/
def scanMeasurementF : Nat → List Nat → Nat → Int × Nat × Option ScanErr
  | 0, _, i => (-1, i, some .missingFields)
  | fuel+1, buf, i =>
    let j := i + 1
    if j ≥ buf.length then (-1, j, some .missingFields)
    else if byteAt buf (j-1) == 92 then scanMeasurementF fuel buf j
    else if byteAt buf j == 44 then (tagKeyState, j+1, none)
    else if byteAt buf j == 32 then (fieldsState, j, none)
    else scanMeasurementF fuel buf j

/-- scanMeasurement examines the measurement part of a point, returning
the next state, the current location, and an error. -/
def scanMeasurement (buf : List Nat) (i : Nat) : Int × Nat × Option ScanErr :=
  if i ≥ buf.length || byteAt buf i == 44 then (-1, i, some .missingMeasurement)
  else scanMeasurementF (buf.length + 1) buf i

/-- scanTagsKey main loop (source: scanTagsKey). -/
def scanTagsKeyF : Nat → List Nat → Nat → Nat × Option ScanErr
  | 0, _, i => (i, some .missingTagValue)
  | fuel+1, buf, i =>
    let j := i + 1
    if j ≥ buf.length ||
        ((byteAt buf j == 32 || byteAt buf j == 44) && byteAt buf (j-1) != 92) then
      (j, some .missingTagValue)
    else if byteAt buf j == 61 && byteAt buf (j-1) != 92 then (j+1, none)
    else scanTagsKeyF fuel buf j

/-- scanTagsKey scans each character in a tag key. -/
def scanTagsKey (buf : List Nat) (i : Nat) : Nat × Option ScanErr :=
  if i ≥ buf.length || byteAt buf i == 32 || byteAt buf i == 44 || byteAt buf i == 61 then
    (i, some .missingTagKey)
  else scanTagsKeyF (buf.length + 1) buf i

/-- scanTagsValue main loop (source: scanTagsValue). -/
def scanTagsValueF : Nat → List Nat → Nat → Int × Nat × Option ScanErr
  | 0, _, i => (-1, i, some .missingFields)
  | fuel+1, buf, i =>
    let j := i + 1
    if j ≥ buf.length then (-1, j, some .missingFields)
    else if byteAt buf j == 61 && byteAt buf (j-1) != 92 then (-1, j, some .invalidTagFormat)
    else if byteAt buf j == 44 && byteAt buf (j-1) != 92 then (tagKeyState, j+1, none)
    else if byteAt buf j == 32 && byteAt buf (j-1) != 92 then (fieldsState, j, none)
    else scanTagsValueF fuel buf j

/-- scanTagsValue scans each character in a tag value. -/
def scanTagsValue (buf : List Nat) (i : Nat) : Int × Nat × Option ScanErr :=
  if i ≥ buf.length || byteAt buf i == 44 || byteAt buf i == 32 then
    (-1, i, some .missingTagValue)
  else scanTagsValueF (buf.length + 1) buf i

/-- scanTags state-machine loop (source: scanTags).  The index write in
the tag-key state is guarded by the growth test; the write in the fields
state is not, so it can go out of range (the Go slice write panics). -/
def scanTagsLoopF : Nat → List Nat → Nat → List Nat → Nat → Int →
    Except GoPanic (Nat × Nat × List Nat × Option ScanErr)
  | 0, _, i, indices, commas, _ => .ok (i, commas, indices, some .missingFields)
  | fuel+1, buf, i, indices, commas, state =>
    if state == tagKeyState then
      let indices :=
        if commas ≥ indices.length then indices ++ List.replicate indices.length 0 else indices
      match goSet indices commas i with
      | .error p => .error p
      | .ok indices =>
        let commas := commas + 1
        match scanTagsKey buf i with
        | (i, some e) => .ok (i, commas, indices, some e)
        | (i, none) => scanTagsLoopF fuel buf i indices commas tagValueState
    else if state == tagValueState then
      match scanTagsValue buf i with
      | (_, i, some e) => .ok (i, commas, indices, some e)
      | (state, i, none) => scanTagsLoopF fuel buf i indices commas state
    else
      match goSet indices commas (i+1) with
      | .error p => .error p
      | .ok indices => .ok (i, commas, indices, none)

/-- scanTags examines all the tags in a point (source: scanTags). -/
def scanTags (buf : List Nat) (i : Nat) (indices : List Nat) :
    Except GoPanic (Nat × Nat × List Nat × Option ScanErr) :=
  scanTagsLoopF (2 * buf.length + 4) buf i indices 0 tagKeyState

/-- Go bytes.Compare: lexicographic byte comparison, a proper prefix
ordering before its extensions. -/
def bytesCompare : List Nat → List Nat → Ordering
  | [], [] => .eq
  | [], _ :: _ => .lt
  | _ :: _, [] => .gt
  | a :: as, b :: bs => if a < b then .lt else if b < a then .gt else bytesCompare as bs

/-- less compares the tag names found at two recorded offsets
(source: less). -/
def less (buf indices : List Nat) (i j : Nat) : Bool :=
  let a := (scanTo buf (byteAt indices i) 61).2
  let b := (scanTo buf (byteAt indices j) 61).2
  bytesCompare a b == .lt

/-- The parallel swap `indices[j], indices[j-1] = indices[j-1], indices[j]`. -/
def swapAdj (indices : List Nat) (j : Nat) : List Nat :=
  (indices.set j (byteAt indices (j-1))).set (j-1) (byteAt indices j)

/-- Inner loop of insertionSort: sift the element at j down while it is
less than its left neighbour. -/
def siftF : Nat → List Nat → List Nat → Nat → Nat → List Nat
  | 0, _, indices, _, _ => indices
  | fuel+1, buf, indices, l, j =>
    if decide (l < j) && less buf indices j (j-1) then
      siftF fuel buf (swapAdj indices j) l (j-1)
    else indices

/-- Outer loop of insertionSort. -/
def insertionSortOuterF : Nat → List Nat → List Nat → Nat → Nat → Nat → List Nat
  | 0, _, indices, _, _, _ => indices
  | fuel+1, buf, indices, l, r, i =>
    if i < r then
      insertionSortOuterF fuel buf (siftF i buf indices l i) l r (i+1)
    else indices

/-- insertionSort sorts indices[l:r] in place by the tag names the offsets
point at (source: insertionSort).  Modelled functionally: the sorted index
list is returned. -/
def insertionSort (l r : Nat) (buf indices : List Nat) : List Nat :=
  insertionSortOuterF (r + 1) buf indices l r (l + 1)

/-- Result of the adjacent-pair pre-check loop in scanKey: a duplicate
found (immediate error), an out-of-order pair found (break with
sorted = false), or all pairs ascending. -/
inductive AdjRes where
  | dup
  | unsorted
  | ascending
  deriving DecidableEq, Repr

/-- The adjacent-pair duplicate/sortedness pre-check loop of scanKey
(source: scanKey, first for-loop).  The Go bound `j < commas-1` over ints
is written `j + 1 < commas` over Nat (equivalent for commas ≥ 0). -/
def preCheckF : Nat → List Nat → List Nat → Nat → Nat → AdjRes
  | 0, _, _, _, _ => .ascending
  | fuel+1, buf, indices, commas, j =>
    if j + 1 < commas then
      let left := (scanTo (goSlice buf (byteAt indices j) (byteAt indices (j+1) - 1)) 0 61).2
      let right := (scanTo (goSlice buf (byteAt indices (j+1)) (byteAt indices (j+2) - 1)) 0 61).2
      match bytesCompare left right with
      | .gt => .unsorted
      | .eq => .dup
      | .lt => preCheckF fuel buf indices commas (j+1)
    else .ascending

/-- The post-sort adjacent duplicate check of scanKey (source: scanKey,
second for-loop); true means a duplicate pair of tag names was found. -/
def postCheckF : Nat → List Nat → List Nat → Nat → Nat → Bool
  | 0, _, _, _, _ => false
  | fuel+1, buf, indices, commas, j =>
    if j + 1 < commas then
      let left := (scanTo (buf.drop (byteAt indices j)) 0 61).2
      let right := (scanTo (buf.drop (byteAt indices (j+1))) 0 61).2
      if left == right then true
      else postCheckF fuel buf indices commas (j+1)
    else false

/-- The key-rebuild loop of scanKey: append a comma and the raw tag span
for each sorted index into the preallocated buffer b. -/
def rebuildLoop (buf : List Nat) : List Nat → List Nat → Nat → Except GoPanic (List Nat)
  | [], b, _ => .ok b
  | idx :: rest, b, pos =>
    match goSet b pos 44 with
    | .error p => .error p
    | .ok b =>
      let v := (scanToSpaceOr buf idx 44).2
      let (n, b) := goCopyAt b (pos + 1) v
      rebuildLoop buf rest b (pos + 1 + n)

/-- scanKey scans buf starting at i for the measurement and tag portion of
the point, sorting the tags if they are not already sorted
(source: scanKey). -/
def scanKey (buf : List Nat) (i0 : Nat) : Except GoPanic (Nat × List Nat × Option ScanErr) :=
  let start := skipWhitespace buf i0
  match scanMeasurement buf start with
  | (_, i, some e) => .ok (i, goSlice buf start i, some e)
  | (state, i, none) =>
    match (if state == tagKeyState then scanTags buf i (List.replicate 100 0)
           else .ok (i, 0, List.replicate 100 0, none)) with
    | .error p => .error p
    | .ok (i, _, _, some e) => .ok (i, goSlice buf start i, some e)
    | .ok (i, commas, indices, none) =>
      match preCheckF commas buf indices commas 0 with
      | .dup => .ok (i, goSlice buf start i, some .duplicateTags)
      | pre =>
        if pre == .unsorted && decide (0 < commas) then
          let measurement := goSlice buf start (byteAt indices 0 - 1)
          let idxList := indices.take commas
          let sortedIdx := insertionSort 0 commas buf idxList
          let b0 := List.replicate (goSlice buf start i).length 0
          let (pos, b1) := goCopyAt b0 0 measurement
          match rebuildLoop buf sortedIdx b1 pos with
          | .error p => .error p
          | .ok b =>
            if postCheckF commas buf sortedIdx commas 0 then
              .ok (i, b, some .duplicateTags)
            else .ok (i, b, none)
        else .ok (i, goSlice buf start i, none)

/-- isNumeric reports whether the byte is a digit or a decimal point
(source: isNumeric). -/
def isNumeric (b : Nat) : Bool := (48 ≤ b && b ≤ 57) || b == 46

/-- Decimal digit test (byte values of 0-9). -/
def isDigit (b : Nat) : Bool := 48 ≤ b && b ≤ 57

/-- Value of a digit string. -/
def digitsToNat (l : List Nat) : Nat := l.foldl (fun acc b => acc * 10 + (b - 48)) 0

/-- Modelled from the Go standard library: strconv.ParseInt(s, 10, 64) as
wrapped by parseIntBytes.  Accepts an optional sign followed by at least
one decimal digit, and rejects values outside the int64 range. -/
def parseIntBytes (b : List Nat) : Except Unit Int :=
  let signed : Bool × List Nat :=
    match b with
    | 45 :: rest => (true, rest)
    | 43 :: rest => (false, rest)
    | _ => (false, b)
  let neg := signed.1
  let ds := signed.2
  if ds.isEmpty || !(ds.all isDigit) then .error ()
  else
    let n : Nat := digitsToNat ds
    if neg then
      if n ≤ 2^63 then .ok (-(n : Int)) else .error ()
    else
      if n ≤ 2^63 - 1 then .ok (n : Int) else .error ()

/-- Mantissa syntax check of the modelled strconv.ParseFloat: digits, at
most one dot, at least one digit overall. -/
def floatMantOk (mant : List Nat) : Bool :=
  let ip := mant.takeWhile (fun c => c != 46)
  let fpRest := mant.drop ip.length
  let fracDigits : List Nat := match fpRest with | _ :: fr => fr | [] => []
  let fracShapeOk : Bool :=
    match fpRest with
    | [] => true
    | c :: fr => c == 46 && fr.all isDigit
  ip.all isDigit && fracShapeOk && (!ip.isEmpty || !fracDigits.isEmpty)

/-- Integer-part digits without leading zeros, used by the approximate
range check of the modelled strconv.ParseFloat. -/
def floatIpSig (mant : List Nat) : List Nat :=
  (mant.takeWhile (fun c => c != 46)).dropWhile (fun c => c == 48)

/-- Modelled from the Go standard library: the body of strconv.ParseFloat
after the optional sign, restricted to the decimal forms reachable from
scanNumber (digits, one optional dot, optional exponent; the special
inf/nan and hex spellings can never reach this call).  The float64 range
check is approximated by a bound on the decimal magnitude; the inputs the
theorems below evaluate are far from the float64 boundary, where the
approximation is exact. -/
def parseFloatBody (body : List Nat) : Except Unit Unit :=
  let mant := body.takeWhile (fun c => c != 101 && c != 69)
  let expPart := body.drop mant.length
  match expPart with
  | [] =>
    if floatMantOk mant then
      (if (floatIpSig mant).length ≤ 330 then .ok () else .error ())
    else .error ()
  | _e :: er =>
    let se : Int × List Nat :=
      match er with
      | 43 :: r => (1, r)
      | 45 :: r => (-1, r)
      | _ => (1, er)
    if floatMantOk mant && !se.2.isEmpty && se.2.all isDigit then
      let ev : Int := se.1 * (digitsToNat se.2 : Int) + ((floatIpSig mant).length : Int)
      if ev > 330 || ev < -330 then .error () else .ok ()
    else .error ()

/-- One optional leading sign byte stripped, as strconv.ParseFloat does. -/
def stripSign (b : List Nat) : List Nat :=
  match b with
  | c :: r => if c == 43 || c == 45 then r else c :: r
  | [] => []

/-- Modelled from the Go standard library: strconv.ParseFloat as wrapped
by parseFloatBytes (see parseFloatBody for the modelled scope). -/
def parseFloatBytes (b : List Nat) (_bitSize : Nat) : Except Unit Unit :=
  parseFloatBody (stripSign b)

/-- Main loop of scanNumber (source: scanNumber).  The error value carries
the position at which the scan stopped; the success value carries the end
position and the isInt / decimal / scientific flags.  Go updates the
decimal flag in place when the current byte is a dot and then falls
through; here that update is written inline at each recursive call as
dec or current-byte-is-46 (a no-op in the branches whose byte cannot be
a dot). -/
def scanNumLoopF : Nat → List Nat → Nat → Nat → Bool → Bool → Bool →
    Except Nat (Nat × Bool × Bool × Bool)
  | 0, _, _, i, isInt, dec, sci => .ok (i, isInt, dec, sci)
  | fuel+1, buf, start, i, isInt, dec, sci =>
    if i ≥ buf.length then .ok (i, isInt, dec, sci)
    else if byteAt buf i == 44 || byteAt buf i == 32 then .ok (i, isInt, dec, sci)
    else if byteAt buf i == 105 && decide (start < i) && !isInt then
      scanNumLoopF fuel buf start (i+1) true dec sci
    else if byteAt buf i == 46 && dec then .error i
    else if decide (start < i) && (byteAt buf i == 101 || byteAt buf i == 69) then
      scanNumLoopF fuel buf start (i+1) isInt (dec || byteAt buf i == 46) true
    else if (byteAt buf i == 43 || byteAt buf i == 45) &&
        (byteAt buf (i-1) == 101 || byteAt buf (i-1) == 69) then
      scanNumLoopF fuel buf start (i+1) isInt (dec || byteAt buf i == 46) sci
    else if i + 2 < buf.length && (byteAt buf i == 78 || byteAt buf i == 110) then
      .error i
    else if !(isNumeric (byteAt buf i)) then .error i
    else scanNumLoopF fuel buf start (i+1) isInt (dec || byteAt buf i == 46) sci

/-- Post-loop validation of scanNumber: flag consistency, significant
digit count, trailing i for integers, cost-gated range checks. -/
def scanNumberCore (buf : List Nat) (start i0 : Nat) : Nat × Option ScanErr :=
  match scanNumLoopF (buf.length + 2) buf start i0 false false false with
  | .error j => (j, some .invalidNumber)
  | .ok (i, isInt, dec, sci) =>
    if isInt && (dec || sci) then (i, some .invalidNumber)
    else
      let nd0 := i - start
      let nd1 := if isInt then nd0 - 1 else nd0
      let nd2 := if dec then nd1 - 1 else nd1
      let nd := if byteAt buf start == 45 then nd2 - 1 else nd2
      if nd == 0 then (i, some .invalidNumber)
      else if isInt then
        if byteAt buf (i-1) != 105 then (i, some .invalidNumber)
        else if (goSlice buf start (i-1)).length ≥ 19 || (goSlice buf start (i-1)).length ≥ 20 then
          match parseIntBytes (goSlice buf start (i-1)) with
          | .error _ => (i, some .unableToParseInteger)
          | .ok _ => (i, none)
        else (i, none)
      else
        if sci || (goSlice buf start i).length ≥ 25 || (goSlice buf start i).length ≥ 27 then
          match parseFloatBytes (goSlice buf start i) 10 with
          | .error _ => (i, some .invalidFloat)
          | .ok _ => (i, none)
        else (i, none)

/-- scanNumber returns the end position after scanning an integer or
float, or an error for an invalid number (source: scanNumber). -/
def scanNumber (buf : List Nat) (i : Nat) : Nat × Option ScanErr :=
  if i < buf.length && byteAt buf i == 45 then
    if i + 1 == buf.length then (i+1, some .invalidNumber)
    else scanNumberCore buf i (i+1)
  else scanNumberCore buf i i

/-- Delimiter scan of scanBoolean: advance to the next comma, space or end
of buffer. -/
def boolEndF : Nat → List Nat → Nat → Nat
  | 0, _, i => i
  | fuel+1, buf, i =>
    if i ≥ buf.length then i
    else if byteAt buf i == 44 || byteAt buf i == 32 then i
    else boolEndF fuel buf (i+1)

/-- Byte lists for the accepted boolean spellings. -/
def litTrue : List Nat := [116, 114, 117, 101]

def litTrueTitle : List Nat := [84, 114, 117, 101]

def litTrueUpper : List Nat := [84, 82, 85, 69]

def litFalse : List Nat := [102, 97, 108, 115, 101]

def litFalseTitle : List Nat := [70, 97, 108, 115, 101]

def litFalseUpper : List Nat := [70, 65, 76, 83, 69]

/-- scanBoolean validates one of the boolean literal spellings
(source: scanBoolean). -/
def scanBoolean (buf : List Nat) (i0 : Nat) : Nat × List Nat × Option ScanErr :=
  let start := i0
  if i0 < buf.length &&
      (byteAt buf i0 != 116 && byteAt buf i0 != 102 &&
       byteAt buf i0 != 84 && byteAt buf i0 != 70) then
    (i0, goSlice buf start i0, some .invalidBoolean)
  else
    let i := boolEndF (buf.length + 1) buf (i0 + 1)
    let s := goSlice buf start i
    if i - start == 1 then (i, s, none)
    else if (byteAt buf start == 116 || byteAt buf start == 84) && i - start != 4 then
      (i, s, some .invalidBoolean)
    else if (byteAt buf start == 102 || byteAt buf start == 70) && i - start != 5 then
      (i, s, some .invalidBoolean)
    else
      let valid :=
        if byteAt buf start == 116 then s == litTrue
        else if byteAt buf start == 102 then s == litFalse
        else if byteAt buf start == 84 then s == litTrueUpper || s == litTrueTitle
        else if byteAt buf start == 70 then s == litFalseUpper || s == litFalseTitle
        else false
      if !valid then (i, s, some .invalidBoolean)
      else (i, s, none)

/-- Main loop of scanFields (source: scanFields); the state is the
position, the quoted flag and the equals / comma counters. -/
def scanFieldsLoopF : Nat → List Nat → Nat → Bool → Nat → Nat →
    Except (Nat × ScanErr) (Nat × Bool × Nat × Nat)
  | 0, _, i, quoted, eqs, commas => .ok (i, quoted, eqs, commas)
  | fuel+1, buf, i, quoted, eqs, commas =>
    if i ≥ buf.length then .ok (i, quoted, eqs, commas)
    else if byteAt buf i == 92 && i + 1 < buf.length then
      scanFieldsLoopF fuel buf (i+2) quoted eqs commas
    else if byteAt buf i == 34 && decide (commas < eqs) then
      scanFieldsLoopF fuel buf (i+1) (!quoted) eqs commas
    else if byteAt buf i == 61 && !quoted then
      let eqs := eqs + 1
      if byteAt buf (i-1) == 32 && byteAt buf (i-2) != 92 then .error (i, .missingFieldKey)
      else if byteAt buf (i-1) == 44 && byteAt buf (i-2) != 92 then .error (i, .missingFieldKey)
      else if i + 1 ≥ buf.length then .error (i, .missingFieldValue)
      else if byteAt buf (i+1) == 44 || byteAt buf (i+1) == 32 then
        .error (i, .missingFieldValue)
      else if isNumeric (byteAt buf (i+1)) || byteAt buf (i+1) == 45 ||
          byteAt buf (i+1) == 78 || byteAt buf (i+1) == 110 then
        match scanNumber buf (i+1) with
        | (j, some e) => .error (j, e)
        | (j, none) => scanFieldsLoopF fuel buf j quoted eqs commas
      else if byteAt buf (i+1) != 34 then
        match scanBoolean buf (i+1) with
        | (j, _, some e) => .error (j, e)
        | (j, _, none) => scanFieldsLoopF fuel buf j quoted eqs commas
      else
        scanFieldsLoopF fuel buf (i+1) quoted eqs commas
    else
      let commas := if byteAt buf i == 44 && !quoted then commas + 1 else commas
      if byteAt buf i == 32 && !quoted then .ok (i, quoted, eqs, commas)
      else scanFieldsLoopF fuel buf (i+1) quoted eqs commas

/-- scanFields scans buf for the fields section of a point
(source: scanFields). -/
def scanFields (buf : List Nat) (i0 : Nat) : Nat × List Nat × Option ScanErr :=
  let start := skipWhitespace buf i0
  match scanFieldsLoopF (buf.length + 2) buf start false 0 0 with
  | .error (i, e) => (i, goSlice buf start i, some e)
  | .ok (i, quoted, eqs, commas) =>
    if quoted then (i, goSlice buf start i, some .unbalancedQuotes)
    else if eqs == 0 || commas != eqs - 1 then (i, goSlice buf start i, some .invalidFieldFormat)
    else (i, goSlice buf start i, none)

/-- Main loop of scanTime (source: scanTime). -/
def scanTimeLoopF : Nat → List Nat → Nat → Nat → Nat × Option ScanErr
  | 0, _, _, i => (i, none)
  | fuel+1, buf, start, i =>
    if i ≥ buf.length then (i, none)
    else if byteAt buf i == 10 || byteAt buf i == 32 then (i, none)
    else if i == start && byteAt buf i == 45 then scanTimeLoopF fuel buf start (i+1)
    else if byteAt buf i < 48 || 57 < byteAt buf i then (i, some .badTimestamp)
    else scanTimeLoopF fuel buf start (i+1)

/-- scanTime scans buf for the time section of a point (source: scanTime). -/
def scanTime (buf : List Nat) (i0 : Nat) : Nat × List Nat × Option ScanErr :=
  let start := skipWhitespace buf i0
  let r := scanTimeLoopF (buf.length + 1) buf start start
  (r.1, goSlice buf start r.1, r.2)

/-- Errors of parseLine and parseMap (source: parseLine / parseMap over
errors from the scanners; panic constructors model Go runtime panics). -/
inductive PErr where
  | scan : ScanErr → PErr
  | goPanic : GoPanic → PErr
  | missingMeasurement
  | maxKeyLengthExceeded
  | missingFields
  | mapFormat
  | missingTimestamp
  deriving DecidableEq, Repr

/-- Association-list model of a Go map keyed by byte strings; only the
lookup view of a Go map is observable, and `aset` keeps keys unique. -/
def aget {β : Type} : List (List Nat × β) → List Nat → Option β
  | [], _ => none
  | (k, v) :: rest, key => if k = key then some v else aget rest key

/-- Go map insert `m[k] = v`. -/
def aset {β : Type} : List (List Nat × β) → List Nat → β → List (List Nat × β)
  | [], key, v => [(key, v)]
  | (k, v') :: rest, key, v =>
    if k = key then (k, v) :: rest else (k, v') :: aset rest key v

/-- Go map delete(m, k). -/
def adel {β : Type} : List (List Nat × β) → List Nat → List (List Nat × β)
  | [], _ => []
  | (k, v') :: rest, key => if k = key then rest else (k, v') :: adel rest key

/-- Field map produced by parseMap: field name to raw value bytes. -/
abbrev FieldMapB := List (List Nat × List Nat)

/-- Go strings.Split(s, ",") on byte lists. -/
def splitOnComma : List Nat → List (List Nat)
  | [] => [[]]
  | c :: rest =>
    if c == 44 then [] :: splitOnComma rest
    else
      match splitOnComma rest with
      | [] => [[c]]
      | h :: t => (c :: h) :: t

/-- Go strings.Index(p, "=") on byte lists. -/
def indexOfEq : List Nat → Option Nat
  | [] => none
  | c :: rest => if c == 61 then some 0 else (indexOfEq rest).map (· + 1)

/-- Inner loop of parseMap: find the first equals sign not preceded by a
backslash (source: parseMap).  Go reads p[n-1]; when the equals sign is
the first byte of the part that read panics. -/
def parseMapEntryF : Nat → List Nat → Nat → Except PErr (List Nat × List Nat)
  | 0, _, _ => .error .mapFormat
  | fuel+1, p, n =>
    match indexOfEq (p.drop n) with
    | none => .error .mapFormat
    | some i =>
      let n := n + i
      if n == 0 then .error (.goPanic .indexOutOfRange)
      else if byteAt p (n-1) != 92 then .ok (p.take n, p.drop (n+1))
      else parseMapEntryF fuel p (n+1)

/-- parseMap splits the fields section on every comma and each part at its
first unescaped equals sign (source: parseMap). -/
def parseMap (s : List Nat) : Except PErr FieldMapB :=
  (splitOnComma s).foldlM
    (fun m p =>
      match parseMapEntryF (p.length + 2) p 0 with
      | .error e => .error e
      | .ok (k, v) => .ok (aset m k v))
    []

/-- models.MaxKeyLength from the influxdb models package. -/
def maxKeyLength : Nat := 65535

/-- parseLine parses one line into key bytes, field map and timestamp
bytes (source: parseLine).  The Go code slices b[pos+1:] unconditionally;
when pos+1 exceeds the buffer length that slice expression panics, which
the embedding returns as a goPanic error. -/
def parseLine (b : List Nat) : Except PErr (List Nat × FieldMapB × List Nat) :=
  match scanKey b 0 with
  | .error p => .error (.goPanic p)
  | .ok (_, _, some e) => .error (.scan e)
  | .ok (pos, keyBytes, none) =>
    if keyBytes.length == 0 then .error .missingMeasurement
    else if keyBytes.length > maxKeyLength then .error .maxKeyLengthExceeded
    else
      match scanFields b pos with
      | (_, _, some e) => .error (.scan e)
      | (pos, fieldBytes, none) =>
        if fieldBytes.length == 0 then .error .missingFields
        else
          match parseMap fieldBytes with
          | .error e => .error e
          | .ok fields =>
            if pos + 1 > b.length then .error (.goPanic .sliceOutOfRange)
            else if (b.drop (pos + 1)).length == 0 then .error .missingTimestamp
            else .ok (keyBytes, fields, b.drop (pos + 1))

/-- Rows of the aggregation table: timestamp text to field map. -/
abbrev Rows := List (List Nat × FieldMapB)

/-- The aggregation table: canonical key text to rows. -/
abbrev Entries := List (List Nat × Rows)

/-- The field-merge loop `for k, v := range fields { row[k] = v }`
(source: taggify, data loop). -/
def mergeInto (row : FieldMapB) (fields : FieldMapB) : FieldMapB :=
  fields.foldl (fun r kv => aset r kv.1 kv.2) row

/-- One iteration of the aggregation loop of taggify (source: taggify,
data-section loop): look up or create the rows for the key and the row
for the timestamp, then merge the parsed fields into that row.  Go
mutates the looked-up maps through references; the embedding writes the
updated row back, which yields the same table. -/
def processPoint (entries : Entries) (key ts : List Nat) (fields : FieldMapB) : Entries :=
  let rows := (aget entries key).getD []
  let row := (aget rows ts).getD []
  aset entries key (aset rows ts (mergeInto row fields))

/-- Go strings.Trim(v, "\"'"): strip every leading and trailing single or
double quote byte. -/
def trimQuotes (v : List Nat) : List Nat :=
  ((v.dropWhile fun c => c == 34 || c == 39).reverse.dropWhile fun c => c == 34 || c == 39).reverse

/-- The promotion loop of taggify (source: taggify, emission loop): for
each caller-supplied name, if present in the field map, append
a comma, the name, an equals sign and the quote-trimmed value to the key
and delete the field. -/
def promoteLoop (names : List (List Nat)) (key : List Nat) (fields : FieldMapB) :
    List Nat × FieldMapB :=
  names.foldl
    (fun st name =>
      match aget st.2 name with
      | some v => (st.1 ++ 44 :: name ++ 61 :: trimQuotes v, adel st.2 name)
      | none => st)
    (key, fields)

/-- Emission of one aggregation group (source: taggify, emission loop):
after promotion, one output line per remaining field, consisting of the
augmented key, a space, the field assignment and the timestamp suffix.
Go map iteration order is unspecified; the embedding emits in the order
of the association list. -/
def emitGroup (names : List (List Nat)) (key ts : List Nat) (fields : FieldMapB) :
    List (List Nat) :=
  let pr := promoteLoop names key fields
  let line := pr.1 ++ [32]
  let suffix := if ts.length == 0 then [] else 32 :: ts
  pr.2.map (fun kv => line ++ kv.1 ++ 61 :: kv.2 ++ suffix)

/-! ## Properties of the byte-grammar primitives -/

/-- The stopping condition actually implemented by scanTo: the byte at j
equals the stop byte and the immediately preceding byte is not a
backslash (whether or not that backslash is itself escaped). -/
def StopsAt (buf : List Nat) (stop j : Nat) : Prop :=
  byteAt buf j = stop ∧ (j = 0 ∨ byteAt buf (j-1) ≠ 92)

lemma scanToF_char (buf : List Nat) (stop : Nat) :
    ∀ fuel i, buf.length - i < fuel → i ≤ buf.length →
      i ≤ scanToF fuel buf i stop ∧ scanToF fuel buf i stop ≤ buf.length ∧
      (scanToF fuel buf i stop < buf.length → StopsAt buf stop (scanToF fuel buf i stop)) ∧
      (∀ k, i ≤ k → k < scanToF fuel buf i stop → ¬ StopsAt buf stop k) := by
  intro fuel
  induction fuel with
  | zero => intro i h; omega
  | succ fuel ih =>
    intro i hfuel hi
    rw [scanToF]
    by_cases hlen : i ≥ buf.length
    · simp only [if_pos hlen]
      refine ⟨le_refl _, hi, ?_, ?_⟩
      · intro h; omega
      · intro k hk1 hk2; omega
    · simp only [if_neg hlen]
      by_cases hcond : (byteAt buf i == stop && (i == 0 || byteAt buf (i-1) != 92)) = true
      · simp only [if_pos hcond]
        simp only [Bool.and_eq_true, beq_iff_eq, Bool.or_eq_true, bne_iff_ne] at hcond
        refine ⟨le_refl _, hi, ?_, ?_⟩
        · intro _
          exact ⟨hcond.1, hcond.2⟩
        · intro k hk1 hk2; omega
      · simp only [if_neg hcond]
        have h1 : buf.length - (i+1) < fuel := by omega
        have h2 : i + 1 ≤ buf.length := by omega
        obtain ⟨ha, hb, hc, hd⟩ := ih (i+1) h1 h2
        refine ⟨by omega, hb, hc, ?_⟩
        intro k hk1 hk2
        rcases Nat.eq_or_lt_of_le hk1 with heq | hlt
        · subst heq
          intro ⟨hs1, hs2⟩
          apply hcond
          simp only [Bool.and_eq_true, beq_iff_eq, Bool.or_eq_true, bne_iff_ne]
          exact ⟨hs1, hs2⟩
        · exact hd k hlt hk2

/-- Claim C8 (amended): for every buffer, start index in range and stop
byte, scanTo stops at the first occurrence of the stop byte whose
immediately preceding byte is not a backslash, even when that backslash
is itself escaped, or at the end of the buffer, and returns that end
index together with the consumed slice. -/
theorem scanTo_first_unescaped_stop (buf : List Nat) (i stop : Nat) (hi : i ≤ buf.length) :
    i ≤ (scanTo buf i stop).1 ∧
    (scanTo buf i stop).1 ≤ buf.length ∧
    ((scanTo buf i stop).1 < buf.length → StopsAt buf stop (scanTo buf i stop).1) ∧
    (∀ k, i ≤ k → k < (scanTo buf i stop).1 → ¬ StopsAt buf stop k) ∧
    (scanTo buf i stop).2 = goSlice buf i (scanTo buf i stop).1 := by
  have h := scanToF_char buf stop (buf.length + 1) i (by omega) hi
  exact ⟨h.1, h.2.1, h.2.2.1, h.2.2.2, rfl⟩

/-- Claim C8, counterexample: in the buffer a backslash backslash equals b
(bytes 97 92 92 61 98) the stop byte 61 at index 3 is preceded by an
escaped backslash, so by the claim the scan should terminate at index 3;
the code does not stop there and runs to the end of the buffer, index 5. -/
theorem scanTo_escaped_backslash_not_stop :
    (scanTo [97, 92, 92, 61, 98] 0 61).1 = 5 ∧
    (scanTo [97, 92, 92, 61, 98] 0 61).1 ≠ 3 ∧
    byteAt [97, 92, 92, 61, 98] 3 = 61 ∧
    byteAt [97, 92, 92, 61, 98] 2 = 92 ∧ byteAt [97, 92, 92, 61, 98] 1 = 92 := by
  refine ⟨?_, ?_, ?_, ?_, ?_⟩ <;> decide

/-- Witness for the amended claim C8 at a concrete input: in the buffer
a equals b the scan from 0 stops exactly at the equals sign, index 1. -/
theorem scanTo_first_unescaped_stop_witness :
    byteAt [97, 61, 98] (scanTo [97, 61, 98] 0 61).1 = 61 ∧ (scanTo [97, 61, 98] 0 61).1 = 1 := by
  have h := scanTo_first_unescaped_stop [97, 61, 98] 0 61 (by decide)
  have hj : (scanTo [97, 61, 98] 0 61).1 = 1 := by decide
  have hlt : (scanTo [97, 61, 98] 0 61).1 < ([97, 61, 98] : List Nat).length := by decide
  exact ⟨(h.2.2.1 hlt).1, hj⟩

/-! ## Properties of the map model and the aggregator -/

lemma aget_aset {β : Type} (m : List (List Nat × β)) (k key : List Nat) (v : β) :
    aget (aset m k v) key = if k = key then some v else aget m key := by
  induction m with
  | nil => by_cases h : k = key <;> simp [aset, aget, h]
  | cons p rest ih =>
    obtain ⟨k', v'⟩ := p
    by_cases h1 : k' = k
    · subst h1
      by_cases h2 : k' = key <;> simp [aset, aget, h2, ih]
    · by_cases h2 : k' = key
      · subst h2
        have hne : ¬ k = k' := fun hh => h1 hh.symm
        simp [aset, aget, h1, hne]
      · simp [aset, aget, h1, h2, ih]

lemma aget_eq_none {β : Type} (m : List (List Nat × β)) (key : List Nat)
    (h : key ∉ m.map Prod.fst) : aget m key = none := by
  induction m with
  | nil => rfl
  | cons p rest ih =>
    simp only [List.map_cons, List.mem_cons, not_or] at h
    have hne : ¬ p.1 = key := fun hh => h.1 hh.symm
    simp [aget, hne, ih h.2]

lemma aget_adel_ne {β : Type} (m : List (List Nat × β)) (k key : List Nat) (h : key ≠ k) :
    aget (adel m k) key = aget m key := by
  induction m with
  | nil => rfl
  | cons p rest ih =>
    obtain ⟨k', v'⟩ := p
    by_cases h1 : k' = k
    · subst h1
      have hne : ¬ k' = key := fun hh => h (hh ▸ rfl)
      simp [adel, aget, hne]
    · simp [adel, aget, h1, ih]

lemma adel_map_fst_sublist {β : Type} (m : List (List Nat × β)) (k : List Nat) :
    ((adel m k).map Prod.fst).Sublist (m.map Prod.fst) := by
  induction m with
  | nil => simp [adel]
  | cons p rest ih =>
    obtain ⟨k', v'⟩ := p
    by_cases h1 : k' = k
    · simp only [adel, if_pos h1, List.map_cons]
      exact (List.sublist_cons_self _ _)
    · simp only [adel, if_neg h1, List.map_cons]
      exact ih.cons₂ _

lemma adel_nodup {β : Type} (m : List (List Nat × β)) (k : List Nat)
    (h : (m.map Prod.fst).Nodup) : ((adel m k).map Prod.fst).Nodup :=
  h.sublist (adel_map_fst_sublist m k)

lemma aget_adel_self {β : Type} (m : List (List Nat × β)) (k : List Nat)
    (h : (m.map Prod.fst).Nodup) : aget (adel m k) k = none := by
  induction m with
  | nil => rfl
  | cons p rest ih =>
    obtain ⟨k', v'⟩ := p
    simp only [List.map_cons, List.nodup_cons] at h
    by_cases h1 : k' = k
    · subst h1
      simp only [adel, if_pos rfl]
      exact aget_eq_none rest k' h.1
    · simp [adel, aget, h1, ih h.2]

lemma aget_mergeInto (fields : FieldMapB) :
    ∀ (row : FieldMapB) (key : List Nat), (fields.map Prod.fst).Nodup →
      aget (mergeInto row fields) key =
        match aget fields key with
        | some v => some v
        | none => aget row key := by
  induction fields with
  | nil => intro row key _; rfl
  | cons p rest ih =>
    intro row key hf
    obtain ⟨k, v⟩ := p
    simp only [List.map_cons, List.nodup_cons] at hf
    have hstep : mergeInto row ((k, v) :: rest) = mergeInto (aset row k v) rest := rfl
    rw [hstep, ih (aset row k v) key hf.2]
    by_cases h : k = key
    · subst h
      rw [aget_eq_none rest k hf.1]
      simp [aget, aget_aset]
    · simp only [aget, if_neg h]
      cases aget rest key <;> simp [aget_aset, h]

/-- Claim C3: two successfully parsed lines with identical canonical key
and identical timestamp are merged by the aggregation loop into a single
group whose field map is, pointwise, the later line's value when present
and otherwise the earlier line's value (union for disjoint field sets,
last write wins on a shared field name, earlier fields retained). -/
theorem aggregator_merges_same_key_timestamp (key ts : List Nat) (f1 f2 : FieldMapB)
    (h1 : (f1.map Prod.fst).Nodup) (h2 : (f2.map Prod.fst).Nodup) :
    processPoint (processPoint [] key ts f1) key ts f2 =
      [(key, [(ts, mergeInto (mergeInto [] f1) f2)])] ∧
    ∀ name, aget (mergeInto (mergeInto [] f1) f2) name =
      match aget f2 name with
      | some v => some v
      | none => aget f1 name := by
  constructor
  · simp [processPoint, aget, aset]
  · intro name
    rw [aget_mergeInto f2 _ name h2]
    cases hv : aget f2 name
    · simp only
      rw [aget_mergeInto f1 _ name h1]
      cases hv1 : aget f1 name <;> rfl
    · rfl

/-- Witness for claim C3 at concrete inputs: fields a=1,b=2 merged with
fields b=3,c=4 under the same key and timestamp give one group in which
b has the later value 3. -/
theorem aggregator_merges_same_key_timestamp_witness :
    processPoint (processPoint [] [107] [49] [([97], [49]), ([98], [50])]) [107] [49]
        [([98], [51]), ([99], [52])] =
      [([107], [([49], mergeInto (mergeInto [] [([97], [49]), ([98], [50])])
        [([98], [51]), ([99], [52])])])] ∧
    aget (mergeInto (mergeInto [] [([97], [49]), ([98], [50])]) [([98], [51]), ([99], [52])])
        [98] = some [51] ∧
    aget (mergeInto (mergeInto [] [([97], [49]), ([98], [50])]) [([98], [51]), ([99], [52])])
        [97] = some [49] := by
  have h := aggregator_merges_same_key_timestamp [107] [49]
    [([97], [49]), ([98], [50])] [([98], [51]), ([99], [52])] (by decide) (by decide)
  refine ⟨h.1, ?_, ?_⟩
  · exact (h.2 [98]).trans (by decide)
  · exact (h.2 [97]).trans (by decide)

/-- The tag segments appended to the key by the promotion loop, one
comma name equals trimmed-value segment for each caller-supplied name
that is present in the field map, in caller order. -/
def promoSegs (names : List (List Nat)) (fields : FieldMapB) : List Nat :=
  (names.map (fun n =>
    match aget fields n with
    | some v => 44 :: n ++ 61 :: trimQuotes v
    | none => [])).flatten

lemma promoteLoop_cons (n : List Nat) (rest : List (List Nat)) (key : List Nat)
    (fields : FieldMapB) :
    promoteLoop (n :: rest) key fields =
      match aget fields n with
      | some v => promoteLoop rest (key ++ 44 :: n ++ 61 :: trimQuotes v) (adel fields n)
      | none => promoteLoop rest key fields := by
  simp only [promoteLoop, List.foldl_cons]
  cases aget fields n <;> rfl

lemma promoteLoop_spec (names : List (List Nat)) :
    ∀ (key : List Nat) (fields : FieldMapB), names.Nodup → (fields.map Prod.fst).Nodup →
      (promoteLoop names key fields).1 = key ++ promoSegs names fields ∧
      (∀ n ∈ names, aget (promoteLoop names key fields).2 n = none) ∧
      (∀ k, k ∉ names → aget (promoteLoop names key fields).2 k = aget fields k) := by
  induction names with
  | nil =>
    intro key fields _ _
    refine ⟨by simp [promoteLoop, promoSegs], by simp, fun k _ => rfl⟩
  | cons n rest ih =>
    intro key fields hn hf
    simp only [List.nodup_cons] at hn
    rw [promoteLoop_cons]
    cases hv : aget fields n with
    | some v =>
      obtain ⟨ha, hb, hc⟩ := ih (key ++ 44 :: n ++ 61 :: trimQuotes v) (adel fields n)
        hn.2 (adel_nodup fields n hf)
      have hsegs : promoSegs rest (adel fields n) = promoSegs rest fields := by
        unfold promoSegs
        congr 1
        apply List.map_congr_left
        intro m hm
        rw [aget_adel_ne fields n m (fun he => hn.1 (he ▸ hm))]
      refine ⟨?_, ?_, ?_⟩
      · rw [ha, hsegs]
        simp [promoSegs, hv, List.append_assoc]
      · intro m hm
        rcases List.mem_cons.mp hm with he | hm'
        · subst he
          rw [hc m hn.1, aget_adel_self fields m hf]
        · exact hb m hm'
      · intro k hk
        simp only [List.mem_cons, not_or] at hk
        rw [hc k hk.2, aget_adel_ne fields n k hk.1]
    | none =>
      obtain ⟨ha, hb, hc⟩ := ih key fields hn.2 hf
      refine ⟨?_, ?_, ?_⟩
      · rw [ha]
        simp [promoSegs, hv]
      · intro m hm
        rcases List.mem_cons.mp hm with he | hm'
        · subst he
          exact (hc m hn.1).trans hv
        · exact hb m hm'
      · intro k hk
        simp only [List.mem_cons, not_or] at hk
        exact hc k hk.2

/-- Claim C4: at emission, each caller-supplied promotable field name, in
caller order, that is present in the group's field map is removed from
the map and appended to the key as a literal comma name equals value
segment with surrounding quote bytes stripped (trimQuotes performs no
other unescaping); every remaining field becomes one output line of the
augmented key, a space, that single field assignment, and the original
timestamp suffix. -/
theorem emission_promotes_then_one_line_per_field (names : List (List Nat))
    (key ts : List Nat) (fields : FieldMapB)
    (hn : names.Nodup) (hf : (fields.map Prod.fst).Nodup) :
    (promoteLoop names key fields).1 = key ++ promoSegs names fields ∧
    (∀ n ∈ names, aget (promoteLoop names key fields).2 n = none) ∧
    (∀ k, k ∉ names → aget (promoteLoop names key fields).2 k = aget fields k) ∧
    emitGroup names key ts fields =
      (promoteLoop names key fields).2.map
        (fun kv => ((promoteLoop names key fields).1 ++ [32]) ++ kv.1 ++ 61 :: kv.2 ++
          (if ts.length == 0 then [] else 32 :: ts)) := by
  obtain ⟨ha, hb, hc⟩ := promoteLoop_spec names key fields hn hf
  exact ⟨ha, hb, hc, rfl⟩

/-- Witness for claim C4 at concrete inputs: promoting the field name
idd (bytes 105 100 100) with quoted value bar out of a two-field group
appends the unquoted tag and leaves one remaining field line. -/
theorem emission_promotes_witness :
    (promoteLoop [[105]] [109] [([105], [34, 98, 34]), ([118], [49])]).1 =
      [109] ++ promoSegs [[105]] [([105], [34, 98, 34]), ([118], [49])] ∧
    aget (promoteLoop [[105]] [109] [([105], [34, 98, 34]), ([118], [49])]).2 [105] = none ∧
    emitGroup [[105]] [109] [53] [([105], [34, 98, 34]), ([118], [49])] =
      [[109, 44, 105, 61, 98, 32, 118, 61, 49, 32, 53]] := by
  have h := emission_promotes_then_one_line_per_field [[105]] [109] [53]
    [([105], [34, 98, 34]), ([118], [49])] (by decide) (by decide)
  exact ⟨h.1, h.2.1 [105] (by decide), by decide⟩

/-! ## parseLine: totality, timestamp handling -/

/-- Claim C10: parseLine is claimed total, but on the line cpu value=1
(fields running to the end of the buffer, no trailing space or
timestamp) the Go code evaluates b[pos+1:] with pos+1 exceeding the
buffer length, a runtime panic, modelled here as the sliceOutOfRange
outcome. -/
theorem parseLine_panics_without_separator :
    parseLine [99, 112, 117, 32, 118, 97, 108, 117, 101, 61, 49] =
      .error (.goPanic .sliceOutOfRange) := by
  decide

/-- Claim C6 (amended): the timestamp is required, not optional: parseLine
never returns an empty timestamp span (a line whose timestamp span is
empty is rejected with a missing-timestamp error). -/
theorem parseLine_timestamp_nonempty (b k : List Nat) (f : FieldMapB) (ts : List Nat)
    (h : parseLine b = .ok (k, f, ts)) : ts ≠ [] := by
  rw [parseLine] at h
  split at h
  · exact Except.noConfusion h
  · exact Except.noConfusion h
  · split at h
    · exact Except.noConfusion h
    · split at h
      · exact Except.noConfusion h
      · split at h
        · exact Except.noConfusion h
        · split at h
          · exact Except.noConfusion h
          · split at h
            · exact Except.noConfusion h
            · split at h
              · exact Except.noConfusion h
              · split at h
                · exact Except.noConfusion h
                · next hlen =>
                  injection h with h1
                  injection h1 with hk h2
                  injection h2 with hf hts'
                  subst hts'
                  intro hnil
                  rw [hnil] at hlen
                  simp at hlen

/-- Witness for the amended claim C6: the line cpu value=1 5 parses with
the nonempty timestamp 5. -/
theorem parseLine_timestamp_nonempty_witness : ([53] : List Nat) ≠ [] :=
  parseLine_timestamp_nonempty [99, 112, 117, 32, 118, 97, 108, 117, 101, 61, 49, 32, 53]
    [99, 112, 117] [([118, 97, 108, 117, 101], [49])] [53] (by decide)

/-- Claim C6, counterexample: the line cpu value=1 followed by a single
space has a valid key and valid fields and no timestamp token, yet
parseLine rejects it with a missing-timestamp error instead of parsing it
with an empty timestamp span. -/
theorem parseLine_rejects_empty_timestamp :
    parseLine [99, 112, 117, 32, 118, 97, 108, 117, 101, 61, 49, 32] =
      .error .missingTimestamp := by
  decide

/-- The timestamp grammar stated by the spec for the Timestamp Scanner:
an optional single leading minus sign, thereafter every byte of the token
must be a decimal digit.  Modelled from the spec for comparison with
scanTime. -/
def timestampTokenOk (tok : List Nat) : Bool :=
  match tok with
  | [] => true
  | c :: rest => if c = 45 then rest.all isDigit else (c :: rest).all isDigit

lemma byteAt_lt (buf : List Nat) (i : Nat) (h : i < buf.length) : byteAt buf i = buf[i] := by
  simp [byteAt, List.getD_eq_getElem?_getD, List.getElem?_eq_getElem h]

lemma drop_eq_cons_of_lt (buf : List Nat) (i : Nat) (h : i < buf.length) :
    buf.drop i = byteAt buf i :: buf.drop (i+1) := by
  rw [byteAt_lt buf i h]
  exact List.drop_eq_getElem_cons h

lemma scanTimeLoop_digits (buf : List Nat) (start : Nat) :
    ∀ fuel i, buf.length - i < fuel → start < i →
      (((scanTimeLoopF fuel buf start i).2 = none) ↔
        ((buf.drop i).takeWhile (fun c => c != 10 && c != 32)).all isDigit = true) := by
  intro fuel
  induction fuel with
  | zero => intro i h; omega
  | succ fuel ih =>
    intro i hfuel hstart
    rw [scanTimeLoopF]
    by_cases hlen : i ≥ buf.length
    · rw [if_pos hlen]
      simp [List.drop_eq_nil_of_le hlen]
    · rw [if_neg hlen]
      have hdrop := drop_eq_cons_of_lt buf i (by omega)
      by_cases hbrk : byteAt buf i == 10 || byteAt buf i == 32
      · rw [if_pos hbrk]
        simp only [Bool.or_eq_true, beq_iff_eq] at hbrk
        rw [hdrop]
        have : (byteAt buf i != 10 && byteAt buf i != 32) = false := by
          rcases hbrk with h | h <;> simp [h]
        simp [List.takeWhile_cons, this]
      · rw [if_neg hbrk]
        have hne : (i == start) = false := by
          simp only [beq_eq_false_iff_ne]
          omega
        simp only [hne, Bool.false_and, Bool.false_eq_true, if_false]
        simp only [Bool.or_eq_true, beq_iff_eq, not_or] at hbrk
        have hcons : (byteAt buf i != 10 && byteAt buf i != 32) = true := by
          simp [hbrk.1, hbrk.2]
        have htok : List.takeWhile (fun c => c != 10 && c != 32) (List.drop i buf) =
            byteAt buf i :: List.takeWhile (fun c => c != 10 && c != 32) (List.drop (i+1) buf) := by
          rw [hdrop, List.takeWhile_cons, if_pos hcons]
        by_cases hdig : byteAt buf i < 48 || 57 < byteAt buf i
        · rw [if_pos hdig]
          simp only [Bool.or_eq_true, decide_eq_true_eq] at hdig
          constructor
          · intro h; exact Option.noConfusion h
          · intro h
            rw [htok] at h
            simp only [List.all_cons, Bool.and_eq_true] at h
            have hd : isDigit (byteAt buf i) = true := h.1
            unfold isDigit at hd
            simp only [Bool.and_eq_true, decide_eq_true_eq] at hd
            omega
        · rw [if_neg hdig]
          rw [ih (i+1) (by omega) (by omega), htok]
          simp only [Bool.or_eq_true, decide_eq_true_eq, not_or, not_lt] at hdig
          have hd : isDigit (byteAt buf i) = true := by
            unfold isDigit
            simp only [Bool.and_eq_true, decide_eq_true_eq]
            omega
          simp [hd]

/-- Claim C5 (amended): the Timestamp Scanner scanTime accepts exactly
the stated grammar: after skipping leading whitespace, it succeeds if
and only if, after an optional single leading minus sign, every byte of
the token extending to the first newline, space or end of buffer is a
decimal digit.  (parseLine itself never invokes scanTime and performs no
timestamp validation.) -/
theorem scanTime_accepts_exactly_grammar (buf : List Nat) (i : Nat) :
    ((scanTime buf i).2.2 = none) ↔
      timestampTokenOk ((buf.drop (skipWhitespace buf i)).takeWhile
        (fun c => c != 10 && c != 32)) = true := by
  have hmain : ∀ start, (((scanTimeLoopF (buf.length + 1) buf start start).2 = none) ↔
      timestampTokenOk ((buf.drop start).takeWhile (fun c => c != 10 && c != 32)) = true) := by
    intro start
    rw [scanTimeLoopF]
    by_cases hlen : start ≥ buf.length
    · rw [if_pos hlen]
      simp [List.drop_eq_nil_of_le hlen, timestampTokenOk]
    · rw [if_neg hlen]
      have hdrop := drop_eq_cons_of_lt buf start (by omega)
      by_cases hbrk : byteAt buf start == 10 || byteAt buf start == 32
      · rw [if_pos hbrk]
        simp only [Bool.or_eq_true, beq_iff_eq] at hbrk
        have : (byteAt buf start != 10 && byteAt buf start != 32) = false := by
          rcases hbrk with h | h <;> simp [h]
        rw [hdrop]
        simp [List.takeWhile_cons, this, timestampTokenOk]
      · rw [if_neg hbrk]
        simp only [Bool.or_eq_true, beq_iff_eq, not_or] at hbrk
        have hcons : (byteAt buf start != 10 && byteAt buf start != 32) = true := by
          simp [hbrk.1, hbrk.2]
        have htok : List.takeWhile (fun c => c != 10 && c != 32) (List.drop start buf) =
            byteAt buf start ::
              List.takeWhile (fun c => c != 10 && c != 32) (List.drop (start+1) buf) := by
          rw [hdrop, List.takeWhile_cons, if_pos hcons]
        simp only [beq_self_eq_true, Bool.true_and]
        by_cases hminus : (byteAt buf start == 45) = true
        · simp only [hminus, if_true]
          rw [scanTimeLoop_digits buf start (buf.length) (start + 1) (by omega) (by omega)]
          simp only [beq_iff_eq] at hminus
          rw [htok]
          simp [timestampTokenOk, hminus]
        · simp only [Bool.not_eq_true] at hminus
          simp only [hminus, Bool.false_eq_true, if_false]
          simp only [beq_eq_false_iff_ne] at hminus
          by_cases hdig : byteAt buf start < 48 || 57 < byteAt buf start
          · rw [if_pos hdig]
            simp only [Bool.or_eq_true, decide_eq_true_eq] at hdig
            constructor
            · intro h; exact Option.noConfusion h
            · intro h
              rw [htok] at h
              simp only [timestampTokenOk, if_neg hminus, List.all_cons,
                Bool.and_eq_true] at h
              have hd : isDigit (byteAt buf start) = true := h.1
              unfold isDigit at hd
              simp only [Bool.and_eq_true, decide_eq_true_eq] at hd
              omega
          · rw [if_neg hdig]
            rw [scanTimeLoop_digits buf start (buf.length) (start + 1) (by omega) (by omega)]
            rw [htok]
            simp only [Bool.or_eq_true, decide_eq_true_eq, not_or, not_lt] at hdig
            have hd : isDigit (byteAt buf start) = true := by
              unfold isDigit
              simp only [Bool.and_eq_true, decide_eq_true_eq]
              omega
            simp [timestampTokenOk, hminus, hd]
  exact hmain (skipWhitespace buf i)

/-- Claim C5, counterexample: the line cpu value=1 abc is accepted by
parseLine with timestamp token abc, whose bytes are not decimal digits,
so an accepted line need not satisfy the Timestamp Scanner grammar and
no bad-timestamp error is raised. -/
theorem parseLine_accepts_nondigit_timestamp :
    parseLine [99, 112, 117, 32, 118, 97, 108, 117, 101, 61, 49, 32, 97, 98, 99] =
      .ok ([99, 112, 117], [([118, 97, 108, 117, 101], [49])], [97, 98, 99]) ∧
    timestampTokenOk [97, 98, 99] = false ∧
    (scanTime [97, 98, 99] 0).2.2 = some .badTimestamp := by
  refine ⟨by decide, by decide, by decide⟩

/-! ## Properties of the numeric literal validator -/

/-- The byte classes that the scanNumber loop can consume without
erroring: digits, one dot, the integer marker i after the start, the
exponent letters, and a sign immediately preceded by an exponent
letter. -/
def charOKN (buf : List Nat) (st k : Nat) : Prop :=
  isDigit (byteAt buf k) = true ∨ byteAt buf k = 46 ∨
  (byteAt buf k = 105 ∧ st < k) ∨ byteAt buf k = 101 ∨ byteAt buf k = 69 ∨
  ((byteAt buf k = 43 ∨ byteAt buf k = 45) ∧
    (byteAt buf (k-1) = 101 ∨ byteAt buf (k-1) = 69))

/-- Invariant established by a successful run of the scanNumber loop from
position i with entry flags f to exit position j with exit flags g. -/
def NumInv (buf : List Nat) (st i : Nat) (f1 f2 f3 : Bool) (j : Nat) (g1 g2 g3 : Bool) :
    Prop :=
  (i ≤ j ∧ j ≤ buf.length) ∧
  (j < buf.length → byteAt buf j = 44 ∨ byteAt buf j = 32) ∧
  (∀ k, i ≤ k → k < j → charOKN buf st k) ∧
  (g1 = true ↔ (f1 = true ∨ ∃ k, i ≤ k ∧ k < j ∧ byteAt buf k = 105)) ∧
  (g2 = true ↔ (f2 = true ∨ ∃ k, i ≤ k ∧ k < j ∧ byteAt buf k = 46)) ∧
  (g3 = true ↔ (f3 = true ∨ ∃ k, i ≤ k ∧ k < j ∧ (byteAt buf k = 101 ∨ byteAt buf k = 69))) ∧
  (f1 = true → ∀ k, i ≤ k → k < j → byteAt buf k ≠ 105) ∧
  (f2 = true → ∀ k, i ≤ k → k < j → byteAt buf k ≠ 46) ∧
  (∀ k1 k2, i ≤ k1 → k1 < k2 → k2 < j → byteAt buf k1 = 105 → byteAt buf k2 ≠ 105) ∧
  (∀ k1 k2, i ≤ k1 → k1 < k2 → k2 < j → byteAt buf k1 = 46 → byteAt buf k2 ≠ 46)

lemma exists_range_shift (i j : Nat) (Q : Nat → Prop) (hi : ¬ Q i) :
    (∃ k, i ≤ k ∧ k < j ∧ Q k) ↔ (∃ k, i + 1 ≤ k ∧ k < j ∧ Q k) := by
  constructor
  · rintro ⟨k, h1, h2, h3⟩
    refine ⟨k, ?_, h2, h3⟩
    rcases Nat.eq_or_lt_of_le h1 with rfl | h
    · exact absurd h3 hi
    · omega
  · rintro ⟨k, h1, h2, h3⟩
    exact ⟨k, by omega, h2, h3⟩

lemma numInv_terminal (buf : List Nat) (st i : Nat) (f1 f2 f3 : Bool)
    (hlen : i ≤ buf.length)
    (hterm : i < buf.length → byteAt buf i = 44 ∨ byteAt buf i = 32) :
    NumInv buf st i f1 f2 f3 i f1 f2 f3 := by
  refine ⟨⟨le_refl _, hlen⟩, hterm, ?_, ?_, ?_, ?_, ?_, ?_, ?_, ?_⟩
  · intro k h1 h2; omega
  · constructor
    · exact Or.inl
    · rintro (h | ⟨k, h1, h2, _⟩)
      · exact h
      · omega
  · constructor
    · exact Or.inl
    · rintro (h | ⟨k, h1, h2, _⟩)
      · exact h
      · omega
  · constructor
    · exact Or.inl
    · rintro (h | ⟨k, h1, h2, _⟩)
      · exact h
      · omega
  · intro _ k h1 h2; omega
  · intro _ k h1 h2; omega
  · intro k1 k2 h1 h2 h3; omega
  · intro k1 k2 h1 h2 h3; omega

lemma numInv_step (buf : List Nat) (st i : Nat) (f1 f2 f3 f1' f2' f3' : Bool) (j : Nat)
    (g1 g2 g3 : Bool)
    (hchar : charOKN buf st i)
    (h105 : byteAt buf i = 105 → f1 = false ∧ f1' = true)
    (hn105 : byteAt buf i ≠ 105 → f1' = f1)
    (h46 : byteAt buf i = 46 → f2 = false ∧ f2' = true)
    (hn46 : byteAt buf i ≠ 46 → f2' = f2)
    (hE : (byteAt buf i = 101 ∨ byteAt buf i = 69) → f3' = true)
    (hnE : ¬(byteAt buf i = 101 ∨ byteAt buf i = 69) → f3' = f3)
    (hrec : NumInv buf st (i+1) f1' f2' f3' j g1 g2 g3) :
    NumInv buf st i f1 f2 f3 j g1 g2 g3 := by
  obtain ⟨hb, ht, hc, h1, h2, h3, hm1, hm2, hu1, hu2⟩ := hrec
  have hij : i < j := by omega
  refine ⟨⟨by omega, hb.2⟩, ht, ?_, ?_, ?_, ?_, ?_, ?_, ?_, ?_⟩
  · intro k hk1 hk2
    rcases Nat.eq_or_lt_of_le hk1 with rfl | h
    · exact hchar
    · exact hc k h hk2
  · by_cases hcase : byteAt buf i = 105
    · obtain ⟨hf, hf'⟩ := h105 hcase
      rw [h1, hf', hf]
      constructor
      · intro _
        exact Or.inr ⟨i, le_refl _, hij, hcase⟩
      · intro _
        simp
    · rw [h1, hn105 hcase]
      exact (or_congr Iff.rfl
        (exists_range_shift i j (fun k => byteAt buf k = 105) hcase)).symm
  · by_cases hcase : byteAt buf i = 46
    · obtain ⟨hf, hf'⟩ := h46 hcase
      rw [h2, hf', hf]
      constructor
      · intro _
        exact Or.inr ⟨i, le_refl _, hij, hcase⟩
      · intro _
        simp
    · rw [h2, hn46 hcase]
      exact (or_congr Iff.rfl
        (exists_range_shift i j (fun k => byteAt buf k = 46) hcase)).symm
  · by_cases hcase : byteAt buf i = 101 ∨ byteAt buf i = 69
    · rw [h3, hE hcase]
      constructor
      · intro _
        exact Or.inr ⟨i, le_refl _, hij, hcase⟩
      · intro _
        simp
    · rw [h3, hnE hcase]
      exact (or_congr Iff.rfl (exists_range_shift i j
        (fun k => byteAt buf k = 101 ∨ byteAt buf k = 69) hcase)).symm
  · intro hf k hk1 hk2
    by_cases hcase : byteAt buf i = 105
    · exact absurd hf (by rw [(h105 hcase).1]; simp)
    · rcases Nat.eq_or_lt_of_le hk1 with rfl | h
      · exact hcase
      · exact hm1 (by rw [hn105 hcase]; exact hf) k h hk2
  · intro hf k hk1 hk2
    by_cases hcase : byteAt buf i = 46
    · exact absurd hf (by rw [(h46 hcase).1]; simp)
    · rcases Nat.eq_or_lt_of_le hk1 with rfl | h
      · exact hcase
      · exact hm2 (by rw [hn46 hcase]; exact hf) k h hk2
  · intro k1 k2 hk1 hk12 hk2 hq1
    rcases Nat.eq_or_lt_of_le hk1 with rfl | h
    · exact hm1 (h105 hq1).2 k2 (by omega) hk2
    · exact hu1 k1 k2 h hk12 hk2 hq1
  · intro k1 k2 hk1 hk12 hk2 hq1
    rcases Nat.eq_or_lt_of_le hk1 with rfl | h
    · exact hm2 (h46 hq1).2 k2 (by omega) hk2
    · exact hu2 k1 k2 h hk12 hk2 hq1

lemma isDigit_facts (c : Nat) (h : isDigit c = true) :
    c ≠ 105 ∧ c ≠ 101 ∧ c ≠ 69 ∧ c ≠ 46 := by
  unfold isDigit at h
  simp only [Bool.and_eq_true, decide_eq_true_eq] at h
  omega

lemma scanNumLoopF_inv (buf : List Nat) (st : Nat) :
    ∀ fuel i (f1 f2 f3 : Bool) (j : Nat) (g1 g2 g3 : Bool),
      buf.length - i < fuel → i ≤ buf.length →
      scanNumLoopF fuel buf st i f1 f2 f3 = .ok (j, g1, g2, g3) →
      NumInv buf st i f1 f2 f3 j g1 g2 g3 := by
  intro fuel
  induction fuel with
  | zero => intro i _ _ _ _ _ _ _ h; omega
  | succ fuel ih =>
    intro i f1 f2 f3 j g1 g2 g3 hfuel hi h
    rw [scanNumLoopF] at h
    by_cases hlen : i ≥ buf.length
    · rw [if_pos hlen] at h
      simp only [Except.ok.injEq, Prod.mk.injEq] at h
      obtain ⟨rfl, rfl, rfl, rfl⟩ := h
      exact numInv_terminal buf st i f1 f2 f3 (by omega) (by intro hh; omega)
    · rw [if_neg hlen] at h
      by_cases hdel : (byteAt buf i == 44 || byteAt buf i == 32) = true
      · rw [if_pos hdel] at h
        simp only [Except.ok.injEq, Prod.mk.injEq] at h
        obtain ⟨rfl, rfl, rfl, rfl⟩ := h
        simp only [Bool.or_eq_true, beq_iff_eq] at hdel
        exact numInv_terminal buf st i f1 f2 f3 (by omega) (fun _ => hdel)
      · rw [if_neg hdel] at h
        by_cases hbr3 : (byteAt buf i == 105 && decide (st < i) && !f1) = true
        · rw [if_pos hbr3] at h
          simp only [Bool.and_eq_true, beq_iff_eq, decide_eq_true_eq,
            Bool.not_eq_true'] at hbr3
          obtain ⟨⟨hb105, hlt⟩, hf1⟩ := hbr3
          refine numInv_step buf st i f1 f2 f3 true f2 f3 j g1 g2 g3
            (Or.inr (Or.inr (Or.inl ⟨hb105, hlt⟩)))
            (fun _ => ⟨hf1, rfl⟩)
            (fun hne => absurd hb105 hne)
            (fun hq => absurd hq (by rw [hb105]; norm_num))
            (fun _ => rfl)
            (fun hq => False.elim (by rcases hq with hq | hq <;>
              (rw [hb105] at hq; norm_num at hq)))
            (fun _ => rfl)
            (ih (i+1) true f2 f3 j g1 g2 g3 (by omega) (by omega) h)
        · rw [if_neg hbr3] at h
          by_cases hbr4 : (byteAt buf i == 46 && f2) = true
          · rw [if_pos hbr4] at h
            exact Except.noConfusion h
          · rw [if_neg hbr4] at h
            by_cases hbr5 : (decide (st < i) && (byteAt buf i == 101 || byteAt buf i == 69)) = true
            · rw [if_pos hbr5] at h
              simp only [Bool.and_eq_true, decide_eq_true_eq, Bool.or_eq_true,
                beq_iff_eq] at hbr5
              obtain ⟨hlt, he⟩ := hbr5
              have hne46 : byteAt buf i ≠ 46 := by rcases he with he | he <;> rw [he] <;> norm_num
              have hor : (byteAt buf i == 46) = false := by
                simp only [beq_eq_false_iff_ne]
                exact hne46
              refine numInv_step buf st i f1 f2 f3 f1 (f2 || (byteAt buf i == 46)) true j g1 g2 g3
                (by rcases he with he | he
                    · exact Or.inr (Or.inr (Or.inr (Or.inl he)))
                    · exact Or.inr (Or.inr (Or.inr (Or.inr (Or.inl he)))))
                (fun hq => False.elim (by rcases he with he | he <;>
                  (rw [he] at hq; norm_num at hq)))
                (fun _ => rfl)
                (fun hq => absurd hq hne46)
                (fun _ => by rw [hor, Bool.or_false])
                (fun _ => rfl)
                (fun hq => absurd he hq)
                (ih (i+1) f1 (f2 || (byteAt buf i == 46)) true j g1 g2 g3
                  (by omega) (by omega) h)
            · rw [if_neg hbr5] at h
              by_cases hbr6 : ((byteAt buf i == 43 || byteAt buf i == 45) &&
                  (byteAt buf (i-1) == 101 || byteAt buf (i-1) == 69)) = true
              · rw [if_pos hbr6] at h
                simp only [Bool.and_eq_true, Bool.or_eq_true, beq_iff_eq] at hbr6
                obtain ⟨hsgn, hprev⟩ := hbr6
                have hne46 : byteAt buf i ≠ 46 := by
                  rcases hsgn with hs | hs <;> rw [hs] <;> norm_num
                have hor : (byteAt buf i == 46) = false := by
                  simp only [beq_eq_false_iff_ne]
                  exact hne46
                refine numInv_step buf st i f1 f2 f3 f1 (f2 || (byteAt buf i == 46)) f3 j g1 g2 g3
                  (Or.inr (Or.inr (Or.inr (Or.inr (Or.inr ⟨hsgn, hprev⟩)))))
                  (fun hq => False.elim (by rcases hsgn with hs | hs <;>
                    (rw [hs] at hq; norm_num at hq)))
                  (fun _ => rfl)
                  (fun hq => absurd hq hne46)
                  (fun _ => by rw [hor, Bool.or_false])
                  (fun hq => False.elim (by rcases hq with hq | hq <;>
                    rcases hsgn with hs | hs <;> (rw [hs] at hq; norm_num at hq)))
                  (fun _ => rfl)
                  (ih (i+1) f1 (f2 || (byteAt buf i == 46)) f3 j g1 g2 g3
                    (by omega) (by omega) h)
              · rw [if_neg hbr6] at h
                by_cases hbr7 : (decide (i + 2 < buf.length) &&
                    (byteAt buf i == 78 || byteAt buf i == 110)) = true
                · rw [if_pos hbr7] at h
                  exact Except.noConfusion h
                · rw [if_neg hbr7] at h
                  by_cases hbr8 : (!isNumeric (byteAt buf i)) = true
                  · rw [if_pos hbr8] at h
                    exact Except.noConfusion h
                  · rw [if_neg hbr8] at h
                    have hnum : isNumeric (byteAt buf i) = true := by
                      revert hbr8
                      cases isNumeric (byteAt buf i) <;> simp
                    by_cases hc46 : byteAt buf i = 46
                    · have hf2 : f2 = false := by
                        by_contra hne
                        have hf2t : f2 = true := by
                          cases f2
                          · exact absurd rfl hne
                          · rfl
                        apply hbr4
                        simp only [Bool.and_eq_true, beq_iff_eq]
                        exact ⟨hc46, hf2t⟩
                      have hor : (byteAt buf i == 46) = true := by
                        simp only [beq_iff_eq]
                        exact hc46
                      refine numInv_step buf st i f1 f2 f3 f1 (f2 || (byteAt buf i == 46)) f3
                        j g1 g2 g3
                        (Or.inr (Or.inl hc46))
                        (fun hq => absurd hq (by rw [hc46]; norm_num))
                        (fun _ => rfl)
                        (fun _ => ⟨hf2, by rw [hor, Bool.or_true]⟩)
                        (fun hne => absurd hc46 hne)
                        (fun hq => False.elim (by rcases hq with hq | hq <;>
                          (rw [hc46] at hq; norm_num at hq)))
                        (fun _ => rfl)
                        (ih (i+1) f1 (f2 || (byteAt buf i == 46)) f3 j g1 g2 g3
                          (by omega) (by omega) h)
                    · have hdig : isDigit (byteAt buf i) = true := by
                        unfold isNumeric at hnum
                        rw [Bool.or_eq_true] at hnum
                        rcases hnum with hd | hd
                        · unfold isDigit
                          exact hd
                        · exact absurd (by simpa using hd) hc46
                      obtain ⟨hd1, hd2, hd3, hd4⟩ := isDigit_facts _ hdig
                      have hor : (byteAt buf i == 46) = false := by
                        simp only [beq_eq_false_iff_ne]
                        exact hd4
                      refine numInv_step buf st i f1 f2 f3 f1 (f2 || (byteAt buf i == 46)) f3
                        j g1 g2 g3
                        (Or.inl hdig)
                        (fun hq => absurd hq hd1)
                        (fun _ => rfl)
                        (fun hq => absurd hq hd4)
                        (fun _ => by rw [hor, Bool.or_false])
                        (fun hq => False.elim (hq.elim hd2 hd3))
                        (fun _ => rfl)
                        (ih (i+1) f1 (f2 || (byteAt buf i == 46)) f3 j g1 g2 g3
                          (by omega) (by omega) h)

lemma floatMantOk_no_digit (mant : List Nat) (h : ∀ b ∈ mant, isDigit b = false) :
    floatMantOk mant = false := by
  rw [floatMantOk]
  rcases hip : mant.takeWhile (fun c => (c != 46 : Bool)) with _ | ⟨e, ip'⟩
  · simp only [hip, List.all_nil, Bool.true_and, List.length_nil, List.drop_zero,
      List.isEmpty_nil, Bool.not_true, Bool.false_or]
    rcases mant with _ | ⟨c, fr⟩
    · simp
    · rcases fr with _ | ⟨d, fr'⟩
      · simp
      · have hd : isDigit d = false := h d (by simp)
        simp [hd]
  · have he : e ∈ mant := by
      have := List.takeWhile_sublist (fun c => (c != 46 : Bool)) (l := mant)
      rw [hip] at this
      exact this.subset (by simp)
    have hde : isDigit e = false := h e he
    simp [hip, hde]

lemma parseFloatBody_no_digit (body : List Nat) (h : ∀ b ∈ body, isDigit b = false) :
    parseFloatBody body = .error () := by
  rw [parseFloatBody]
  have hmant : floatMantOk (body.takeWhile (fun c => c != 101 && c != 69)) = false := by
    apply floatMantOk_no_digit
    intro b hb
    exact h b ((List.takeWhile_sublist _).subset hb)
  rcases hexp : body.drop (body.takeWhile (fun c => c != 101 && c != 69)).length with _ | ⟨e, er⟩
  · simp [hmant]
  · simp [hmant]

lemma parseFloatBytes_no_digit (l : List Nat) (h : ∀ b ∈ l, isDigit b = false) :
    parseFloatBytes l 10 = .error () := by
  rw [parseFloatBytes]
  apply parseFloatBody_no_digit
  intro b hb
  apply h
  rcases l with _ | ⟨c, r⟩
  · simp [stripSign] at hb
  · rw [stripSign] at hb
    by_cases hc : (c == 43 || c == 45) = true
    · rw [if_pos hc] at hb
      exact List.mem_cons_of_mem c hb
    · rw [if_neg hc] at hb
      exact hb

lemma byteAt_cons_succ (c : Nat) (l : List Nat) (k : Nat) :
    byteAt (c :: l) (k+1) = byteAt l k := by
  simp [byteAt]

lemma byteAt_mem (l : List Nat) (k : Nat) (h : k < l.length) : byteAt l k ∈ l := by
  rw [byteAt_lt l k h]
  exact List.getElem_mem h

lemma numLoop_ends_at_len (tok : List Nat) (hdelim : ∀ b ∈ tok, b ≠ 44 ∧ b ≠ 32)
    (i0 j : Nat) (g1 g2 g3 : Bool) (hi0 : 1 ≤ i0)
    (hinv : NumInv (61 :: tok) 1 i0 false false false j g1 g2 g3) :
    j = tok.length + 1 := by
  obtain ⟨⟨hij, hjl⟩, hterm, _⟩ := hinv
  simp only [List.length_cons] at hjl
  by_contra hne
  have hlt : j < (61 :: tok).length := by simp only [List.length_cons]; omega
  have hj1 : j = (j - 1) + 1 := by omega
  have hmem : byteAt tok (j-1) ∈ tok := byteAt_mem tok (j-1) (by omega)
  obtain ⟨h44, h32⟩ := hdelim _ hmem
  rcases hterm hlt with hd | hd <;> rw [hj1, byteAt_cons_succ] at hd
  · exact h44 hd
  · exact h32 hd

lemma scanNumberCore_i_with_frac (tok : List Nat) (i0 : Nat)
    (hdelim : ∀ b ∈ tok, b ≠ 44 ∧ b ≠ 32)
    (hmem : 105 ∈ tok) (hfe : 46 ∈ tok ∨ 101 ∈ tok ∨ 69 ∈ tok)
    (hi0 : i0 = 1 ∨ (i0 = 2 ∧ byteAt tok 0 = 45 ∧ 2 ≤ tok.length)) :
    (scanNumberCore (61 :: tok) 1 i0).2 ≠ none := by
  rw [scanNumberCore]
  rcases hloop : scanNumLoopF ((61 :: tok).length + 2) (61 :: tok) 1 i0 false false false
    with j | ⟨j, g1, g2, g3⟩
  · simp
  · have hi0le : i0 ≤ (61 :: tok).length := by
      rcases hi0 with rfl | ⟨rfl, _, h2⟩ <;> simp only [List.length_cons] <;> omega
    have hinv := scanNumLoopF_inv (61 :: tok) 1 ((61 :: tok).length + 2) i0
      false false false j g1 g2 g3 (by omega) hi0le hloop
    have hj := numLoop_ends_at_len tok hdelim i0 j g1 g2 g3
      (by rcases hi0 with rfl | ⟨rfl, _, _⟩ <;> omega) hinv
    obtain ⟨hb, ht, hc, h1, h2, h3, _⟩ := hinv
    have hpos : ∀ c, c ∈ tok → c ≠ 45 → ∃ k, i0 ≤ k ∧ k < j ∧ byteAt (61 :: tok) k = c := by
      intro c hcmem hc45
      obtain ⟨m, hmlt, hmv⟩ := List.getElem_of_mem hcmem
      refine ⟨m+1, ?_, by omega,
        by rw [byteAt_cons_succ, byteAt_lt tok m hmlt]; exact hmv⟩
      rcases hi0 with rfl | ⟨rfl, h45, _⟩
      · omega
      · by_contra hcon
        have hm0 : m = 0 := by omega
        subst hm0
        rw [byteAt_lt tok 0 hmlt] at h45
        rw [hmv] at h45
        exact hc45 h45
    have hg1 : g1 = true := h1.mpr (Or.inr (hpos 105 hmem (by norm_num)))
    have hg23 : (g2 || g3) = true := by
      rcases hfe with hx | hx | hx
      · have hg := h2.mpr (Or.inr (hpos 46 hx (by norm_num)))
        rw [hg]
        simp
      · obtain ⟨k, hk1, hk2, hk3⟩ := hpos 101 hx (by norm_num)
        have hg := h3.mpr (Or.inr ⟨k, hk1, hk2, Or.inl hk3⟩)
        rw [hg]
        simp
      · obtain ⟨k, hk1, hk2, hk3⟩ := hpos 69 hx (by norm_num)
        have hg := h3.mpr (Or.inr ⟨k, hk1, hk2, Or.inr hk3⟩)
        rw [hg]
        simp
    simp [hg1, hg23]

lemma scanNumber_i_with_frac (tok : List Nat)
    (hdelim : ∀ b ∈ tok, b ≠ 44 ∧ b ≠ 32)
    (hmem : 105 ∈ tok) (hfe : 46 ∈ tok ∨ 101 ∈ tok ∨ 69 ∈ tok) :
    (scanNumber (61 :: tok) 1).2 ≠ none := by
  rw [scanNumber]
  by_cases hm : (1 < (61 :: tok).length && byteAt (61 :: tok) 1 == 45) = true
  · rw [if_pos hm]
    by_cases hbare : (1 + 1 == (61 :: tok).length) = true
    · rw [if_pos hbare]
      simp
    · rw [if_neg hbare]
      simp only [Bool.and_eq_true, decide_eq_true_eq, beq_iff_eq] at hm
      simp only [beq_iff_eq, List.length_cons] at hbare
      apply scanNumberCore_i_with_frac tok 2 hdelim hmem hfe
      refine Or.inr ⟨rfl, ?_, ?_⟩
      · have := hm.2
        rwa [show ((1 : Nat) = 0 + 1) from rfl, byteAt_cons_succ] at this
      · simp only [List.length_cons] at hm
        omega
  · rw [if_neg hm]
    exact scanNumberCore_i_with_frac tok 1 hdelim hmem hfe (Or.inl rfl)

lemma scanNumberCore_no_digit (tok : List Nat) (i0 : Nat)
    (hdelim : ∀ b ∈ tok, b ≠ 44 ∧ b ≠ 32)
    (hnod : ∀ b ∈ tok, isDigit b = false)
    (hi0 : (i0 = 1 ∧ byteAt (61 :: tok) 1 ≠ 45) ∨
      (i0 = 2 ∧ byteAt (61 :: tok) 1 = 45 ∧ 2 ≤ tok.length)) :
    (scanNumberCore (61 :: tok) 1 i0).2 ≠ none := by
  rw [scanNumberCore]
  rcases hloop : scanNumLoopF ((61 :: tok).length + 2) (61 :: tok) 1 i0 false false false
    with j | ⟨j, g1, g2, g3⟩
  · simp
  · have hi0le : i0 ≤ (61 :: tok).length := by
      rcases hi0 with ⟨rfl, _⟩ | ⟨rfl, _, h2⟩ <;> simp only [List.length_cons] <;> omega
    have hinv := scanNumLoopF_inv (61 :: tok) 1 ((61 :: tok).length + 2) i0
      false false false j g1 g2 g3 (by omega) hi0le hloop
    have hj := numLoop_ends_at_len tok hdelim i0 j g1 g2 g3
      (by rcases hi0 with ⟨rfl, _⟩ | ⟨rfl, _, _⟩ <;> omega) hinv
    obtain ⟨hb, ht, hc, h1, h2, h3, hm1, hm2, hu1, hu2⟩ := hinv
    have hnodig : ∀ k, i0 ≤ k → k < j → isDigit (byteAt (61 :: tok) k) = false := by
      intro k hk1 hk2
      have hk : k = (k - 1) + 1 := by
        rcases hi0 with ⟨rfl, _⟩ | ⟨rfl, _, _⟩ <;> omega
      rw [hk, byteAt_cons_succ]
      exact hnod _ (byteAt_mem tok (k-1) (by omega))
    have hclass : ∀ k, i0 ≤ k → k < j →
        (byteAt (61 :: tok) k = 105 ∧ g1 = true) ∨
        (byteAt (61 :: tok) k = 46 ∧ g2 = true) ∨ g3 = true := by
      intro k hk1 hk2
      rcases hc k hk1 hk2 with hd | h46 | ⟨h105, _⟩ | h101 | h69 | ⟨hsgn, hprev⟩
      · exact absurd hd (by simp [hnodig k hk1 hk2])
      · exact Or.inr (Or.inl ⟨h46, h2.mpr (Or.inr ⟨k, hk1, hk2, h46⟩)⟩)
      · exact Or.inl ⟨h105, h1.mpr (Or.inr ⟨k, hk1, hk2, h105⟩)⟩
      · exact Or.inr (Or.inr (h3.mpr (Or.inr ⟨k, hk1, hk2, Or.inl h101⟩)))
      · exact Or.inr (Or.inr (h3.mpr (Or.inr ⟨k, hk1, hk2, Or.inr h69⟩)))
      · by_cases hge : i0 ≤ k - 1
        · have hlt : k - 1 < j := by omega
          exact Or.inr (Or.inr (h3.mpr (Or.inr ⟨k-1, hge, hlt, hprev⟩)))
        · exfalso
          rcases hi0 with ⟨rfl, _⟩ | ⟨rfl, h45, _⟩
          · have hk1' : k = 1 := by omega
            rw [hk1'] at hprev
            rcases hprev with hp | hp <;> simp [byteAt] at hp
          · have hk2' : k = 2 := by omega
            rw [hk2'] at hprev
            rcases hprev with hp | hp <;> rw [show (2 - 1 : Nat) = 1 from rfl, h45] at hp <;>
              norm_num at hp
    cases g1 <;> cases g2 <;> cases g3
    · -- all flags false: nothing was consumed
      have hji : j = i0 := by
        by_contra hcon
        rcases hclass i0 (le_refl _) (by omega) with ⟨_, hg⟩ | ⟨_, hg⟩ | hg <;> simp at hg
      subst hji
      rcases hi0 with ⟨rfl, h45⟩ | ⟨rfl, h45, _⟩
      · have hf : (byteAt (61 :: tok) 1 == 45) = false := by
          simp only [beq_eq_false_iff_ne]
          exact h45
        simp [hf]
      · have hf : (byteAt (61 :: tok) 1 == 45) = true := by
          simp only [beq_iff_eq]
          exact h45
        simp [hf]
    · -- scientific: the float parse rejects a digitless literal
      have hpf : parseFloatBytes (goSlice (61 :: tok) 1 j) 10 = .error () := by
        have hslice : goSlice (61 :: tok) 1 j = tok := by
          rw [hj, goSlice]
          simp
        rw [hslice]
        exact parseFloatBytes_no_digit tok hnod
      dsimp only
      repeat' split
      all_goals try first
        | (rename_i heq
           rw [hpf] at heq
           exact Except.noConfusion heq)
        | exact absurd (show (false : Bool) = true by assumption) (by simp)
        | (rename_i hx
           exact absurd rfl hx)
        | simp
      all_goals exact absurd (show (false : Bool) = true by assumption) (by simp)
    · -- decimal only: the single consumed byte is the dot
      have hall : ∀ k, i0 ≤ k → k < j → byteAt (61 :: tok) k = 46 := by
        intro k hk1 hk2
        rcases hclass k hk1 hk2 with ⟨_, hg⟩ | ⟨hv, _⟩ | hg
        · exact absurd hg (by simp)
        · exact hv
        · exact absurd hg (by simp)
      have hju : j ≤ i0 + 1 := by
        by_contra hcon
        exact hu2 i0 (i0+1) (le_refl _) (by omega) (by omega)
          (hall i0 (le_refl _) (by omega)) (hall (i0+1) (by omega) (by omega))
      have hjl : i0 < j := by
        rcases h2.mp rfl with hg | ⟨k, hk1, hk2, _⟩
        · exact absurd hg (by simp)
        · omega
      have hj' : j = i0 + 1 := by omega
      subst hj'
      rcases hi0 with ⟨rfl, h45⟩ | ⟨rfl, h45, _⟩
      · have hf : (byteAt (61 :: tok) 1 == 45) = false := by
          simp only [beq_eq_false_iff_ne]
          exact h45
        simp [hf]
      · have hf : (byteAt (61 :: tok) 1 == 45) = true := by
          simp only [beq_iff_eq]
          exact h45
        simp [hf]
    · -- decimal and scientific: float parse rejects again
      have hpf : parseFloatBytes (goSlice (61 :: tok) 1 j) 10 = .error () := by
        have hslice : goSlice (61 :: tok) 1 j = tok := by
          rw [hj, goSlice]
          simp
        rw [hslice]
        exact parseFloatBytes_no_digit tok hnod
      dsimp only
      repeat' split
      all_goals try first
        | (rename_i heq
           rw [hpf] at heq
           exact Except.noConfusion heq)
        | exact absurd (show (false : Bool) = true by assumption) (by simp)
        | (rename_i hx
           exact absurd rfl hx)
        | simp
      all_goals exact absurd (show (false : Bool) = true by assumption) (by simp)
    · -- integer marker only: the single consumed byte is the i
      have hall : ∀ k, i0 ≤ k → k < j → byteAt (61 :: tok) k = 105 := by
        intro k hk1 hk2
        rcases hclass k hk1 hk2 with ⟨hv, _⟩ | ⟨_, hg⟩ | hg
        · exact hv
        · exact absurd hg (by simp)
        · exact absurd hg (by simp)
      have hju : j ≤ i0 + 1 := by
        by_contra hcon
        exact hu1 i0 (i0+1) (le_refl _) (by omega) (by omega)
          (hall i0 (le_refl _) (by omega)) (hall (i0+1) (by omega) (by omega))
      have hjl : i0 < j := by
        rcases h1.mp rfl with hg | ⟨k, hk1, hk2, _⟩
        · exact absurd hg (by simp)
        · omega
      have hj' : j = i0 + 1 := by omega
      subst hj'
      rcases hi0 with ⟨rfl, h45⟩ | ⟨rfl, h45, _⟩
      · have hf : (byteAt (61 :: tok) 1 == 45) = false := by
          simp only [beq_eq_false_iff_ne]
          exact h45
        simp [hf]
      · have hf : (byteAt (61 :: tok) 1 == 45) = true := by
          simp only [beq_iff_eq]
          exact h45
        simp [hf]
    · -- isInt together with scientific is rejected immediately
      simp
    · -- isInt together with decimal is rejected immediately
      simp
    · simp

lemma scanNumber_no_digit (tok : List Nat)
    (hdelim : ∀ b ∈ tok, b ≠ 44 ∧ b ≠ 32)
    (hnod : ∀ b ∈ tok, isDigit b = false) :
    (scanNumber (61 :: tok) 1).2 ≠ none := by
  rw [scanNumber]
  by_cases hm : (1 < (61 :: tok).length && byteAt (61 :: tok) 1 == 45) = true
  · rw [if_pos hm]
    by_cases hbare : (1 + 1 == (61 :: tok).length) = true
    · rw [if_pos hbare]
      simp
    · rw [if_neg hbare]
      simp only [Bool.and_eq_true, decide_eq_true_eq, beq_iff_eq] at hm
      simp only [beq_iff_eq, List.length_cons] at hbare
      apply scanNumberCore_no_digit tok 2 hdelim hnod
      refine Or.inr ⟨rfl, hm.2, ?_⟩
      simp only [List.length_cons] at hm
      omega
  · rw [if_neg hm]
    apply scanNumberCore_no_digit tok 1 hdelim hnod
    refine Or.inl ⟨rfl, ?_⟩
    intro h45
    apply hm
    simp only [Bool.and_eq_true, decide_eq_true_eq, beq_iff_eq]
    refine ⟨?_, h45⟩
    by_contra hlen
    have htok : tok = [] := by
      simp only [List.length_cons] at hlen
      have : tok.length = 0 := by omega
      exact List.eq_nil_of_length_eq_zero this
    rw [htok] at h45
    simp [byteAt] at h45

/-- Claim C7: the numeric literal validator accepts the tokens 42i, -42,
4.2e10 and -4.2E-3 and rejects 42.i, 4.2.1, NaN and a bare minus sign
(each token scanned in its call context, one position after the equals
sign); moreover, any delimiter-free token containing the integer marker i
together with a decimal point or an exponent letter is invalid, and any
delimiter-free token containing no decimal digit is invalid. -/
theorem numeric_validator_grammar :
    ((scanNumber [61, 52, 50, 105] 1).2 = none ∧
     (scanNumber [61, 45, 52, 50] 1).2 = none ∧
     (scanNumber [61, 52, 46, 50, 101, 49, 48] 1).2 = none ∧
     (scanNumber [61, 45, 52, 46, 50, 69, 45, 51] 1).2 = none) ∧
    ((scanNumber [61, 52, 50, 46, 105] 1).2 = some .invalidNumber ∧
     (scanNumber [61, 52, 46, 50, 46, 49] 1).2 = some .invalidNumber ∧
     (scanNumber [61, 78, 97, 78] 1).2 = some .invalidNumber ∧
     (scanNumber [61, 45] 1).2 = some .invalidNumber) ∧
    (∀ tok : List Nat, (∀ b ∈ tok, b ≠ 44 ∧ b ≠ 32) → 105 ∈ tok →
      (46 ∈ tok ∨ 101 ∈ tok ∨ 69 ∈ tok) → (scanNumber (61 :: tok) 1).2 ≠ none) ∧
    (∀ tok : List Nat, (∀ b ∈ tok, b ≠ 44 ∧ b ≠ 32) → (∀ b ∈ tok, isDigit b = false) →
      (scanNumber (61 :: tok) 1).2 ≠ none) := by
  refine ⟨⟨by decide, by decide, by decide, by decide⟩,
    ⟨by decide, by decide, by decide, by decide⟩,
    scanNumber_i_with_frac, scanNumber_no_digit⟩

/-- Witness for claim C7 at concrete inputs: the token 1i. (integer
marker together with a decimal point) and the token -. (no significant
digit) are rejected. -/
theorem numeric_validator_grammar_witness :
    (scanNumber [61, 49, 105, 46] 1).2 ≠ none ∧ (scanNumber [61, 45, 46] 1).2 ≠ none :=
  ⟨numeric_validator_grammar.2.2.1 [49, 105, 46] (by decide) (by decide) (by decide),
    numeric_validator_grammar.2.2.2 [45, 46] (by decide) (by decide)⟩

/-! ### Rendered tag inputs for the key scanner (claims C1, C2, C9)

A structured point key: a measurement and a list of (name, value) tags,
rendered to the exact byte shape the key scanner consumes.  Plain bytes
are printable bytes that play no special role in the scanner (no space,
comma, equals sign or backslash), so rendering is injective and the
scanners stop exactly at the rendered delimiters. -/

/-- A byte with no special meaning to the key scanner. -/
def PlainByte (b : Nat) : Prop :=
  33 ≤ b ∧ b ≤ 126 ∧ b ≠ 44 ∧ b ≠ 61 ∧ b ≠ 92

instance (b : Nat) : Decidable (PlainByte b) := by
  unfold PlainByte; infer_instance

/-- A nonempty string of plain bytes. -/
def PlainStr (s : List Nat) : Prop := s ≠ [] ∧ ∀ b ∈ s, PlainByte b

instance (s : List Nat) : Decidable (PlainStr s) := by
  unfold PlainStr; infer_instance

/-- A structured tag: name and value. -/
abbrev Tag := List Nat × List Nat

/-- Both components of the tag are plain. -/
def PlainTag (t : Tag) : Prop := PlainStr t.1 ∧ PlainStr t.2

instance (t : Tag) : Decidable (PlainTag t) := by
  unfold PlainTag; infer_instance

/-- The byte rendering of one tag: a comma, the name, an equals sign,
the value. -/
def renderTag (t : Tag) : List Nat := 44 :: (t.1 ++ 61 :: t.2)

/-- The byte rendering of a tag list. -/
def renderTags (ts : List Tag) : List Nat := (ts.map renderTag).flatten

/-- The byte rendering of a whole point key. -/
def renderKey (m : List Nat) (ts : List Tag) : List Nat := m ++ renderTags ts

/-- A full line: the key, a space, and the remaining bytes. -/
def renderLine (m : List Nat) (ts : List Tag) (rest : List Nat) : List Nat :=
  renderKey m ts ++ 32 :: rest

/-- Rendered length of one tag including its leading comma. -/
def segLen (t : Tag) : Nat := t.1.length + t.2.length + 2

/-- Rendered length of a tag list. -/
def sumSeg (ts : List Tag) : Nat := (ts.map segLen).sum

/-- The byte suffix of a line starting at a tag-name position: the
current tag without its comma, the remaining tags, the space, the rest. -/
def nameRender (ts : List Tag) (rest : List Nat) : List Nat :=
  match ts with
  | [] => 32 :: rest
  | t :: r => t.1 ++ 61 :: t.2 ++ renderTags r ++ 32 :: rest

/-- Capacity recursion of the scanTags index buffer: scanning n more tags
with c commas so far and capacity L succeeds iff the final fields-state
write lands in range; the buffer doubles whenever a tag-key write finds
c at capacity. -/
def capOk : Nat → Nat → Nat → Bool
  | 0, c, L => decide (c < L)
  | n+1, c, L => capOk n (c+1) (if L ≤ c then 2*L else L)

/-- Specification recursion mirroring the scanTags loop on a rendered
input: records each tag-name start position, growing the index list as
the code does; the final fields-state write stores one past the space.
Returns none when that final write is out of range (the Go panic). -/
def tagLoopSpec : List Tag → Nat → List Nat → Nat → Option (Nat × List Nat)
  | [], c, I, p => if c < I.length then some (c, I.set c (p + 1)) else none
  | t :: r, c, I, p =>
    let I2 := (if c ≥ I.length then I ++ List.replicate I.length 0 else I).set c p
    tagLoopSpec r (c + 1) I2
      (p + t.1.length + 1 + t.2.length + (if r.isEmpty then 0 else 1))

/-- Adjacent-pair verdict on a list of tag names, mirroring the scanKey
pre-check: first out-of-order pair wins over later duplicates, a
duplicate pair stops the scan, otherwise ascending. -/
def adjSpec : List (List Nat) → AdjRes
  | x :: y :: r =>
    match bytesCompare x y with
    | .gt => .unsorted
    | .eq => .dup
    | .lt => adjSpec (y :: r)
  | _ => .ascending

/-- Some adjacent pair of the list is equal (mirrors the post-sort
duplicate check). -/
def hasAdjEq : List (List Nat) → Bool
  | x :: y :: r => x == y || hasAdjEq (y :: r)
  | _ => false

/-- Strict lexicographic byte order, as decided by bytesCompare. -/
def bytesLt (a b : List Nat) : Prop := bytesCompare a b = .lt

/-! ### Order facts about bytesCompare -/

lemma bytesCompare_self (a : List Nat) : bytesCompare a a = .eq := by
  induction a with
  | nil => rfl
  | cons x xs ih => simp [bytesCompare, ih]

lemma bytesCompare_eq_iff (a b : List Nat) : bytesCompare a b = .eq ↔ a = b := by
  constructor
  · intro h
    induction a generalizing b with
    | nil => cases b with
      | nil => rfl
      | cons y ys => simp [bytesCompare] at h
    | cons x xs ih =>
      cases b with
      | nil => simp [bytesCompare] at h
      | cons y ys =>
        simp only [bytesCompare] at h
        split at h
        · exact absurd h (by simp)
        · split at h
          · exact absurd h (by simp)
          · have hxy : x = y := by omega
            rw [hxy, ih ys h]
  · intro h; rw [h]; exact bytesCompare_self b

lemma bytesCompare_swap (a b : List Nat) :
    bytesCompare b a = (bytesCompare a b).swap := by
  induction a generalizing b with
  | nil => cases b <;> rfl
  | cons x xs ih =>
    cases b with
    | nil => rfl
    | cons y ys =>
      simp only [bytesCompare]
      rcases Nat.lt_trichotomy x y with h | h | h
      · rw [if_neg (show ¬ y < x by omega), if_pos h, if_pos h]; rfl
      · rw [if_neg (show ¬ y < x by omega), if_neg (show ¬ x < y by omega),
          if_neg (show ¬ x < y by omega), if_neg (show ¬ y < x by omega)]
        exact ih ys
      · rw [if_pos h, if_neg (show ¬ x < y by omega), if_pos h]; rfl

lemma bytesLt_trans (a b c : List Nat) (h1 : bytesLt a b) (h2 : bytesLt b c) :
    bytesLt a c := by
  unfold bytesLt at *
  induction a generalizing b c with
  | nil =>
    cases b with
    | nil => simp [bytesCompare] at h1
    | cons y ys =>
      cases c with
      | nil => simp [bytesCompare] at h2
      | cons z zs => rfl
  | cons x xs ih =>
    cases b with
    | nil => simp [bytesCompare] at h1
    | cons y ys =>
      cases c with
      | nil => simp [bytesCompare] at h2
      | cons z zs =>
        simp only [bytesCompare] at h1 h2 ⊢
        by_cases hxy : x < y
        · by_cases hyz : y < z
          · rw [if_pos (by omega)]
          · rw [if_pos hxy] at h1
            rw [if_neg hyz] at h2
            split at h2
            · exact absurd h2 (by simp)
            · have : y = z := by omega
              rw [if_pos (by omega)]
        · rw [if_neg hxy] at h1
          split at h1
          · exact absurd h1 (by simp)
          · have hxey : x = y := by omega
            by_cases hyz : y < z
            · rw [if_pos (by omega)]
            · rw [if_neg hyz] at h2
              split at h2
              · exact absurd h2 (by simp)
              · have hyez : y = z := by omega
                rw [if_neg (by omega), if_neg (by omega)]
                exact ih ys zs h1 h2

lemma bytesLt_asymm (a b : List Nat) (h : bytesLt a b) : ¬ bytesLt b a := by
  intro h2
  have := bytesCompare_swap a b
  unfold bytesLt at h h2
  rw [h] at this
  rw [h2] at this
  exact Ordering.noConfusion this

lemma bytesLt_irrefl (a : List Nat) : ¬ bytesLt a a := by
  unfold bytesLt
  rw [bytesCompare_self]
  intro h; exact Ordering.noConfusion h

lemma bytesLt_total (a b : List Nat) (hne : a ≠ b) (h : ¬ bytesLt b a) :
    bytesLt a b := by
  unfold bytesLt at *
  cases hc : bytesCompare a b with
  | lt => rfl
  | eq => exact absurd ((bytesCompare_eq_iff a b).mp hc) hne
  | gt =>
    exfalso
    apply h
    rw [bytesCompare_swap, hc]
    rfl

/-! ### byteAt and getD bookkeeping -/

lemma byteAt_append_right (A B : List Nat) (k : Nat) :
    byteAt (A ++ B) (A.length + k) = byteAt B k := by
  unfold byteAt
  rw [List.getD_append_right _ _ _ _ (by omega)]
  congr 1
  omega

lemma byteAt_append_left (A B : List Nat) (k : Nat) (h : k < A.length) :
    byteAt (A ++ B) k = byteAt A k := by
  unfold byteAt
  rw [List.getD_append _ _ _ _ h]

lemma byteAt_set_self (l : List Nat) (k v : Nat) (h : k < l.length) :
    byteAt (l.set k v) k = v := by
  induction l generalizing k with
  | nil => simp at h
  | cons x xs ih =>
    cases k with
    | zero => rfl
    | succ j =>
      simp only [List.set, byteAt, List.getD, List.getElem?_cons_succ] at *
      exact ih j (by simpa using h)

lemma byteAt_set_ne (l : List Nat) (k k' v : Nat) (h : k ≠ k') :
    byteAt (l.set k v) k' = byteAt l k' := by
  induction l generalizing k k' with
  | nil => simp [List.set]
  | cons x xs ih =>
    cases k with
    | zero =>
      cases k' with
      | zero => exact absurd rfl h
      | succ j => rfl
    | succ i =>
      cases k' with
      | zero => rfl
      | succ j =>
        simp only [List.set, byteAt, List.getD, List.getElem?_cons_succ] at *
        exact ih i j (by omega)

lemma plainByte_facts (b : Nat) (h : PlainByte b) :
    (b == 92) = false ∧ (b == 44) = false ∧ (b == 32) = false ∧ (b == 61) = false := by
  obtain ⟨h1, h2, h3, h4, h5⟩ := h
  refine ⟨?_, ?_, ?_, ?_⟩ <;> (simp only [beq_eq_false_iff_ne]; omega)

lemma byteAt_mid (A s suf : List Nat) (k : Nat) (h : k < s.length) :
    byteAt (A ++ s ++ suf) (A.length + k) = byteAt s k := by
  rw [List.append_assoc, byteAt_append_right, byteAt_append_left _ _ _ h]

lemma byteAt_after (A s suf : List Nat) :
    byteAt (A ++ s ++ suf) (A.length + s.length) = byteAt suf 0 := by
  rw [List.append_assoc, byteAt_append_right A (s ++ suf) s.length]
  simpa using byteAt_append_right s suf 0

/-! ### The measurement scanner on a rendered line -/

lemma scanMeasurementF_render (m rest : List Nat) (d : Nat)
    (hm : ∀ b ∈ m, PlainByte b) (hd : d = 44 ∨ d = 32) :
    ∀ fuel i, i < m.length → m.length - i < fuel →
    scanMeasurementF fuel (m ++ d :: rest) i =
      (if d = 44 then (tagKeyState, m.length + 1, none)
       else (fieldsState, m.length, none)) := by
  intro fuel
  induction fuel with
  | zero => intro i hi hf; omega
  | succ fuel ih =>
    intro i hi hf
    rw [scanMeasurementF]
    have hlen : ¬ (i + 1 ≥ (m ++ d :: rest).length) := by
      simp only [List.length_append, List.length_cons]; omega
    rw [if_neg hlen]
    have hesc : (byteAt (m ++ d :: rest) (i + 1 - 1) == 92) = false := by
      have he : i + 1 - 1 = i := by omega
      rw [he, byteAt_append_left m (d :: rest) i hi]
      exact (plainByte_facts _ (hm _ (byteAt_mem m i hi))).1
    simp only [hesc, Bool.false_eq_true, if_false]
    by_cases hend : i + 1 < m.length
    · have hbj : byteAt (m ++ d :: rest) (i+1) = byteAt m (i+1) :=
        byteAt_append_left m (d :: rest) (i+1) hend
      have hfacts := plainByte_facts _ (hm _ (byteAt_mem m (i+1) hend))
      have h44 : (byteAt (m ++ d :: rest) (i+1) == 44) = false := by
        rw [hbj]; exact hfacts.2.1
      have h32 : (byteAt (m ++ d :: rest) (i+1) == 32) = false := by
        rw [hbj]; exact hfacts.2.2.1
      simp only [h44, h32, Bool.false_eq_true, if_false]
      exact ih (i+1) hend (by omega)
    · have hieq : i + 1 = m.length := by omega
      have hbj : byteAt (m ++ d :: rest) (i+1) = d := by
        rw [hieq]
        simpa using byteAt_append_right m (d :: rest) 0
      rcases hd with hd | hd
      · have h44 : (byteAt (m ++ d :: rest) (i+1) == 44) = true := by
          rw [hbj, hd]; rfl
        simp only [h44, if_true]
        rw [if_pos hd, hieq]
      · have h44 : (byteAt (m ++ d :: rest) (i+1) == 44) = false := by
          rw [hbj, hd]; rfl
        have h32 : (byteAt (m ++ d :: rest) (i+1) == 32) = true := by
          rw [hbj, hd]; rfl
        simp only [h44, Bool.false_eq_true, if_false, h32, if_true]
        rw [if_neg (by omega), hieq]

lemma scanMeasurement_render (m rest : List Nat) (d : Nat)
    (hm : PlainStr m) (hd : d = 44 ∨ d = 32) :
    scanMeasurement (m ++ d :: rest) 0 =
      (if d = 44 then (tagKeyState, m.length + 1, none)
       else (fieldsState, m.length, none)) := by
  obtain ⟨hne, hp⟩ := hm
  have hml : 0 < m.length := List.length_pos.mpr hne
  unfold scanMeasurement
  have h0b : byteAt (m ++ d :: rest) 0 = byteAt m 0 := byteAt_append_left _ _ _ hml
  have hfacts := plainByte_facts _ (hp _ (byteAt_mem m 0 hml))
  have hd1 : decide (0 ≥ (m ++ d :: rest).length) = false := by
    simp only [ge_iff_le, decide_eq_false_iff_not, not_le, List.length_append,
      List.length_cons]
    omega
  have hd2 : (byteAt (m ++ d :: rest) 0 == 44) = false := by
    rw [h0b]; exact hfacts.2.1
  simp only [hd1, hd2, Bool.or_self, Bool.false_eq_true, if_false]
  exact scanMeasurementF_render m rest d hp hd (((m ++ d :: rest).length) + 1) 0 hml
    (by simp only [List.length_append, List.length_cons]; omega)

/-! ### The tag-key scanner on a rendered line -/

lemma scanTagsKeyF_render (A nm suf : List Nat) (hn : ∀ b ∈ nm, PlainByte b) :
    ∀ fuel i, A.length ≤ i → i < A.length + nm.length →
      A.length + nm.length - i < fuel →
      scanTagsKeyF fuel (A ++ nm ++ 61 :: suf) i = (A.length + nm.length + 1, none) := by
  intro fuel
  induction fuel with
  | zero => intro i h1 h2 h3; omega
  | succ fuel ih =>
    intro i h1 h2 h3
    rw [scanTagsKeyF]
    have hlentot : (A ++ nm ++ 61 :: suf).length = A.length + nm.length + 1 + suf.length := by
      simp only [List.length_append, List.length_cons]; omega
    have hlen : decide (i + 1 ≥ (A ++ nm ++ 61 :: suf).length) = false := by
      simp only [ge_iff_le, decide_eq_false_iff_not, not_le, hlentot]; omega
    have hprev : byteAt (A ++ nm ++ 61 :: suf) (i + 1 - 1) = byteAt nm (i - A.length) := by
      have he : i + 1 - 1 = i := by omega
      have hb := byteAt_mid A nm (61 :: suf) (i - A.length) (by omega)
      rw [he, ← hb]
      congr 1
      omega
    have hprevfacts := plainByte_facts _ (hn _ (byteAt_mem nm (i - A.length) (by omega)))
    by_cases hend : i + 1 < A.length + nm.length
    · have hbj : byteAt (A ++ nm ++ 61 :: suf) (i+1) = byteAt nm (i + 1 - A.length) := by
        have hb := byteAt_mid A nm (61 :: suf) (i + 1 - A.length) (by omega)
        rw [← hb]
        congr 1
        omega
      have hjfacts := plainByte_facts _ (hn _ (byteAt_mem nm (i + 1 - A.length) (by omega)))
      have hc1 : (byteAt (A ++ nm ++ 61 :: suf) (i+1) == 32) = false := by
        rw [hbj]; exact hjfacts.2.2.1
      have hc2 : (byteAt (A ++ nm ++ 61 :: suf) (i+1) == 44) = false := by
        rw [hbj]; exact hjfacts.2.1
      have hc3 : (byteAt (A ++ nm ++ 61 :: suf) (i+1) == 61) = false := by
        rw [hbj]; exact hjfacts.2.2.2
      simp only [hlen, hc1, hc2, hc3, Bool.or_self, Bool.false_and, Bool.false_or,
        Bool.false_eq_true, if_false]
      exact ih (i+1) (by omega) hend (by omega)
    · have hieq : i + 1 = A.length + nm.length := by omega
      have hbj : byteAt (A ++ nm ++ 61 :: suf) (i+1) = 61 := by
        rw [hieq]
        simpa using byteAt_after A nm (61 :: suf)
      have hc1 : (byteAt (A ++ nm ++ 61 :: suf) (i+1) == 32) = false := by rw [hbj]; rfl
      have hc2 : (byteAt (A ++ nm ++ 61 :: suf) (i+1) == 44) = false := by rw [hbj]; rfl
      have hc3 : (byteAt (A ++ nm ++ 61 :: suf) (i+1) == 61) = true := by rw [hbj]; rfl
      have hc4 : (byteAt (A ++ nm ++ 61 :: suf) (i + 1 - 1) != 92) = true := by
        rw [hprev]
        simp only [bne_iff_ne, ne_eq]
        have := hprevfacts.1
        simp only [beq_eq_false_iff_ne] at this
        exact this
      simp only [hlen, hc1, hc2, hc3, hc4, Bool.or_self, Bool.false_and, Bool.false_or,
        Bool.true_and, Bool.and_self, Bool.false_eq_true, if_false, if_true]
      rw [hieq]

lemma scanTagsKey_render (A nm suf : List Nat) (hn : PlainStr nm) :
    scanTagsKey (A ++ nm ++ 61 :: suf) A.length = (A.length + nm.length + 1, none) := by
  obtain ⟨hne, hp⟩ := hn
  have hml : 0 < nm.length := List.length_pos.mpr hne
  unfold scanTagsKey
  have h0b : byteAt (A ++ nm ++ 61 :: suf) A.length = byteAt nm 0 := by
    simpa using byteAt_mid A nm (61 :: suf) 0 hml
  have hfacts := plainByte_facts _ (hp _ (byteAt_mem nm 0 hml))
  have hd1 : decide (A.length ≥ (A ++ nm ++ 61 :: suf).length) = false := by
    simp only [ge_iff_le, decide_eq_false_iff_not, not_le, List.length_append,
      List.length_cons]
    omega
  have hd2 : (byteAt (A ++ nm ++ 61 :: suf) A.length == 32) = false := by
    rw [h0b]; exact hfacts.2.2.1
  have hd3 : (byteAt (A ++ nm ++ 61 :: suf) A.length == 44) = false := by
    rw [h0b]; exact hfacts.2.1
  have hd4 : (byteAt (A ++ nm ++ 61 :: suf) A.length == 61) = false := by
    rw [h0b]; exact hfacts.2.2.2
  simp only [hd1, hd2, hd3, hd4, Bool.or_self, Bool.false_eq_true, if_false]
  exact scanTagsKeyF_render A nm suf hp ((A ++ nm ++ 61 :: suf).length + 1) A.length
    (le_refl _) (by omega)
    (by simp only [List.length_append, List.length_cons]; omega)

/-! ### The tag-value scanner on a rendered line -/

lemma scanTagsValueF_render (A v suf : List Nat) (d : Nat)
    (hv : ∀ b ∈ v, PlainByte b) (hd : d = 44 ∨ d = 32) :
    ∀ fuel i, A.length ≤ i → i < A.length + v.length →
      A.length + v.length - i < fuel →
      scanTagsValueF fuel (A ++ v ++ d :: suf) i =
        (if d = 44 then (tagKeyState, A.length + v.length + 1, none)
         else (fieldsState, A.length + v.length, none)) := by
  intro fuel
  induction fuel with
  | zero => intro i h1 h2 h3; omega
  | succ fuel ih =>
    intro i h1 h2 h3
    rw [scanTagsValueF]
    have hlen : ¬ (i + 1 ≥ (A ++ v ++ d :: suf).length) := by
      simp only [ge_iff_le, not_le, List.length_append, List.length_cons]; omega
    rw [if_neg hlen]
    have hprev : byteAt (A ++ v ++ d :: suf) (i + 1 - 1) = byteAt v (i - A.length) := by
      have he : i + 1 - 1 = i := by omega
      have hb := byteAt_mid A v (d :: suf) (i - A.length) (by omega)
      rw [he, ← hb]
      congr 1
      omega
    have hprevfacts := plainByte_facts _ (hv _ (byteAt_mem v (i - A.length) (by omega)))
    have hc4 : (byteAt (A ++ v ++ d :: suf) (i + 1 - 1) != 92) = true := by
      rw [hprev]
      simp only [bne_iff_ne, ne_eq]
      have := hprevfacts.1
      simp only [beq_eq_false_iff_ne] at this
      exact this
    by_cases hend : i + 1 < A.length + v.length
    · have hbj : byteAt (A ++ v ++ d :: suf) (i+1) = byteAt v (i + 1 - A.length) := by
        have hb := byteAt_mid A v (d :: suf) (i + 1 - A.length) (by omega)
        rw [← hb]
        congr 1
        omega
      have hjfacts := plainByte_facts _ (hv _ (byteAt_mem v (i + 1 - A.length) (by omega)))
      have hc1 : (byteAt (A ++ v ++ d :: suf) (i+1) == 61) = false := by
        rw [hbj]; exact hjfacts.2.2.2
      have hc2 : (byteAt (A ++ v ++ d :: suf) (i+1) == 44) = false := by
        rw [hbj]; exact hjfacts.2.1
      have hc3 : (byteAt (A ++ v ++ d :: suf) (i+1) == 32) = false := by
        rw [hbj]; exact hjfacts.2.2.1
      simp only [hc1, hc2, hc3, Bool.false_and, Bool.false_eq_true, if_false]
      exact ih (i+1) (by omega) hend (by omega)
    · have hieq : i + 1 = A.length + v.length := by omega
      have hbj : byteAt (A ++ v ++ d :: suf) (i+1) = d := by
        rw [hieq]
        simpa using byteAt_after A v (d :: suf)
      rcases hd with hd | hd
      · have hc1 : (byteAt (A ++ v ++ d :: suf) (i+1) == 61) = false := by
          rw [hbj, hd]; rfl
        have hc2 : (byteAt (A ++ v ++ d :: suf) (i+1) == 44) = true := by
          rw [hbj, hd]; rfl
        simp only [hc1, hc2, hc4, Bool.false_and, Bool.true_and, Bool.and_self,
          Bool.false_eq_true, if_false, if_true]
        rw [if_pos hd, hieq]
      · have hc1 : (byteAt (A ++ v ++ d :: suf) (i+1) == 61) = false := by
          rw [hbj, hd]; rfl
        have hc2 : (byteAt (A ++ v ++ d :: suf) (i+1) == 44) = false := by
          rw [hbj, hd]; rfl
        have hc3 : (byteAt (A ++ v ++ d :: suf) (i+1) == 32) = true := by
          rw [hbj, hd]; rfl
        simp only [hc1, hc2, hc3, hc4, Bool.false_and, Bool.true_and, Bool.and_self,
          Bool.false_eq_true, if_false, if_true]
        rw [if_neg (show ¬ d = 44 by omega), hieq]

lemma scanTagsValue_render (A v suf : List Nat) (d : Nat)
    (hv : PlainStr v) (hd : d = 44 ∨ d = 32) :
    scanTagsValue (A ++ v ++ d :: suf) A.length =
      (if d = 44 then (tagKeyState, A.length + v.length + 1, none)
       else (fieldsState, A.length + v.length, none)) := by
  obtain ⟨hne, hp⟩ := hv
  have hml : 0 < v.length := List.length_pos.mpr hne
  unfold scanTagsValue
  have h0b : byteAt (A ++ v ++ d :: suf) A.length = byteAt v 0 := by
    simpa using byteAt_mid A v (d :: suf) 0 hml
  have hfacts := plainByte_facts _ (hp _ (byteAt_mem v 0 hml))
  have hd1 : decide (A.length ≥ (A ++ v ++ d :: suf).length) = false := by
    simp only [ge_iff_le, decide_eq_false_iff_not, not_le, List.length_append,
      List.length_cons]
    omega
  have hd2 : (byteAt (A ++ v ++ d :: suf) A.length == 44) = false := by
    rw [h0b]; exact hfacts.2.1
  have hd3 : (byteAt (A ++ v ++ d :: suf) A.length == 32) = false := by
    rw [h0b]; exact hfacts.2.2.1
  simp only [hd1, hd2, hd3, Bool.or_self, Bool.false_eq_true, if_false]
  exact scanTagsValueF_render A v suf d hp hd ((A ++ v ++ d :: suf).length + 1) A.length
    (le_refl _) (by omega)
    (by simp only [List.length_append, List.length_cons]; omega)

/-! ### The scanTags state machine on a rendered line -/

/-- Distance from a tag-name start position to the terminating space. -/
def nrLen : List Tag → Nat
  | [] => 0
  | t :: r => t.1.length + 1 + t.2.length + sumSeg r

lemma renderTags_cons (t : Tag) (r : List Tag) :
    renderTags (t :: r) = renderTag t ++ renderTags r := by
  simp [renderTags]

lemma renderTags_length (ts : List Tag) : (renderTags ts).length = sumSeg ts := by
  induction ts with
  | nil => rfl
  | cons t r ih =>
    rw [renderTags_cons]
    simp only [List.length_append, ih, sumSeg, List.map_cons, List.sum_cons, renderTag,
      segLen, List.length_cons]
    simp [sumSeg]
    omega

lemma scanTagsLoopF_render (rest : List Nat) :
    ∀ (ts : List Tag) (fuel : Nat) (A I : List Nat) (c : Nat),
      ts ≠ [] → (∀ t ∈ ts, PlainTag t) → 2 * ts.length + 1 ≤ fuel →
      c ≤ I.length → 1 ≤ I.length →
      scanTagsLoopF fuel (A ++ nameRender ts rest) A.length I c tagKeyState =
        (match tagLoopSpec ts c I A.length with
         | some (c2, I2) => .ok (A.length + nrLen ts, c2, I2, none)
         | none => .error .indexOutOfRange) := by
  intro ts
  induction ts with
  | nil => intro fuel A I c hne; exact absurd rfl hne
  | cons t r ih =>
    intro fuel A I c _ hts hfuel hc hI
    obtain ⟨ht1, ht2⟩ : PlainTag t := hts t (List.mem_cons_self t r)
    match fuel, hfuel with
    | f2 + 2, hf2 =>
    rw [scanTagsLoopF]
    rw [if_pos (show (tagKeyState == tagKeyState) = true from rfl)]
    dsimp only
    have hlt : c < (if c ≥ I.length then I ++ List.replicate I.length 0 else I).length := by
      by_cases hg : c ≥ I.length
      · rw [if_pos hg]; simp only [List.length_append, List.length_replicate]; omega
      · rw [if_neg hg]; omega
    rw [show goSet (if c ≥ I.length then I ++ List.replicate I.length 0 else I) c A.length =
        .ok ((if c ≥ I.length then I ++ List.replicate I.length 0 else I).set c A.length)
      from by rw [goSet, if_pos hlt]]
    have hkey : scanTagsKey (A ++ nameRender (t :: r) rest) A.length =
        (A.length + t.1.length + 1, none) := by
      have hshape : A ++ nameRender (t :: r) rest =
          A ++ t.1 ++ 61 :: (t.2 ++ (renderTags r ++ 32 :: rest)) := by
        simp [nameRender, List.append_assoc]
      rw [hshape]
      exact scanTagsKey_render A t.1 (t.2 ++ (renderTags r ++ 32 :: rest)) ht1
    rw [hkey]
    dsimp only
    have hI2len : c + 1 ≤ ((if c ≥ I.length then I ++ List.replicate I.length 0 else I).set
        c A.length).length ∧
        1 ≤ ((if c ≥ I.length then I ++ List.replicate I.length 0 else I).set
        c A.length).length := by
      constructor
      · rw [List.length_set]; omega
      · rw [List.length_set]
        by_cases hg : c ≥ I.length
        · rw [if_pos hg]; simp only [List.length_append, List.length_replicate]; omega
        · rw [if_neg hg]; omega
    have hA1 : (A ++ t.1 ++ [61]).length = A.length + t.1.length + 1 := by
      simp only [List.length_append, List.length_cons, List.length_nil]
    cases r with
    | nil =>
      have hval : scanTagsValue (A ++ nameRender [t] rest) (A.length + t.1.length + 1) =
          (fieldsState, A.length + t.1.length + 1 + t.2.length, none) := by
        have hshape2 : A ++ nameRender [t] rest =
            (A ++ t.1 ++ [61]) ++ t.2 ++ 32 :: rest := by
          simp [nameRender, renderTags, List.append_assoc]
        rw [hshape2, ← hA1]
        rw [scanTagsValue_render (A ++ t.1 ++ [61]) t.2 rest 32 ht2 (Or.inr rfl)]
        rw [if_neg (by omega)]
      match f2, (show 1 ≤ f2 by
          simp only [List.length_cons, List.length_nil] at hf2; omega) with
      | f3 + 1, _ =>
      rw [scanTagsLoopF]
      rw [if_neg (show ¬ (tagValueState == tagKeyState) = true from by decide),
        if_pos (show (tagValueState == tagValueState) = true from rfl)]
      rw [hval]
      dsimp only
      rw [scanTagsLoopF]
      rw [if_neg (show ¬ (fieldsState == tagKeyState) = true from by decide),
        if_neg (show ¬ (fieldsState == tagValueState) = true from by decide)]
      rw [tagLoopSpec]
      simp only [List.isEmpty_nil, if_true]
      rw [tagLoopSpec]
      rw [goSet]
      by_cases hcap : c + 1 <
          ((if c ≥ I.length then I ++ List.replicate I.length 0 else I).set
            c A.length).length
      · rw [if_pos hcap, if_pos hcap]
        dsimp only
        have harith : A.length + t.1.length + 1 + t.2.length + 0 + 1 =
            A.length + t.1.length + 1 + t.2.length + 1 := by omega
        rw [harith]
        have harith2 : A.length + nrLen [t] = A.length + t.1.length + 1 + t.2.length := by
          simp only [nrLen, sumSeg, List.map_nil, List.sum_nil]
          omega
        rw [harith2]
      · rw [if_neg hcap, if_neg hcap]
    | cons t2 r2 =>
      have hval : scanTagsValue (A ++ nameRender (t :: t2 :: r2) rest)
          (A.length + t.1.length + 1) =
          (tagKeyState, A.length + t.1.length + 1 + t.2.length + 1, none) := by
        have hshape2 : A ++ nameRender (t :: t2 :: r2) rest =
            (A ++ t.1 ++ [61]) ++ t.2 ++ 44 :: nameRender (t2 :: r2) rest := by
          simp [nameRender, renderTags_cons, renderTag, List.append_assoc]
        rw [hshape2, ← hA1]
        rw [scanTagsValue_render (A ++ t.1 ++ [61]) t.2 (nameRender (t2 :: r2) rest) 44
          ht2 (Or.inl rfl)]
        rw [if_pos rfl, hA1]
      rw [scanTagsLoopF]
      rw [if_neg (show ¬ (tagValueState == tagKeyState) = true from by decide),
        if_pos (show (tagValueState == tagValueState) = true from rfl)]
      rw [hval]
      dsimp only
      have hshape3 : A ++ nameRender (t :: t2 :: r2) rest =
          (A ++ t.1 ++ 61 :: t.2 ++ [44]) ++ nameRender (t2 :: r2) rest := by
        simp [nameRender, renderTags_cons, renderTag, List.append_assoc]
      have hA2 : (A ++ t.1 ++ 61 :: t.2 ++ [44]).length =
          A.length + t.1.length + 1 + t.2.length + 1 := by
        simp only [List.length_append, List.length_cons, List.length_nil]
        omega
      rw [show A.length + t.1.length + 1 + t.2.length + 1 =
        (A ++ t.1 ++ 61 :: t.2 ++ [44]).length from hA2.symm]
      rw [show A ++ nameRender (t :: t2 :: r2) rest =
        (A ++ t.1 ++ 61 :: t.2 ++ [44]) ++ nameRender (t2 :: r2) rest from hshape3]
      rw [ih f2 (A ++ t.1 ++ 61 :: t.2 ++ [44])
        ((if c ≥ I.length then I ++ List.replicate I.length 0 else I).set c A.length) (c+1)
        (by simp) (fun u hu => hts u (List.mem_cons_of_mem t hu))
        (by simp only [List.length_cons] at hf2 ⊢; omega) hI2len.1 hI2len.2]
      rw [hA2]
      conv_rhs => rw [tagLoopSpec]
      simp only [List.isEmpty_cons, Bool.false_eq_true, if_false]
      rcases hspec : tagLoopSpec (t2 :: r2) (c + 1)
          ((if c ≥ I.length then I ++ List.replicate I.length 0 else I).set c A.length)
          (A.length + t.1.length + 1 + t.2.length + 1) with _ | ⟨c2, I3⟩
      · rfl
      · have harith : A.length + t.1.length + 1 + t.2.length + 1 + nrLen (t2 :: r2) =
            A.length + nrLen (t :: t2 :: r2) := by
          simp only [nrLen, sumSeg, List.map_cons, List.sum_cons, segLen]
          omega
        rw [harith]

lemma sumSeg_cons (t : Tag) (r : List Tag) : sumSeg (t :: r) = segLen t + sumSeg r := by
  simp [sumSeg]

lemma sumSeg_ge (ts : List Tag) : 2 * ts.length ≤ sumSeg ts := by
  induction ts with
  | nil => simp [sumSeg]
  | cons t r ih =>
    rw [sumSeg_cons]
    have h2 : 2 ≤ segLen t := by unfold segLen; omega
    simp only [List.length_cons]
    omega

lemma nameRender_length (t : Tag) (r : List Tag) (rest : List Nat) :
    (nameRender (t :: r) rest).length = nrLen (t :: r) + 1 + rest.length := by
  simp only [nameRender, nrLen, List.length_append, List.length_cons, renderTags_length]
  omega

lemma scanTags_render (m rest : List Nat) (t : Tag) (r : List Tag) (I : List Nat)
    (hts : ∀ u ∈ t :: r, PlainTag u) (hI : 1 ≤ I.length) :
    scanTags (renderLine m (t :: r) rest) (m.length + 1) I =
      (match tagLoopSpec (t :: r) 0 I (m.length + 1) with
       | some (c2, I2) => .ok (m.length + 1 + nrLen (t :: r), c2, I2, none)
       | none => .error .indexOutOfRange) := by
  unfold scanTags
  have hshape : renderLine m (t :: r) rest = (m ++ [44]) ++ nameRender (t :: r) rest := by
    simp [renderLine, renderKey, renderTags_cons, renderTag, nameRender, List.append_assoc]
  have hA : (m ++ [44]).length = m.length + 1 := by simp
  rw [hshape, show m.length + 1 = (m ++ [44]).length from hA.symm]
  rw [scanTagsLoopF_render rest (t :: r) _ (m ++ [44]) I 0 (by simp) hts
    (by
      have hnr := nameRender_length t r rest
      have hsum := sumSeg_ge r
      simp only [List.length_append, List.length_cons, hnr, nrLen]
      omega)
    (by omega) hI]

lemma tagLoopSpec_isSome (ts : List Tag) :
    ∀ c I p, (tagLoopSpec ts c I p).isSome = capOk ts.length c I.length := by
  induction ts with
  | nil =>
    intro c I p
    rw [tagLoopSpec]
    show _ = capOk 0 c I.length
    rw [capOk]
    by_cases h : c < I.length
    · rw [if_pos h]; simp [h]
    · rw [if_neg h]; simp [h]
  | cons t r ih =>
    intro c I p
    rw [tagLoopSpec]
    rw [ih]
    simp only [List.length_cons]
    rw [capOk]
    congr 1
    rw [List.length_set]
    by_cases h : c ≥ I.length
    · rw [if_pos h, if_pos (show I.length ≤ c from h)]
      simp only [List.length_append, List.length_replicate]
      omega
    · rw [if_neg h, if_neg (show ¬ I.length ≤ c from h)]

lemma tagLoopSpec_some (ts : List Tag) :
    ∀ c I p c2 I2, c ≤ I.length → 1 ≤ I.length →
      tagLoopSpec ts c I p = some (c2, I2) →
      c2 = c + ts.length ∧ c2 < I2.length ∧
      (∀ k, k < c → byteAt I2 k = byteAt I k) ∧
      (∀ j, j < ts.length → byteAt I2 (c + j) = p + sumSeg (ts.take j)) ∧
      byteAt I2 (c + ts.length) = p + (if ts.isEmpty then 1 else sumSeg ts) := by
  induction ts with
  | nil =>
    intro c I p c2 I2 hc hI h
    rw [tagLoopSpec] at h
    by_cases hlt : c < I.length
    · rw [if_pos hlt] at h
      obtain ⟨hc2, hI2⟩ : c = c2 ∧ I.set c (p + 1) = I2 := by
        have := Option.some.inj h
        exact ⟨(Prod.mk.injEq _ _ _ _ ▸ this).1, (Prod.mk.injEq _ _ _ _ ▸ this).2⟩
      subst hc2
      subst hI2
      refine ⟨by simp, ?_, ?_, ?_, ?_⟩
      · rw [List.length_set]; omega
      · intro k hk
        exact byteAt_set_ne _ _ _ _ (by omega)
      · intro j hj
        simp at hj
      · simp only [List.length_nil, Nat.add_zero, List.isEmpty_nil, if_true]
        exact byteAt_set_self I c (p+1) hlt
    · rw [if_neg hlt] at h
      exact absurd h (by simp)
  | cons t r ih =>
    intro c I p c2 I2 hc hI h
    rw [tagLoopSpec] at h
    have hglen : c < (if c ≥ I.length then I ++ List.replicate I.length 0 else I).length := by
      by_cases hg : c ≥ I.length
      · rw [if_pos hg]; simp only [List.length_append, List.length_replicate]; omega
      · rw [if_neg hg]; omega
    have hslen : ((if c ≥ I.length then I ++ List.replicate I.length 0 else I).set
        c p).length = (if c ≥ I.length then I ++ List.replicate I.length 0 else I).length := by
      rw [List.length_set]
    obtain ⟨h1, h2, h3, h4, h5⟩ := ih (c+1) _ _ c2 I2
      (by rw [hslen]; omega)
      (by rw [hslen]; omega) h
    have hset0 : byteAt ((if c ≥ I.length then I ++ List.replicate I.length 0 else I).set
        c p) c = p := byteAt_set_self _ _ _ hglen
    have hpres : ∀ k, k < c →
        byteAt ((if c ≥ I.length then I ++ List.replicate I.length 0 else I).set c p) k =
        byteAt I k := by
      intro k hk
      rw [byteAt_set_ne _ _ _ _ (by omega)]
      by_cases hg : c ≥ I.length
      · rw [if_pos hg]
        exact byteAt_append_left _ _ _ (by omega)
      · rw [if_neg hg]
    refine ⟨by simp only [List.length_cons]; omega, h2, ?_, ?_, ?_⟩
    · intro k hk
      rw [h3 k (by omega), hpres k hk]
    · intro j hj
      cases j with
      | zero =>
        simp only [Nat.add_zero, List.take_zero, sumSeg, List.map_nil, List.sum_nil]
        rw [h3 c (by omega), hset0]
      | succ j' =>
        simp only [List.length_cons] at hj
        have hrne : r ≠ [] := by
          intro hre
          rw [hre] at hj
          simp at hj
        have hie : r.isEmpty = false := by
          rw [List.isEmpty_eq_false_iff_exists_mem]
          rcases r with _ | ⟨u, r'⟩
          · exact absurd rfl hrne
          · exact ⟨u, List.mem_cons_self u r'⟩
        rw [show c + (j' + 1) = c + 1 + j' by omega]
        rw [h4 j' (by omega)]
        rw [List.take_succ_cons, sumSeg_cons]
        simp only [hie, Bool.false_eq_true, if_false]
        unfold segLen
        omega
    · rw [show c + (t :: r).length = c + 1 + r.length by simp; omega]
      rw [h5]
      by_cases hre : r.isEmpty
      · have hr0 : r = [] := List.isEmpty_iff.mp hre
        subst hr0
        simp only [List.isEmpty_nil, List.isEmpty_cons, Bool.false_eq_true, if_true,
          if_false, sumSeg_cons, sumSeg, segLen, List.map_nil, List.map_cons,
          List.sum_cons, List.sum_nil, List.length_nil, Nat.add_zero] at h5 ⊢
        omega
      · have hre' : r.isEmpty = false := by
          cases hrb : r.isEmpty
          · rfl
          · exact absurd hrb hre
        simp only [hre', List.isEmpty_cons, Bool.false_eq_true, if_true, if_false,
          sumSeg_cons, segLen] at h5 ⊢
        omega

/-! ### The insertion sort: permutation and adjacent sortedness -/

/-- The comparison used by less, seen through the recorded offsets: strict
byte order of the tag names the two offsets point at. -/
def ltV (buf : List Nat) (x y : Nat) : Bool :=
  bytesCompare (scanTo buf x 61).2 (scanTo buf y 61).2 == .lt

lemma less_eq_ltV (buf I : List Nat) (i j : Nat) :
    less buf I i j = ltV buf (byteAt I i) (byteAt I j) := rfl

lemma ltV_asymm (buf : List Nat) (x y : Nat) (h : ltV buf x y = true) :
    ltV buf y x = false := by
  unfold ltV at *
  have h' : bytesCompare (scanTo buf x 61).2 (scanTo buf y 61).2 = Ordering.lt := by
    cases hc : bytesCompare (scanTo buf x 61).2 (scanTo buf y 61).2
    · rfl
    · rw [hc] at h; exact Bool.noConfusion h
    · rw [hc] at h; exact Bool.noConfusion h
  have hs := bytesCompare_swap (scanTo buf x 61).2 (scanTo buf y 61).2
  rw [h'] at hs
  rw [hs]
  rfl

lemma swapAdj_length (I : List Nat) (j : Nat) : (swapAdj I j).length = I.length := by
  unfold swapAdj
  rw [List.length_set, List.length_set]

lemma swapAdj_one (x y : Nat) (tl : List Nat) :
    swapAdj (x :: y :: tl) 1 = y :: x :: tl := rfl

lemma swapAdj_cons (x : Nat) (tl : List Nat) (j : Nat) :
    swapAdj (x :: tl) (j + 2) = x :: swapAdj tl (j + 1) := rfl

lemma byteAt_swapAdj (I : List Nat) (j : Nat) (hj : 0 < j) (hlt : j < I.length) :
    byteAt (swapAdj I j) j = byteAt I (j-1) ∧
    byteAt (swapAdj I j) (j-1) = byteAt I j ∧
    (∀ k, k ≠ j → k ≠ j - 1 → byteAt (swapAdj I j) k = byteAt I k) := by
  unfold swapAdj
  refine ⟨?_, ?_, ?_⟩
  · rw [byteAt_set_ne _ _ _ _ (by omega)]
    exact byteAt_set_self _ _ _ hlt
  · exact byteAt_set_self _ _ _ (by rw [List.length_set]; omega)
  · intro k h1 h2
    rw [byteAt_set_ne _ _ _ _ (by omega), byteAt_set_ne _ _ _ _ (by omega)]

lemma swapAdj_perm (I : List Nat) : ∀ j, 0 < j → j < I.length → (swapAdj I j).Perm I := by
  induction I with
  | nil => intro j h1 h2; simp at h2
  | cons x tl ih =>
    intro j h1 h2
    rcases j with _ | _ | j'
    · omega
    · cases tl with
      | nil => simp at h2
      | cons y tl2 =>
        rw [swapAdj_one]
        exact List.Perm.swap x y tl2
    · rw [swapAdj_cons]
      exact (ih (j'+1) (by omega) (by simp only [List.length_cons] at h2; omega)).cons x

lemma siftF_perm (buf : List Nat) :
    ∀ fuel I j, j < I.length → (siftF fuel buf I 0 j).Perm I := by
  intro fuel
  induction fuel with
  | zero => intro I j h; exact List.Perm.refl I
  | succ fuel ih =>
    intro I j h
    rw [siftF]
    by_cases hc : (decide (0 < j) && less buf I j (j-1)) = true
    · rw [if_pos hc]
      simp only [Bool.and_eq_true, decide_eq_true_eq] at hc
      have hperm := swapAdj_perm I j hc.1 h
      have hlen : (swapAdj I j).length = I.length := swapAdj_length I j
      exact (ih (swapAdj I j) (j-1) (by omega)).trans hperm
    · rw [if_neg hc]

lemma siftF_sorted (buf : List Nat) :
    ∀ fuel j I i, j ≤ fuel → j ≤ i → i < I.length →
      (∀ k, 0 < k → k ≤ i → k ≠ j → k ≠ j + 1 →
        ltV buf (byteAt I k) (byteAt I (k-1)) = false) →
      (j < i → ltV buf (byteAt I j) (byteAt I (j+1)) = true) →
      (0 < j → j < i → ltV buf (byteAt I (j+1)) (byteAt I (j-1)) = false) →
      ∀ k, 0 < k → k ≤ i →
        ltV buf (byteAt (siftF fuel buf I 0 j) k)
          (byteAt (siftF fuel buf I 0 j) (k-1)) = false := by
  intro fuel
  induction fuel with
  | zero =>
    intro j I i hjf hji hi inv1 inv2 inv3 k hk1 hk2
    have hj0 : j = 0 := by omega
    subst hj0
    show ltV buf (byteAt I k) (byteAt I (k-1)) = false
    by_cases hk : k = 1
    · subst hk
      have h2 := inv2 (by omega)
      exact ltV_asymm buf _ _ h2
    · exact inv1 k hk1 hk2 (by omega) (by omega)
  | succ fuel ih =>
    intro j I i hjf hji hi inv1 inv2 inv3 k hk1 hk2
    rw [siftF]
    by_cases hc : (decide (0 < j) && less buf I j (j-1)) = true
    · rw [if_pos hc]
      simp only [Bool.and_eq_true, decide_eq_true_eq, less_eq_ltV] at hc
      obtain ⟨hj0, hlt⟩ := hc
      obtain ⟨hs1, hs2, hs3⟩ := byteAt_swapAdj I j hj0 (by omega)
      refine ih (j-1) (swapAdj I j) i (by omega) (by omega)
        (by rw [swapAdj_length]; omega) ?_ ?_ ?_ k hk1 hk2
      · intro k' hk'1 hk'2 hne1 hne2
        by_cases hkj1 : k' = j + 1
        · subst hkj1
          rw [hs3 (j+1) (by omega) (by omega)]
          rw [show j + 1 - 1 = j by omega, hs1]
          exact inv3 hj0 (by omega)
        · by_cases hkj : k' = j
          · omega
          · rw [hs3 k' hkj (by omega)]
            rw [hs3 (k'-1) (by omega) (by omega)]
            exact inv1 k' hk'1 hk'2 hkj hkj1
      · intro hji'
        rw [show j - 1 + 1 = j by omega, hs2, hs1]
        exact hlt
      · intro hj1 hji'
        rw [show j - 1 + 1 = j by omega, hs1]
        rw [hs3 (j - 1 - 1) (by omega) (by omega)]
        exact inv1 (j-1) (by omega) (by omega) (by omega) (by omega)
    · rw [if_neg hc]
      show ltV buf (byteAt I k) (byteAt I (k-1)) = false
      simp only [Bool.and_eq_true, decide_eq_true_eq, less_eq_ltV, not_and] at hc
      by_cases hkj : k = j
      · subst hkj
        cases hb : ltV buf (byteAt I k) (byteAt I (k-1)) with
        | false => rfl
        | true => exact absurd hb (hc hk1)
      · by_cases hkj1 : k = j + 1
        · subst hkj1
          have h2 := inv2 (by omega)
          rw [show j + 1 - 1 = j by omega]
          exact ltV_asymm buf _ _ h2
        · exact inv1 k hk1 hk2 hkj hkj1

lemma insertionSortOuterF_sorted (buf : List Nat) :
    ∀ fuel I i, I.length ≤ fuel + i →
      (∀ k, 0 < k → k < i → ltV buf (byteAt I k) (byteAt I (k-1)) = false) →
      (insertionSortOuterF fuel buf I 0 I.length i).Perm I ∧
      (∀ k, 0 < k → k < I.length →
        ltV buf (byteAt (insertionSortOuterF fuel buf I 0 I.length i) k)
          (byteAt (insertionSortOuterF fuel buf I 0 I.length i) (k-1)) = false) := by
  intro fuel
  induction fuel with
  | zero =>
    intro I i hfi hpre
    constructor
    · exact List.Perm.refl _
    · intro k hk1 hk2
      exact hpre k hk1 (by omega)
  | succ fuel ih =>
    intro I i hfi hpre
    rw [insertionSortOuterF]
    by_cases hir : i < I.length
    · rw [if_pos hir]
      have hsortJ := siftF_sorted buf i i I i (le_refl i) (le_refl i) hir
        (fun k h1 h2 h3 _ => hpre k h1 (by omega))
        (fun h => absurd h (by omega))
        (fun _ h => absurd h (by omega))
      have hpermJ := siftF_perm buf i I i hir
      have hlenJ : (siftF i buf I 0 i).length = I.length := hpermJ.length_eq
      have := ih (siftF i buf I 0 i) (i+1) (by omega)
        (fun k h1 h2 => hsortJ k h1 (by omega))
      rw [hlenJ] at this
      obtain ⟨hp, hs⟩ := this
      exact ⟨hp.trans hpermJ, hs⟩
    · rw [if_neg hir]
      constructor
      · exact List.Perm.refl _
      · intro k hk1 hk2
        exact hpre k hk1 (by omega)

lemma insertionSort_spec (buf I : List Nat) :
    (insertionSort 0 I.length buf I).Perm I ∧
    (∀ k, 0 < k → k < I.length →
      ltV buf (byteAt (insertionSort 0 I.length buf I) k)
        (byteAt (insertionSort 0 I.length buf I) (k-1)) = false) := by
  unfold insertionSort
  exact insertionSortOuterF_sorted buf (I.length + 1) I 1 (by omega)
    (fun k h1 h2 => by omega)

/-! ### Name and segment extraction at rendered positions -/

lemma goSlice_mid (A s suf : List Nat) :
    goSlice (A ++ s ++ suf) A.length (A.length + s.length) = s := by
  unfold goSlice
  rw [List.append_assoc, List.take_append, List.take_left, List.drop_left]

lemma set_append_skip (A B : List Nat) (k v : Nat) :
    (A ++ B).set (A.length + k) v = A ++ B.set k v := by
  rw [List.set_append, if_neg (by omega)]
  congr 2
  omega

lemma scanToF_name (A nm suf : List Nat) (hn : ∀ b ∈ nm, PlainByte b) (hne : nm ≠ []) :
    ∀ fuel i, A.length ≤ i → i ≤ A.length + nm.length →
      A.length + nm.length - i < fuel →
      scanToF fuel (A ++ nm ++ 61 :: suf) i 61 = A.length + nm.length := by
  intro fuel
  induction fuel with
  | zero => intro i h1 h2 h3; omega
  | succ fuel ih =>
    intro i h1 h2 h3
    rw [scanToF]
    have hlen : ¬ (i ≥ (A ++ nm ++ 61 :: suf).length) := by
      simp only [ge_iff_le, not_le, List.length_append, List.length_cons]; omega
    rw [if_neg hlen]
    by_cases hend : i < A.length + nm.length
    · have hb : byteAt (A ++ nm ++ 61 :: suf) i = byteAt nm (i - A.length) := by
        have := byteAt_mid A nm (61 :: suf) (i - A.length) (by omega)
        rw [← this]
        congr 1
        omega
      have hf := plainByte_facts _ (hn _ (byteAt_mem nm (i - A.length) (by omega)))
      have hc : (byteAt (A ++ nm ++ 61 :: suf) i == 61) = false := by
        rw [hb]; exact hf.2.2.2
      simp only [hc, Bool.false_and, Bool.false_eq_true, if_false]
      exact ih (i+1) (by omega) (by omega) (by omega)
    · have hieq : i = A.length + nm.length := by omega
      have hb : byteAt (A ++ nm ++ 61 :: suf) i = 61 := by
        rw [hieq]
        simpa using byteAt_after A nm (61 :: suf)
      have hml : 0 < nm.length := List.length_pos.mpr hne
      have hprev : byteAt (A ++ nm ++ 61 :: suf) (i-1) = byteAt nm (nm.length - 1) := by
        have := byteAt_mid A nm (61 :: suf) (nm.length - 1) (by omega)
        rw [← this]
        congr 1
        omega
      have hpf := plainByte_facts _ (hn _ (byteAt_mem nm (nm.length - 1) (by omega)))
      have hc : (byteAt (A ++ nm ++ 61 :: suf) i == 61 &&
          (i == 0 || byteAt (A ++ nm ++ 61 :: suf) (i-1) != 92)) = true := by
        rw [hb, hprev]
        simp only [beq_self_eq_true, Bool.true_and, Bool.or_eq_true, bne_iff_ne, ne_eq]
        right
        have := hpf.1
        simp only [beq_eq_false_iff_ne] at this
        exact this
      rw [if_pos hc, hieq]

lemma scanTo_name (A nm suf : List Nat) (hn : PlainStr nm) :
    scanTo (A ++ nm ++ 61 :: suf) A.length 61 = (A.length + nm.length, nm) := by
  obtain ⟨hne, hp⟩ := hn
  unfold scanTo
  rw [scanToF_name A nm suf hp hne ((A ++ nm ++ 61 :: suf).length + 1) A.length
    (le_refl _) (by omega)
    (by simp only [List.length_append, List.length_cons]; omega)]
  dsimp only
  rw [show (61 : Nat) :: suf = [61] ++ suf from rfl, ← List.append_assoc]
  rw [show A ++ nm ++ [61] ++ suf = A ++ nm ++ ([61] ++ suf) by
    simp [List.append_assoc]]
  rw [goSlice_mid A nm ([61] ++ suf)]

lemma scanToSpaceOrF_seg (A seg suf : List Nat) (d : Nat)
    (hseg : ∀ b ∈ seg, PlainByte b ∨ b = 61) (hd : d = 44 ∨ d = 32) :
    ∀ fuel i, A.length ≤ i → i < A.length + seg.length →
      A.length + seg.length - i < fuel →
      scanToSpaceOrF fuel (A ++ seg ++ d :: suf) i 44 = A.length + seg.length := by
  intro fuel
  induction fuel with
  | zero => intro i h1 h2 h3; omega
  | succ fuel ih =>
    intro i h1 h2 h3
    rw [scanToSpaceOrF]
    have hbprev : byteAt (A ++ seg ++ d :: suf) (i + 1 - 1) = byteAt seg (i - A.length) := by
      have := byteAt_mid A seg (d :: suf) (i - A.length) (by omega)
      rw [← this]
      congr 1
      omega
    have hsegb := hseg _ (byteAt_mem seg (i - A.length) (by omega))
    have hesc : (byteAt (A ++ seg ++ d :: suf) (i + 1 - 1) == 92) = false := by
      rw [hbprev]
      rcases hsegb with h | h
      · exact (plainByte_facts _ h).1
      · rw [h]; rfl
    simp only [hesc, Bool.false_eq_true, if_false]
    have hlen : ¬ (i + 1 ≥ (A ++ seg ++ d :: suf).length) := by
      simp only [ge_iff_le, not_le, List.length_append, List.length_cons]; omega
    rw [if_neg hlen]
    by_cases hend : i + 1 < A.length + seg.length
    · have hb : byteAt (A ++ seg ++ d :: suf) (i+1) = byteAt seg (i + 1 - A.length) := by
        have := byteAt_mid A seg (d :: suf) (i + 1 - A.length) (by omega)
        rw [← this]
        congr 1
        omega
      have hsb := hseg _ (byteAt_mem seg (i + 1 - A.length) (by omega))
      have hc : (byteAt (A ++ seg ++ d :: suf) (i+1) == 44 ||
          byteAt (A ++ seg ++ d :: suf) (i+1) == 32) = false := by
        rw [hb]
        rcases hsb with h | h
        · have hf := plainByte_facts _ h
          rw [Bool.or_eq_false_iff]
          exact ⟨hf.2.1, hf.2.2.1⟩
        · rw [h]; rfl
      simp only [hc, Bool.false_eq_true, if_false]
      exact ih (i+1) (by omega) hend (by omega)
    · have hieq : i + 1 = A.length + seg.length := by omega
      have hb : byteAt (A ++ seg ++ d :: suf) (i+1) = d := by
        rw [hieq]
        simpa using byteAt_after A seg (d :: suf)
      have hc : (byteAt (A ++ seg ++ d :: suf) (i+1) == 44 ||
          byteAt (A ++ seg ++ d :: suf) (i+1) == 32) = true := by
        rw [hb]
        rcases hd with h | h <;> (rw [h]; rfl)
      rw [if_pos hc, hieq]

lemma seg_chars (nm val : List Nat) (hn : PlainStr nm) (hv : PlainStr val) :
    ∀ b ∈ nm ++ 61 :: val, PlainByte b ∨ b = 61 := by
  intro b hb
  rcases List.mem_append.mp hb with h | h
  · exact Or.inl (hn.2 b h)
  · rcases List.mem_cons.mp h with h | h
    · exact Or.inr h
    · exact Or.inl (hv.2 b h)

lemma scanToSpaceOr_seg (A nm val suf : List Nat) (d : Nat)
    (hn : PlainStr nm) (hv : PlainStr val) (hd : d = 44 ∨ d = 32) :
    scanToSpaceOr (A ++ (nm ++ 61 :: val) ++ d :: suf) A.length 44 =
      (A.length + (nm ++ 61 :: val).length, nm ++ 61 :: val) := by
  have hml : 0 < nm.length := List.length_pos.mpr hn.1
  unfold scanToSpaceOr
  have h0 : byteAt (A ++ (nm ++ 61 :: val) ++ d :: suf) A.length = byteAt nm 0 := by
    have := byteAt_mid A (nm ++ 61 :: val) (d :: suf) 0 (by simp)
    simp only [Nat.add_zero] at this
    rw [this]
    exact byteAt_append_left nm (61 :: val) 0 hml
  have hf := plainByte_facts _ (hn.2 _ (byteAt_mem nm 0 hml))
  have hc : (byteAt (A ++ (nm ++ 61 :: val) ++ d :: suf) A.length == 44 ||
      byteAt (A ++ (nm ++ 61 :: val) ++ d :: suf) A.length == 32) = false := by
    rw [h0, Bool.or_eq_false_iff]
    exact ⟨hf.2.1, hf.2.2.1⟩
  simp only [hc, Bool.false_eq_true, if_false]
  rw [scanToSpaceOrF_seg A (nm ++ 61 :: val) suf d (seg_chars nm val hn hv) hd
    ((A ++ (nm ++ 61 :: val) ++ d :: suf).length + 2) A.length (le_refl _)
    (by simp)
    (by simp only [List.length_append, List.length_cons]; omega)]
  rw [show (d : Nat) :: suf = [d] ++ suf from rfl, ← List.append_assoc]
  rw [show A ++ (nm ++ 61 :: val) ++ [d] ++ suf =
    A ++ (nm ++ 61 :: val) ++ ([d] ++ suf) by simp [List.append_assoc]]
  rw [goSlice_mid A (nm ++ 61 :: val) ([d] ++ suf)]

/-! ### Facts about the adjacent-pair verdicts -/

lemma adjSpec_ascending_chain : ∀ names : List (List Nat),
    adjSpec names = .ascending → List.Chain' bytesLt names
  | [] => fun _ => List.chain'_nil
  | [x] => fun _ => List.chain'_singleton x
  | x :: y :: r => fun h => by
    rw [adjSpec] at h
    cases hc : bytesCompare x y with
    | lt =>
      rw [hc] at h
      rw [List.chain'_cons]
      exact ⟨hc, adjSpec_ascending_chain (y :: r) h⟩
    | eq => rw [hc] at h; exact AdjRes.noConfusion h
    | gt => rw [hc] at h; exact AdjRes.noConfusion h

lemma adjSpec_ne_dup : ∀ names : List (List Nat), names.Nodup → adjSpec names ≠ .dup
  | [] => fun _ h => AdjRes.noConfusion h
  | [_] => fun _ h => AdjRes.noConfusion h
  | x :: y :: r => fun hnd h => by
    rw [adjSpec] at h
    obtain ⟨hx, hnd2⟩ := List.nodup_cons.mp hnd
    cases hc : bytesCompare x y with
    | lt =>
      rw [hc] at h
      exact adjSpec_ne_dup (y :: r) hnd2 h
    | eq =>
      have hxy : x = y := (bytesCompare_eq_iff x y).mp hc
      exact hx (hxy ▸ List.mem_cons_self y r)
    | gt => rw [hc] at h; exact AdjRes.noConfusion h

lemma nodup_of_sorted_chain (names : List (List Nat))
    (h : List.Chain' bytesLt names) : names.Nodup := by
  haveI : IsTrans (List Nat) bytesLt := ⟨fun a b c => bytesLt_trans a b c⟩
  have hp := List.chain'_iff_pairwise.mp h
  refine hp.imp ?_
  intro a b hlt heq
  subst heq
  exact bytesLt_irrefl a hlt

lemma adjSpec_dup_not_ascending (names : List (List Nat)) (hnd : ¬ names.Nodup) :
    adjSpec names ≠ .ascending := by
  intro h
  exact hnd (nodup_of_sorted_chain names (adjSpec_ascending_chain names h))

lemma hasAdjEq_false_of_nodup : ∀ names : List (List Nat),
    names.Nodup → hasAdjEq names = false
  | [] => fun _ => rfl
  | [_] => fun _ => rfl
  | x :: y :: r => fun h => by
    rw [hasAdjEq]
    obtain ⟨h1, h2⟩ := List.nodup_cons.mp h
    have hxy : (x == y) = false := by
      rw [beq_eq_false_iff_ne]
      intro he
      exact h1 (he ▸ List.mem_cons_self y r)
    rw [hxy, Bool.false_or]
    exact hasAdjEq_false_of_nodup (y :: r) h2

lemma sorted_noAdjEq_chain : ∀ names : List (List Nat),
    List.Chain' (fun a b => ¬ bytesLt b a) names → hasAdjEq names = false →
    List.Chain' bytesLt names
  | [] => fun _ _ => List.chain'_nil
  | [x] => fun _ _ => List.chain'_singleton x
  | x :: y :: r => fun hs hna => by
    rw [List.chain'_cons] at hs ⊢
    rw [hasAdjEq, Bool.or_eq_false_iff] at hna
    have hne : x ≠ y := beq_eq_false_iff_ne.mp hna.1
    exact ⟨bytesLt_total x y hne hs.1, sorted_noAdjEq_chain (y :: r) hs.2 hna.2⟩

lemma hasAdjEq_true_of_dup (names' names : List (List Nat)) (hperm : names'.Perm names)
    (hs : List.Chain' (fun a b => ¬ bytesLt b a) names') (hdup : ¬ names.Nodup) :
    hasAdjEq names' = true := by
  cases hb : hasAdjEq names' with
  | false =>
    exfalso
    exact hdup (hperm.nodup (nodup_of_sorted_chain names'
      (sorted_noAdjEq_chain names' hs hb)))
  | true => rfl

lemma chain'_of_adjacent (R : List Nat → List Nat → Prop) :
    ∀ l : List (List Nat),
      (∀ k, k + 1 < l.length → R (l.getD k []) (l.getD (k+1) [])) →
      List.Chain' R l
  | [] => fun _ => List.chain'_nil
  | [x] => fun _ => List.chain'_singleton x
  | x :: y :: r => fun h => by
    rw [List.chain'_cons]
    constructor
    · exact h 0 (by simp only [List.length_cons]; omega)
    · exact chain'_of_adjacent R (y :: r)
        (fun k hk => h (k+1) (by simp only [List.length_cons] at hk ⊢; omega))

/-! ### The pre-check and post-check loops against the rendered names -/

lemma dropNames_cons (l : List (List Nat)) (j : Nat) (h : j < l.length) :
    l.drop j = l.getD j [] :: l.drop (j+1) := by
  rw [List.drop_eq_getElem_cons h]
  congr 1
  rw [List.getD_eq_getElem?_getD, List.getElem?_eq_getElem h]
  rfl

lemma preCheckF_spec (buf I : List Nat) (names : List (List Nat)) (n : Nat)
    (hn : names.length = n)
    (hleft : ∀ j, j + 1 ≤ n →
      (scanTo (goSlice buf (byteAt I j) (byteAt I (j+1) - 1)) 0 61).2 = names.getD j []) :
    ∀ fuel j, n - 1 - j < fuel → preCheckF fuel buf I n j = adjSpec (names.drop j) := by
  intro fuel
  induction fuel with
  | zero => intro j h; omega
  | succ fuel ih =>
    intro j hf
    rw [preCheckF]
    by_cases hj : j + 1 < n
    · rw [if_pos hj]
      rw [hleft j (by omega), hleft (j+1) (by omega)]
      rw [dropNames_cons names j (by omega), dropNames_cons names (j+1) (by omega)]
      rw [adjSpec]
      dsimp only
      cases hc : bytesCompare (names.getD j []) (names.getD (j+1) []) with
      | lt =>
        dsimp only
        rw [ih (j+1) (by omega)]
        rw [← dropNames_cons names (j+1) (by omega)]
      | eq => rfl
      | gt => rfl
    · rw [if_neg hj]
      have hlen : (names.drop j).length ≤ 1 := by
        rw [List.length_drop]; omega
      rcases hdd : names.drop j with _ | ⟨x, _ | ⟨y, r⟩⟩
      · rfl
      · rfl
      · rw [hdd] at hlen; simp at hlen

lemma postCheckF_spec (buf Q : List Nat) (names : List (List Nat)) (n : Nat)
    (hn : names.length = n)
    (hname : ∀ j, j < n → (scanTo (buf.drop (byteAt Q j)) 0 61).2 = names.getD j []) :
    ∀ fuel j, n - 1 - j < fuel → postCheckF fuel buf Q n j = hasAdjEq (names.drop j) := by
  intro fuel
  induction fuel with
  | zero => intro j h; omega
  | succ fuel ih =>
    intro j hf
    rw [postCheckF]
    by_cases hj : j + 1 < n
    · rw [if_pos hj]
      rw [hname j (by omega), hname (j+1) (by omega)]
      rw [dropNames_cons names j (by omega), dropNames_cons names (j+1) (by omega)]
      rw [hasAdjEq]
      dsimp only
      cases hc : (names.getD j [] == names.getD (j+1) []) with
      | true => rw [if_pos rfl, Bool.true_or]
      | false =>
        simp only [Bool.false_eq_true, if_false, Bool.false_or]
        rw [ih (j+1) (by omega)]
        rw [← dropNames_cons names (j+1) (by omega)]
    · rw [if_neg hj]
      have hlen : (names.drop j).length ≤ 1 := by
        rw [List.length_drop]; omega
      rcases hdd : names.drop j with _ | ⟨x, _ | ⟨y, r⟩⟩
      · rfl
      · rfl
      · rw [hdd] at hlen; simp at hlen

/-! ### The key-rebuild loop on recorded tag positions -/

lemma set_append_zero (A B : List Nat) (v : Nat) :
    (A ++ B).set A.length v = A ++ B.set 0 v := by
  have := set_append_skip A B 0 v
  simpa using this

lemma rebuildLoop_spec (buf : List Nat) (seg : Nat → List Nat) :
    ∀ (Q : List Nat) (done : List Nat),
      (∀ q ∈ Q, (scanToSpaceOr buf q 44).2 = seg q) →
      rebuildLoop buf Q
          (done ++ List.replicate ((Q.map (fun q => 1 + (seg q).length)).sum) 0)
          done.length =
        .ok (done ++ (Q.map (fun q => 44 :: seg q)).flatten) := by
  intro Q
  induction Q with
  | nil =>
    intro done h
    simp [rebuildLoop]
  | cons q Q' ih =>
    intro done h
    have hs : (Q'.map (fun q => 1 + (seg q).length)).sum =
        ((q :: Q').map (fun q => 1 + (seg q).length)).sum - 1 - (seg q).length := by
      simp only [List.map_cons, List.sum_cons]
      omega
    rw [rebuildLoop]
    have hR : ((q :: Q').map (fun q => 1 + (seg q).length)).sum =
        (seg q).length + (Q'.map (fun q => 1 + (seg q).length)).sum + 1 := by
      simp only [List.map_cons, List.sum_cons]
      omega
    have hgs : goSet (done ++ List.replicate (((q :: Q').map
        (fun q => 1 + (seg q).length)).sum) 0) done.length 44 =
        .ok (done ++ 44 :: List.replicate ((seg q).length +
          (Q'.map (fun q => 1 + (seg q).length)).sum) 0) := by
      rw [goSet, if_pos (by
        simp only [List.length_append, List.length_replicate, hR]; omega)]
      rw [set_append_zero]
      rw [hR, List.replicate_succ]
      rfl
    rw [hgs]
    rw [h q (List.mem_cons_self q Q')]
    have hcp : goCopyAt (done ++ 44 :: List.replicate ((seg q).length +
          (Q'.map (fun q => 1 + (seg q).length)).sum) 0) (done.length + 1) (seg q) =
        ((seg q).length, (done ++ 44 :: seg q) ++
          List.replicate ((Q'.map (fun q => 1 + (seg q).length)).sum) 0) := by
      unfold goCopyAt
      have hmin : min (seg q).length ((done ++ 44 :: List.replicate ((seg q).length +
          (Q'.map (fun q => 1 + (seg q).length)).sum) 0).length - (done.length + 1)) =
          (seg q).length := by
        simp only [List.length_append, List.length_cons, List.length_replicate]
        omega
      rw [hmin]
      refine Prod.ext rfl ?_
      show _ ++ _ ++ _ = _
      rw [List.take_length]
      rw [show done.length + 1 = done.length + 1 from rfl]
      have htk : (done ++ 44 :: List.replicate ((seg q).length +
          (Q'.map (fun q => 1 + (seg q).length)).sum) 0).take (done.length + 1) =
          done ++ [44] := by
        rw [List.take_append]
        rfl
      have hdr : (done ++ 44 :: List.replicate ((seg q).length +
          (Q'.map (fun q => 1 + (seg q).length)).sum) 0).drop
            (done.length + 1 + (seg q).length) =
          List.replicate ((Q'.map (fun q => 1 + (seg q).length)).sum) 0 := by
        rw [show done.length + 1 + (seg q).length =
          done.length + (1 + (seg q).length) from by omega]
        rw [List.drop_append]
        rw [show (1 : Nat) + (seg q).length = (seg q).length + 1 from by omega]
        rw [List.drop_succ_cons]
        rw [List.drop_replicate]
        congr 1
        omega
      rw [htk, hdr]
      simp [List.append_assoc]
    dsimp only
    rw [hcp]
    dsimp only
    have hih := ih (done ++ 44 :: seg q) (fun u hu => h u (List.mem_cons_of_mem q hu))
    simp only [List.append_assoc, List.cons_append, List.length_append,
      List.length_cons] at hih
    rw [show done.length + 1 + (seg q).length =
      done.length + ((seg q).length + 1) from by omega]
    simp only [List.append_assoc, List.cons_append]
    rw [hih]
    simp [List.append_assoc]

/-! ### Assembly support for the scanKey characterization -/

lemma skipWhitespace_zero (buf : List Nat) (hlen : 0 < buf.length)
    (h32 : byteAt buf 0 ≠ 32) (h9 : byteAt buf 0 ≠ 9) (h0 : byteAt buf 0 ≠ 0) :
    skipWhitespace buf 0 = 0 := by
  unfold skipWhitespace
  rw [show buf.length + 1 = buf.length + 1 from rfl]
  cases hb : buf.length with
  | zero => omega
  | succ k =>
    rw [skipWhitespaceF]
    rw [if_pos (by omega)]
    rw [if_pos (by
      simp only [bne_iff_ne, ne_eq, Bool.and_eq_true]
      exact ⟨⟨h32, h9⟩, h0⟩)]

/-- Structural decomposition of a rendered line at the j-th tag: prefix of
length equal to the recorded start position, then name, equals sign,
value, then the delimiter (comma, or space for the last tag). -/
lemma render_decomp :
    ∀ (ts : List Tag) (m rest : List Nat) (j : Nat), j < ts.length →
      ∃ A suf, renderLine m ts rest =
          A ++ ((ts.getD j ([], [])).1 ++ 61 :: (ts.getD j ([], [])).2) ++
            (if j + 1 = ts.length then 32 else 44) :: suf ∧
        A.length = m.length + 1 + sumSeg (ts.take j) := by
  intro ts
  induction ts with
  | nil => intro m rest j hj; simp at hj
  | cons t r ih =>
    intro m rest j hj
    cases j with
    | zero =>
      refine ⟨m ++ [44], ?_, ?_, ?_⟩
      · cases r with
        | nil => exact rest
        | cons t2 r2 => exact (renderTags (t2 :: r2)).tail ++ 32 :: rest
      · cases r with
        | nil =>
          simp only [List.getD_cons_zero, List.length_cons, List.length_nil,
            Nat.zero_add, if_pos rfl]
          simp [renderLine, renderKey, renderTags_cons, renderTag, renderTags,
            List.append_assoc]
        | cons t2 r2 =>
          simp only [List.getD_cons_zero, List.length_cons]
          rw [if_neg (by omega)]
          simp only [renderLine, renderKey, renderTags_cons, renderTag, List.tail_cons]
          simp [List.append_assoc]
      · simp [sumSeg]
    | succ j' =>
      simp only [List.length_cons] at hj
      obtain ⟨A', suf, heq, hlen⟩ := ih (m ++ 44 :: t.1 ++ 61 :: t.2) rest j' (by omega)
      refine ⟨A', suf, ?_, ?_⟩
      · simp only [List.getD_cons_succ, List.length_cons]
        rw [show (if j' + 1 + 1 = r.length + 1 then 32 else 44) =
          (if j' + 1 = r.length then 32 else 44) from by
            by_cases hh : j' + 1 = r.length
            · rw [if_pos hh, if_pos (by omega)]
            · rw [if_neg hh, if_neg (by omega)]]
        rw [← heq]
        simp [renderLine, renderKey, renderTags_cons, renderTag, List.append_assoc]
      · rw [hlen]
        simp only [List.take_succ_cons, sumSeg_cons, List.length_append,
          List.length_cons, segLen]
        omega

lemma perm_map_exists {α β : Type} (f : α → β) :
    ∀ (l2 : List β) (l1 : List α), l2.Perm (l1.map f) →
      ∃ l0 : List α, l0.Perm l1 ∧ l2 = l0.map f := by
  intro l2
  induction l2 with
  | nil =>
    intro l1 h
    have h1 : l1.map f = [] := List.Perm.eq_nil (List.Perm.symm h)
    have h2 : l1 = [] := List.map_eq_nil_iff.mp h1
    exact ⟨[], by rw [h2], rfl⟩
  | cons x l2' ih =>
    intro l1 h
    have hx : x ∈ l1.map f := h.mem_iff.mp (List.mem_cons_self x l2')
    obtain ⟨a, ha, hfa⟩ := List.mem_map.mp hx
    obtain ⟨u, v, huv⟩ := List.append_of_mem ha
    subst huv
    have hmap : (u ++ a :: v).map f = u.map f ++ f a :: v.map f := by
      simp
    rw [hmap, hfa] at h
    have h2 : (x :: l2').Perm (x :: (u.map f ++ v.map f)) :=
      h.trans List.perm_middle
    have h3 : l2'.Perm (u.map f ++ v.map f) := h2.cons_inv
    have h4 : l2'.Perm ((u ++ v).map f) := by
      rw [List.map_append]
      exact h3
    obtain ⟨l0', hp0, he0⟩ := ih (u ++ v) h4
    refine ⟨a :: l0', ?_, ?_⟩
    · exact (hp0.cons a).trans List.perm_middle.symm
    · rw [List.map_cons, hfa, he0]

lemma map_getD_range {α : Type} (d : α) (l : List α) :
    (List.range l.length).map (fun j => l.getD j d) = l := by
  refine List.ext_getElem (by simp) ?_
  intro n h1 h2
  rw [List.getElem_map]
  rw [List.getElem_range]
  rw [List.getD_eq_getElem?_getD, List.getElem?_eq_getElem h2]
  rfl

lemma sorted_perm_unique (ts1 ts2 : List Tag) (hp : ts1.Perm ts2)
    (h1 : List.Chain' bytesLt (ts1.map (fun u => u.1)))
    (h2 : List.Chain' bytesLt (ts2.map (fun u => u.1))) : ts1 = ts2 := by
  haveI ht : IsTrans Tag (fun a b => bytesLt a.1 b.1) :=
    ⟨fun a b c hab hbc => bytesLt_trans a.1 b.1 c.1 hab hbc⟩
  haveI ha : IsAntisymm Tag (fun a b => bytesLt a.1 b.1) :=
    ⟨fun a b hab hba => absurd hba (bytesLt_asymm a.1 b.1 hab)⟩
  exact List.eq_of_perm_of_sorted hp
    (List.chain'_iff_pairwise.mp ((List.chain'_map _).mp h1))
    (List.chain'_iff_pairwise.mp ((List.chain'_map _).mp h2))

lemma getD_eq_getElem {α : Type} (l : List α) (d : α) (j : Nat) (h : j < l.length) :
    l.getD j d = l[j] := by
  rw [List.getD_eq_getElem?_getD, List.getElem?_eq_getElem h]
  rfl

lemma getD_mem {α : Type} (l : List α) (d : α) (j : Nat) (h : j < l.length) :
    l.getD j d ∈ l := by
  rw [getD_eq_getElem l d j h]
  exact List.getElem_mem h

lemma getD_map_fst (l : List Tag) (j : Nat) (h : j < l.length) :
    (l.map (fun u => u.1)).getD j [] = (l.getD j ([], [])).1 := by
  rw [getD_eq_getElem _ _ _ (by simpa using h), getD_eq_getElem _ _ _ h]
  rw [List.getElem_map]

lemma sumSeg_take_succ : ∀ (ts : List Tag) (j : Nat), j < ts.length →
    sumSeg (ts.take (j+1)) = sumSeg (ts.take j) + segLen (ts.getD j ([], [])) := by
  intro ts
  induction ts with
  | nil => intro j hj; simp at hj
  | cons u ts' ih =>
    intro j hj
    cases j with
    | zero =>
      simp only [List.take_succ_cons, List.take_zero, sumSeg_cons, List.getD_cons_zero]
      simp [sumSeg]
    | succ j' =>
      simp only [List.take_succ_cons, sumSeg_cons, List.getD_cons_succ]
      simp only [List.length_cons] at hj
      rw [ih j' (by omega)]
      omega

lemma renderKey_length (m : List Nat) (ts : List Tag) :
    (renderKey m ts).length = m.length + sumSeg ts := by
  simp [renderKey, renderTags_length]

lemma nrLen_eq (t : Tag) (r : List Tag) : nrLen (t :: r) = sumSeg (t :: r) - 1 := by
  simp only [nrLen, sumSeg_cons, segLen]
  omega

/-- scanKey on a rendered line, reduced through measurement and tag
scanning: what remains is the tagLoopSpec verdict followed by the
pre-check, sort, rebuild and post-check tail of scanKey. -/
lemma scanKey_render_unfold (m rest : List Nat) (t : Tag) (r : List Tag)
    (hm : PlainStr m) (hts : ∀ u ∈ t :: r, PlainTag u) :
    scanKey (renderLine m (t :: r) rest) 0 =
      (match tagLoopSpec (t :: r) 0 (List.replicate 100 0) (m.length + 1) with
       | none => .error .indexOutOfRange
       | some (c2, I2) =>
         (match preCheckF c2 (renderLine m (t :: r) rest) I2 c2 0 with
          | .dup => .ok (m.length + 1 + nrLen (t :: r),
              goSlice (renderLine m (t :: r) rest) 0 (m.length + 1 + nrLen (t :: r)),
              some .duplicateTags)
          | pre =>
            if pre == AdjRes.unsorted && decide (0 < c2) then
              match rebuildLoop (renderLine m (t :: r) rest)
                  (insertionSort 0 c2 (renderLine m (t :: r) rest) (I2.take c2))
                  ((goCopyAt (List.replicate (goSlice (renderLine m (t :: r) rest) 0
                      (m.length + 1 + nrLen (t :: r))).length 0) 0
                    (goSlice (renderLine m (t :: r) rest) 0 (byteAt I2 0 - 1))).2)
                  ((goCopyAt (List.replicate (goSlice (renderLine m (t :: r) rest) 0
                      (m.length + 1 + nrLen (t :: r))).length 0) 0
                    (goSlice (renderLine m (t :: r) rest) 0 (byteAt I2 0 - 1))).1) with
              | .error p => .error p
              | .ok b =>
                if postCheckF c2 (renderLine m (t :: r) rest)
                    (insertionSort 0 c2 (renderLine m (t :: r) rest) (I2.take c2)) c2 0 then
                  .ok (m.length + 1 + nrLen (t :: r), b, some .duplicateTags)
                else .ok (m.length + 1 + nrLen (t :: r), b, none)
            else .ok (m.length + 1 + nrLen (t :: r),
              goSlice (renderLine m (t :: r) rest) 0 (m.length + 1 + nrLen (t :: r)),
              none))) := by
  have hb0 : byteAt (renderLine m (t :: r) rest) 0 = byteAt m 0 := by
    unfold renderLine renderKey
    rw [List.append_assoc]
    exact byteAt_append_left m _ 0 (List.length_pos.mpr hm.1)
  have hm0 := hm.2 _ (byteAt_mem m 0 (List.length_pos.mpr hm.1))
  have hskip : skipWhitespace (renderLine m (t :: r) rest) 0 = 0 := by
    apply skipWhitespace_zero
    · have := List.length_pos.mpr hm.1
      simp only [renderLine, renderKey, List.length_append, List.length_cons]
      omega
    · rw [hb0]; obtain ⟨h1, _, _, _, _⟩ := hm0; omega
    · rw [hb0]; obtain ⟨h1, _, _, _, _⟩ := hm0; omega
    · rw [hb0]; obtain ⟨h1, _, _, _, _⟩ := hm0; omega
  have hshapem : renderLine m (t :: r) rest =
      m ++ 44 :: ((t.1 ++ 61 :: t.2) ++ (renderTags r ++ 32 :: rest)) := by
    simp [renderLine, renderKey, renderTags_cons, renderTag, List.append_assoc]
  have hmeas : scanMeasurement (renderLine m (t :: r) rest) 0 =
      (tagKeyState, m.length + 1, none) := by
    rw [hshapem]
    rw [scanMeasurement_render m _ 44 hm (Or.inl rfl)]
    rw [if_pos rfl]
  have htags := scanTags_render m rest t r (List.replicate 100 0) hts (by simp)
  unfold scanKey
  rw [hskip]
  dsimp only
  rw [hmeas]
  dsimp only
  rw [if_pos (show (tagKeyState == tagKeyState) = true from rfl)]
  rw [htags]
  rcases hspec : tagLoopSpec (t :: r) 0 (List.replicate 100 0) (m.length + 1) with
    _ | ⟨c2, I2⟩
  · rfl
  · rfl

lemma plain_at (t : Tag) (r : List Tag) (hts : ∀ u ∈ t :: r, PlainTag u)
    (j : Nat) (hj : j < (t :: r).length) :
    PlainStr ((t :: r).getD j ([], [])).1 ∧ PlainStr ((t :: r).getD j ([], [])).2 :=
  hts _ (getD_mem (t :: r) ([], []) j hj)

lemma pos_name (m rest : List Nat) (t : Tag) (r : List Tag)
    (hts : ∀ u ∈ t :: r, PlainTag u) (j : Nat) (hj : j < (t :: r).length) :
    (scanTo (renderLine m (t :: r) rest) (m.length + 1 + sumSeg ((t :: r).take j)) 61).2 =
      ((t :: r).getD j ([], [])).1 := by
  obtain ⟨A, suf, heq, hlen⟩ := render_decomp (t :: r) m rest j hj
  obtain ⟨hn, hv⟩ := plain_at t r hts j hj
  rw [heq, ← hlen]
  rw [show A ++ (((t :: r).getD j ([], [])).1 ++ 61 :: ((t :: r).getD j ([], [])).2) ++
      (if j + 1 = (t :: r).length then 32 else 44) :: suf =
    A ++ ((t :: r).getD j ([], [])).1 ++ 61 :: (((t :: r).getD j ([], [])).2 ++
      (if j + 1 = (t :: r).length then 32 else 44) :: suf) by simp [List.append_assoc]]
  rw [scanTo_name A _ _ hn]

lemma drop_name (m rest : List Nat) (t : Tag) (r : List Tag)
    (hts : ∀ u ∈ t :: r, PlainTag u) (j : Nat) (hj : j < (t :: r).length) :
    (scanTo ((renderLine m (t :: r) rest).drop
        (m.length + 1 + sumSeg ((t :: r).take j))) 0 61).2 =
      ((t :: r).getD j ([], [])).1 := by
  obtain ⟨A, suf, heq, hlen⟩ := render_decomp (t :: r) m rest j hj
  obtain ⟨hn, hv⟩ := plain_at t r hts j hj
  rw [heq, ← hlen]
  rw [show A ++ (((t :: r).getD j ([], [])).1 ++ 61 :: ((t :: r).getD j ([], [])).2) ++
      (if j + 1 = (t :: r).length then 32 else 44) :: suf =
    A ++ (((t :: r).getD j ([], [])).1 ++ 61 :: (((t :: r).getD j ([], [])).2 ++
      (if j + 1 = (t :: r).length then 32 else 44) :: suf)) by simp [List.append_assoc]]
  rw [List.drop_left]
  have := scanTo_name [] ((t :: r).getD j ([], [])).1
    (((t :: r).getD j ([], [])).2 ++ (if j + 1 = (t :: r).length then 32 else 44) :: suf) hn
  simp only [List.nil_append, List.length_nil, Nat.zero_add] at this
  rw [this]

lemma slice_name (m rest : List Nat) (t : Tag) (r : List Tag)
    (hts : ∀ u ∈ t :: r, PlainTag u) (j : Nat) (hj : j + 1 ≤ (t :: r).length) :
    (scanTo (goSlice (renderLine m (t :: r) rest)
        (m.length + 1 + sumSeg ((t :: r).take j))
        (m.length + 1 + sumSeg ((t :: r).take (j+1)) - 1)) 0 61).2 =
      ((t :: r).getD j ([], [])).1 := by
  obtain ⟨A, suf, heq, hlen⟩ := render_decomp (t :: r) m rest j (by omega)
  obtain ⟨hn, hv⟩ := plain_at t r hts j (by omega)
  have hsum := sumSeg_take_succ (t :: r) j (by omega)
  have hend : m.length + 1 + sumSeg ((t :: r).take (j+1)) - 1 =
      A.length + (((t :: r).getD j ([], [])).1 ++ 61 :: ((t :: r).getD j ([], [])).2).length := by
    rw [hsum, hlen]
    simp only [List.length_append, List.length_cons, segLen]
    omega
  rw [heq, ← hlen, hend]
  rw [goSlice_mid A _ _]
  have := scanTo_name [] ((t :: r).getD j ([], [])).1 ((t :: r).getD j ([], [])).2 hn
  simp only [List.nil_append, List.length_nil, Nat.zero_add] at this
  rw [this]

lemma pos_seg (m rest : List Nat) (t : Tag) (r : List Tag)
    (hts : ∀ u ∈ t :: r, PlainTag u) (j : Nat) (hj : j < (t :: r).length) :
    (scanToSpaceOr (renderLine m (t :: r) rest)
        (m.length + 1 + sumSeg ((t :: r).take j)) 44).2 =
      ((t :: r).getD j ([], [])).1 ++ 61 :: ((t :: r).getD j ([], [])).2 := by
  obtain ⟨A, suf, heq, hlen⟩ := render_decomp (t :: r) m rest j hj
  obtain ⟨hn, hv⟩ := plain_at t r hts j hj
  rw [heq, ← hlen]
  rw [scanToSpaceOr_seg A _ _ suf _ hn hv (by
    by_cases hh : j + 1 = (t :: r).length
    · rw [if_pos hh]; exact Or.inr rfl
    · rw [if_neg hh]; exact Or.inl rfl)]

lemma scanKey_ctx (m : List Nat) (t : Tag) (r : List Tag)
    (c2 : Nat) (I2 : List Nat)
    (hspec : tagLoopSpec (t :: r) 0 (List.replicate 100 0) (m.length + 1) =
      some (c2, I2)) :
    c2 = (t :: r).length ∧ c2 < I2.length ∧
    (∀ j, j ≤ (t :: r).length →
      byteAt I2 j = m.length + 1 + sumSeg ((t :: r).take j)) := by
  obtain ⟨h1, h2, _h3, h4, h5⟩ := tagLoopSpec_some (t :: r) 0 (List.replicate 100 0)
    (m.length + 1) c2 I2 (by simp) (by simp) hspec
  refine ⟨by simpa using h1, h2, ?_⟩
  intro j hj
  rcases Nat.lt_or_ge j (t :: r).length with hlt | hge
  · have := h4 j hlt
    simpa using this
  · have hj' : j = (t :: r).length := by omega
    subst hj'
    simp only [List.isEmpty_cons, Bool.false_eq_true, if_false, Nat.zero_add] at h5
    rw [h5, List.take_length]

lemma slice_key (m rest : List Nat) (t : Tag) (r : List Tag) :
    goSlice (renderLine m (t :: r) rest) 0 (m.length + 1 + nrLen (t :: r)) =
      renderKey m (t :: r) := by
  have h2 : 2 ≤ segLen t := by unfold segLen; omega
  have hKL : m.length + 1 + nrLen (t :: r) = (renderKey m (t :: r)).length := by
    rw [renderKey_length, nrLen_eq]
    rw [sumSeg_cons]
    omega
  rw [hKL]
  unfold goSlice renderLine
  rw [List.take_left, List.drop_zero]

lemma preCheck_eval (m rest : List Nat) (t : Tag) (r : List Tag)
    (hts : ∀ u ∈ t :: r, PlainTag u) (I2 : List Nat)
    (hentry : ∀ j, j ≤ (t :: r).length →
      byteAt I2 j = m.length + 1 + sumSeg ((t :: r).take j)) :
    preCheckF (t :: r).length (renderLine m (t :: r) rest) I2 (t :: r).length 0 =
      adjSpec ((t :: r).map (fun u => u.1)) := by
  have hlen : ((t :: r).map (fun u => u.1)).length = (t :: r).length := by simp
  rw [preCheckF_spec (renderLine m (t :: r) rest) I2 ((t :: r).map (fun u => u.1))
    (t :: r).length hlen ?_ (t :: r).length 0 (by simp only [List.length_cons]; omega)]
  · rw [List.drop_zero]
  · intro j hj
    rw [hentry j (by omega), hentry (j+1) (by omega)]
    rw [getD_map_fst (t :: r) j (by omega)]
    exact slice_name m rest t r hts j hj

lemma getD_map_at {α β : Type} (f : α → β) (l : List α) (j : Nat) (d : β) (da : α)
    (h : j < l.length) : (l.map f).getD j d = f (l.getD j da) := by
  rw [getD_eq_getElem _ _ _ (by simpa using h), getD_eq_getElem _ _ _ h]
  rw [List.getElem_map]

/-- The sort-and-rebuild path of scanKey on a rendered line: the rebuilt
key is the render of some permutation of the tags whose names are in
non-strictly ascending order, and the post-check reports exactly an
adjacent duplicate in that arrangement. -/
lemma scanKey_unsorted_path (m rest : List Nat) (t : Tag) (r : List Tag)
    (hts : ∀ u ∈ t :: r, PlainTag u) (I2 : List Nat)
    (hc2lt : (t :: r).length < I2.length)
    (hentry : ∀ j, j ≤ (t :: r).length →
      byteAt I2 j = m.length + 1 + sumSeg ((t :: r).take j)) :
    ∃ ts2 : List Tag, ts2.Perm (t :: r) ∧
      List.Chain' (fun a b => ¬ bytesLt b a) (ts2.map (fun u => u.1)) ∧
      rebuildLoop (renderLine m (t :: r) rest)
          (insertionSort 0 (t :: r).length (renderLine m (t :: r) rest)
            (I2.take (t :: r).length))
          ((goCopyAt (List.replicate (goSlice (renderLine m (t :: r) rest) 0
              (m.length + 1 + nrLen (t :: r))).length 0) 0
            (goSlice (renderLine m (t :: r) rest) 0 (byteAt I2 0 - 1))).2)
          ((goCopyAt (List.replicate (goSlice (renderLine m (t :: r) rest) 0
              (m.length + 1 + nrLen (t :: r))).length 0) 0
            (goSlice (renderLine m (t :: r) rest) 0 (byteAt I2 0 - 1))).1) =
        .ok (renderKey m ts2) ∧
      postCheckF (t :: r).length (renderLine m (t :: r) rest)
          (insertionSort 0 (t :: r).length (renderLine m (t :: r) rest)
            (I2.take (t :: r).length)) (t :: r).length 0 =
        hasAdjEq (ts2.map (fun u => u.1)) := by
  have hlen_take : (I2.take (t :: r).length).length = (t :: r).length := by
    rw [List.length_take]
    exact min_eq_left (by omega)
  have hidx : I2.take (t :: r).length = (List.range (t :: r).length).map
      (fun j => m.length + 1 + sumSeg ((t :: r).take j)) := by
    refine List.ext_getElem (by
      rw [List.length_take, List.length_map, List.length_range]
      exact min_eq_left (by omega)) ?_
    intro k h1 h2
    rw [List.getElem_take]
    rw [List.getElem_map, List.getElem_range]
    rw [← byteAt_lt I2 k (by rw [hlen_take] at h1; omega)]
    exact hentry k (by rw [hlen_take] at h1; omega)
  have hsort := insertionSort_spec (renderLine m (t :: r) rest) (I2.take (t :: r).length)
  rw [hlen_take] at hsort
  obtain ⟨hSperm0, hSsorted⟩ := hsort
  have hSperm : (insertionSort 0 (t :: r).length (renderLine m (t :: r) rest)
      (I2.take (t :: r).length)).Perm ((List.range (t :: r).length).map
        (fun j => m.length + 1 + sumSeg ((t :: r).take j))) := by
    rw [← hidx]
    exact hSperm0
  obtain ⟨js, hjs, hSeq⟩ := perm_map_exists
    (fun j => m.length + 1 + sumSeg ((t :: r).take j))
    (insertionSort 0 (t :: r).length (renderLine m (t :: r) rest)
      (I2.take (t :: r).length))
    (List.range (t :: r).length) hSperm
  have hjs_len : js.length = (t :: r).length := by
    have := hjs.length_eq
    simpa using this
  have hjs_mem : ∀ k ∈ js, k < (t :: r).length := by
    intro k hk
    exact List.mem_range.mp (hjs.subset hk)
  have hS_len : (insertionSort 0 (t :: r).length (renderLine m (t :: r) rest)
      (I2.take (t :: r).length)).length = (t :: r).length := by
    rw [hSperm0.length_eq, hlen_take]
  have hSat : ∀ k, k < (t :: r).length →
      byteAt (insertionSort 0 (t :: r).length (renderLine m (t :: r) rest)
        (I2.take (t :: r).length)) k =
      m.length + 1 + sumSeg ((t :: r).take (js.getD k 0)) := by
    intro k hk
    show byteAt _ k = _
    rw [hSeq]
    unfold byteAt
    rw [getD_map_at (fun j => m.length + 1 + sumSeg ((t :: r).take j)) js k 0 0
      (by omega)]
  have hltv : ∀ a b, a < (t :: r).length → b < (t :: r).length →
      ltV (renderLine m (t :: r) rest)
        (m.length + 1 + sumSeg ((t :: r).take a))
        (m.length + 1 + sumSeg ((t :: r).take b)) =
      (bytesCompare ((t :: r).getD a ([], [])).1 ((t :: r).getD b ([], [])).1 ==
        Ordering.lt) := by
    intro a b ha hb
    unfold ltV
    rw [pos_name m rest t r hts a ha, pos_name m rest t r hts b hb]
  refine ⟨js.map (fun j => (t :: r).getD j ([], [])), ?_, ?_, ?_, ?_⟩
  · have h1 := hjs.map (fun j => (t :: r).getD j ([], []))
    have h2 := map_getD_range (([], []) : Tag) (t :: r)
    rw [h2] at h1
    exact h1
  · rw [List.map_map]
    apply chain'_of_adjacent
    intro k hk
    simp only [List.length_map] at hk
    have hk1 : k < js.length := by omega
    have hk2 : k + 1 < js.length := by omega
    rw [getD_map_at _ js k [] 0 hk1, getD_map_at _ js (k+1) [] 0 hk2]
    simp only [Function.comp_apply]
    have hs := hSsorted (k+1) (by omega) (by omega)
    rw [hSat (k+1) (by omega)] at hs
    rw [show k + 1 - 1 = k from by omega] at hs
    rw [hSat k (by omega)] at hs
    rw [hltv (js.getD (k+1) 0) (js.getD k 0)
      (hjs_mem _ (getD_mem js 0 (k+1) hk2))
      (hjs_mem _ (getD_mem js 0 k hk1))] at hs
    intro hcon
    unfold bytesLt at hcon
    rw [hcon] at hs
    exact Bool.noConfusion hs
  · have hmeasSlice : goSlice (renderLine m (t :: r) rest) 0 (byteAt I2 0 - 1) = m := by
      rw [hentry 0 (by omega)]
      simp only [List.take_zero, sumSeg, List.map_nil, List.sum_nil, Nat.add_zero]
      rw [show m.length + 1 - 1 = m.length from by omega]
      unfold goSlice renderLine renderKey
      rw [List.append_assoc, List.take_left, List.drop_zero]
    have hkeySlice := slice_key m rest t r
    have hKLlen : (goSlice (renderLine m (t :: r) rest) 0
        (m.length + 1 + nrLen (t :: r))).length = m.length + sumSeg (t :: r) := by
      rw [hkeySlice, renderKey_length]
    have hsumge : m.length ≤ m.length + sumSeg (t :: r) := by omega
    have hcopy : goCopyAt (List.replicate (m.length + sumSeg (t :: r)) 0) 0 m =
        (m.length, m ++ List.replicate (sumSeg (t :: r)) 0) := by
      unfold goCopyAt
      rw [List.length_replicate]
      rw [show min m.length (m.length + sumSeg (t :: r) - 0) = m.length from by omega]
      dsimp only
      rw [List.take_length]
      simp only [List.take_zero, List.nil_append, Nat.zero_add]
      rw [List.drop_replicate]
      rw [show m.length + sumSeg (t :: r) - m.length = sumSeg (t :: r) from by omega]
    rw [hmeasSlice, hKLlen, hcopy]
    dsimp only
    have hsegsum : ((insertionSort 0 (t :: r).length (renderLine m (t :: r) rest)
        (I2.take (t :: r).length)).map
          (fun q => 1 + ((scanToSpaceOr (renderLine m (t :: r) rest) q 44).2).length)).sum =
        sumSeg (t :: r) := by
      rw [hSeq, List.map_map]
      have hcong : js.map ((fun q => 1 +
          ((scanToSpaceOr (renderLine m (t :: r) rest) q 44).2).length) ∘
            (fun j => m.length + 1 + sumSeg ((t :: r).take j))) =
          js.map (fun j => segLen ((t :: r).getD j ([], []))) := by
        apply List.map_congr_left
        intro j hj
        have hjn := hjs_mem j hj
        show 1 + ((scanToSpaceOr (renderLine m (t :: r) rest)
          (m.length + 1 + sumSeg ((t :: r).take j)) 44).2).length = _
        rw [pos_seg m rest t r hts j hjn]
        simp only [List.length_append, List.length_cons, segLen]
        omega
      rw [hcong]
      have hsum2 := (hjs.map (fun j => segLen ((t :: r).getD j ([], [])))).sum_eq
      rw [hsum2]
      rw [show (List.range (t :: r).length).map
          (fun j => segLen ((t :: r).getD j ([], []))) =
        ((List.range (t :: r).length).map (fun j => (t :: r).getD j ([], []))).map
          segLen from by rw [List.map_map]; rfl]
      rw [map_getD_range (([], []) : Tag) (t :: r)]
      rfl
    have happly := rebuildLoop_spec (renderLine m (t :: r) rest)
      (fun q => (scanToSpaceOr (renderLine m (t :: r) rest) q 44).2)
      (insertionSort 0 (t :: r).length (renderLine m (t :: r) rest)
        (I2.take (t :: r).length)) m (fun q _ => rfl)
    rw [hsegsum] at happly
    rw [happly]
    congr 1
    have hmapeq : (insertionSort 0 (t :: r).length (renderLine m (t :: r) rest)
        (I2.take (t :: r).length)).map
          (fun q => 44 :: (scanToSpaceOr (renderLine m (t :: r) rest) q 44).2) =
        (js.map (fun j => (t :: r).getD j ([], []))).map renderTag := by
      rw [hSeq, List.map_map, List.map_map]
      apply List.map_congr_left
      intro j hj
      have hjn := hjs_mem j hj
      show 44 :: (scanToSpaceOr (renderLine m (t :: r) rest)
        (m.length + 1 + sumSeg ((t :: r).take j)) 44).2 = _
      rw [pos_seg m rest t r hts j hjn]
      rfl
    rw [hmapeq]
    rfl
  · have hnames_len : ((js.map (fun j => (t :: r).getD j ([], []))).map
        (fun u => u.1)).length = (t :: r).length := by
      simp [hjs_len]
    rw [postCheckF_spec (renderLine m (t :: r) rest) _
      ((js.map (fun j => (t :: r).getD j ([], []))).map (fun u => u.1))
      (t :: r).length hnames_len ?_ (t :: r).length 0
      (by simp only [List.length_cons]; omega)]
    · rw [List.drop_zero]
    · intro j hj
      rw [hSat j hj]
      rw [List.map_map]
      rw [getD_map_at _ js j [] 0 (by omega)]
      exact drop_name m rest t r hts (js.getD j 0)
        (hjs_mem _ (getD_mem js 0 j (by omega)))

/-- Full characterization of scanKey on a rendered nonempty tag set:
the capacity recursion decides panic versus success; on success the
pre-check verdict on the tag names decides between returning the key
unchanged (ascending), an immediate duplicate-tags error (adjacent
duplicate), and the sort-and-rebuild path, whose output is the render of
a name-sorted permutation of the tags with a duplicate error exactly
when that arrangement has an adjacent duplicate name. -/
lemma scanKey_render_main (m rest : List Nat) (t : Tag) (r : List Tag)
    (hm : PlainStr m) (hts : ∀ u ∈ t :: r, PlainTag u) :
    (capOk (t :: r).length 0 100 = false →
      scanKey (renderLine m (t :: r) rest) 0 = .error .indexOutOfRange) ∧
    (capOk (t :: r).length 0 100 = true →
      (adjSpec ((t :: r).map (fun u => u.1)) = .ascending →
        scanKey (renderLine m (t :: r) rest) 0 =
          .ok ((renderKey m (t :: r)).length, renderKey m (t :: r), none)) ∧
      (adjSpec ((t :: r).map (fun u => u.1)) = .dup →
        scanKey (renderLine m (t :: r) rest) 0 =
          .ok ((renderKey m (t :: r)).length, renderKey m (t :: r),
            some .duplicateTags)) ∧
      (adjSpec ((t :: r).map (fun u => u.1)) = .unsorted →
        ∃ ts2 : List Tag, ts2.Perm (t :: r) ∧
          List.Chain' (fun a b => ¬ bytesLt b a) (ts2.map (fun u => u.1)) ∧
          scanKey (renderLine m (t :: r) rest) 0 =
            .ok ((renderKey m (t :: r)).length, renderKey m ts2,
              if hasAdjEq (ts2.map (fun u => u.1)) = true then some .duplicateTags
              else none))) := by
  have hiso := tagLoopSpec_isSome (t :: r) 0 (List.replicate 100 0) (m.length + 1)
  simp only [List.length_replicate] at hiso
  have hunf := scanKey_render_unfold m rest t r hm hts
  have hKL : m.length + 1 + nrLen (t :: r) = (renderKey m (t :: r)).length := by
    rw [renderKey_length, nrLen_eq, sumSeg_cons]
    have h2 : 2 ≤ segLen t := by unfold segLen; omega
    omega
  rcases hspec : tagLoopSpec (t :: r) 0 (List.replicate 100 0) (m.length + 1) with
    _ | ⟨c2, I2⟩
  · rw [hspec] at hunf hiso
    simp only [Option.isSome_none] at hiso
    constructor
    · intro _
      rw [hunf]
    · intro hcap
      rw [← hiso] at hcap
      exact Bool.noConfusion hcap
  · rw [hspec] at hunf hiso
    simp only [Option.isSome_some] at hiso
    obtain ⟨hc2, hc2lt, hentry⟩ := scanKey_ctx m t r c2 I2 hspec
    subst hc2
    constructor
    · intro hcap
      rw [← hiso] at hcap
      exact Bool.noConfusion hcap
    · intro _
      have hpre := preCheck_eval m rest t r hts I2 hentry
      refine ⟨?_, ?_, ?_⟩
      · intro hasc
        rw [hunf]
        dsimp only
        rw [hpre, hasc]
        dsimp only
        rw [if_neg (by simp)]
        rw [slice_key, hKL]
      · intro hdup
        rw [hunf]
        dsimp only
        rw [hpre, hdup]
        dsimp only
        rw [slice_key, hKL]
      · intro huns
        obtain ⟨ts2, hperm2, hchain2, hrebuild, hpost⟩ :=
          scanKey_unsorted_path m rest t r hts I2 hc2lt hentry
        refine ⟨ts2, hperm2, hchain2, ?_⟩
        rw [hunf]
        dsimp only
        rw [hpre, huns]
        dsimp only
        rw [if_pos (by simp)]
        rw [hrebuild]
        dsimp only
        rw [hpost]
        cases hAE : hasAdjEq (ts2.map (fun u => u.1)) with
        | true =>
          rw [if_pos rfl, if_pos rfl, hKL]
        | false =>
          rw [if_neg (by simp), if_neg (by simp), hKL]

/-- The successfully-canonicalized key bytes of a scanKey result: the
returned slice when scanKey neither panicked nor reported an error. -/
def okBytes (res : Except GoPanic (Nat × List Nat × Option ScanErr)) : Option (List Nat) :=
  match res with
  | .ok (_, b, none) => some b
  | _ => none

lemma scanKey_render_empty (m rest : List Nat) (hm : PlainStr m) :
    scanKey (renderLine m [] rest) 0 = .ok (m.length, m, none) := by
  have hshape : renderLine m [] rest = m ++ 32 :: rest := by
    simp [renderLine, renderKey, renderTags]
  have hb0 : byteAt (renderLine m [] rest) 0 = byteAt m 0 := by
    rw [hshape]
    exact byteAt_append_left m _ 0 (List.length_pos.mpr hm.1)
  have hm0 := hm.2 _ (byteAt_mem m 0 (List.length_pos.mpr hm.1))
  have hskip : skipWhitespace (renderLine m [] rest) 0 = 0 := by
    apply skipWhitespace_zero
    · have := List.length_pos.mpr hm.1
      rw [hshape]
      simp only [List.length_append, List.length_cons]
      omega
    · rw [hb0]; obtain ⟨h1, _, _, _, _⟩ := hm0; omega
    · rw [hb0]; obtain ⟨h1, _, _, _, _⟩ := hm0; omega
    · rw [hb0]; obtain ⟨h1, _, _, _, _⟩ := hm0; omega
  have hmeas : scanMeasurement (renderLine m [] rest) 0 =
      (fieldsState, m.length, none) := by
    rw [hshape]
    rw [scanMeasurement_render m rest 32 hm (Or.inr rfl)]
    rw [if_neg (by omega)]
  unfold scanKey
  rw [hskip]
  dsimp only
  rw [hmeas]
  dsimp only
  rw [if_neg (show ¬ (fieldsState == tagKeyState) = true from by decide)]
  dsimp only
  rw [show preCheckF 0 (renderLine m [] rest) (List.replicate 100 0) 0 0 = .ascending
    from rfl]
  dsimp only
  rw [if_neg (by simp)]
  have hslice : goSlice (renderLine m [] rest) 0 m.length = m := by
    rw [hshape]
    unfold goSlice
    rw [List.take_left, List.drop_zero]
  rw [hslice]

/-- scanKey on a rendered key with pairwise-distinct tag names: a panic
exactly at the capacity boundary, otherwise a successful result whose
bytes render the unique name-sorted arrangement of the tags. -/
lemma scanKey_nodup_result (m rest : List Nat) (ts : List Tag)
    (hm : PlainStr m) (hts : ∀ u ∈ ts, PlainTag u)
    (hnd : (ts.map (fun u => u.1)).Nodup) :
    (capOk ts.length 0 100 = false → ts ≠ [] →
      scanKey (renderLine m ts rest) 0 = .error .indexOutOfRange) ∧
    (capOk ts.length 0 100 = true →
      ∃ tsS : List Tag, tsS.Perm ts ∧
        List.Chain' bytesLt (tsS.map (fun u => u.1)) ∧
        scanKey (renderLine m ts rest) 0 =
          .ok ((renderKey m ts).length, renderKey m tsS, none)) := by
  cases ts with
  | nil =>
    constructor
    · intro _ hne
      exact absurd rfl hne
    · intro _
      refine ⟨[], List.Perm.refl [], List.chain'_nil, ?_⟩
      rw [scanKey_render_empty m rest hm]
      simp [renderKey, renderTags]
  | cons t r =>
    have hmain := scanKey_render_main m rest t r hm hts
    constructor
    · intro hcap _
      exact hmain.1 hcap
    · intro hcap
      obtain ⟨hasc, hdup, huns⟩ := hmain.2 hcap
      rcases hAS : adjSpec ((t :: r).map (fun u => u.1)) with _ | _ | _
      · exact absurd hAS (adjSpec_ne_dup _ hnd)
      · obtain ⟨ts2, hperm2, hchain2, heq2⟩ := huns hAS
        have hnd2 : (ts2.map (fun u => u.1)).Nodup :=
          ((hperm2.map (fun u => u.1)).symm).nodup hnd
        have hAE : hasAdjEq (ts2.map (fun u => u.1)) = false :=
          hasAdjEq_false_of_nodup _ hnd2
        refine ⟨ts2, hperm2, sorted_noAdjEq_chain _ hchain2 hAE, ?_⟩
        rw [heq2, hAE]
        rw [if_neg (by simp)]
      · refine ⟨t :: r, List.Perm.refl _, adjSpec_ascending_chain _ hAS, hasc hAS⟩

/-- Claim C1: for every key whose tags have pairwise-distinct names, the
canonical key bytes returned by scanKey (when it returns bytes with no
error) are the same for every permutation of those tags in the input; and
whenever the index buffer capacity recursion permits success, the output
key renders the tags with names in strictly ascending byte-lexicographic
order after the measurement.  Tags are rendered from structured
(name, value) pairs of plain bytes. -/
theorem scanKey_canonical_order_independent
    (m rest1 rest2 : List Nat) (ts1 ts2 : List Tag)
    (hm : PlainStr m) (h1 : ∀ u ∈ ts1, PlainTag u) (h2 : ∀ u ∈ ts2, PlainTag u)
    (hperm : ts1.Perm ts2) (hnd : (ts1.map (fun u => u.1)).Nodup) :
    okBytes (scanKey (renderLine m ts1 rest1) 0) =
      okBytes (scanKey (renderLine m ts2 rest2) 0) ∧
    (capOk ts1.length 0 100 = true →
      ∃ tsS : List Tag, tsS.Perm ts1 ∧
        List.Chain' bytesLt (tsS.map (fun u => u.1)) ∧
        scanKey (renderLine m ts1 rest1) 0 =
          .ok ((renderKey m ts1).length, renderKey m tsS, none)) := by
  have hnd2 : (ts2.map (fun u => u.1)).Nodup := (hperm.map (fun u => u.1)).nodup hnd
  have ha1 := scanKey_nodup_result m rest1 ts1 hm h1 hnd
  have ha2 := scanKey_nodup_result m rest2 ts2 hm h2 hnd2
  have hlen : ts1.length = ts2.length := hperm.length_eq
  refine ⟨?_, ha1.2⟩
  cases hcap : capOk ts1.length 0 100 with
  | false =>
    have hne1 : ts1 ≠ [] := by
      intro h
      rw [h] at hcap
      exact absurd hcap (by decide)
    have hne2 : ts2 ≠ [] := by
      intro h
      rw [h] at hperm
      exact hne1 hperm.eq_nil
    rw [ha1.1 hcap hne1, ha2.1 (by rw [← hlen]; exact hcap) hne2]
  | true =>
    obtain ⟨tsS1, hp1, hs1, he1⟩ := ha1.2 hcap
    obtain ⟨tsS2, hp2, hs2, he2⟩ := ha2.2 (by rw [← hlen]; exact hcap)
    have hSS : tsS1 = tsS2 :=
      sorted_perm_unique tsS1 tsS2 ((hp1.trans hperm).trans hp2.symm) hs1 hs2
    rw [he1, he2, hSS]
    rfl

/-- Witness for claim C1 at a concrete input: the keys m,b=1,a=2 and
m,a=2,b=1 canonicalize to the same bytes, and the first succeeds with
its tag names sorted ascending. -/
theorem scanKey_canonical_order_independent_witness :
    okBytes (scanKey (renderLine [109] [([98], [49]), ([97], [50])] [120]) 0) =
      okBytes (scanKey (renderLine [109] [([97], [50]), ([98], [49])] [120]) 0) ∧
    (capOk ([([98], [49]), ([97], [50])] : List Tag).length 0 100 = true →
      ∃ tsS : List Tag, tsS.Perm [([98], [49]), ([97], [50])] ∧
        List.Chain' bytesLt (tsS.map (fun u => u.1)) ∧
        scanKey (renderLine [109] [([98], [49]), ([97], [50])] [120]) 0 =
          .ok ((renderKey [109] [([98], [49]), ([97], [50])]).length,
            renderKey [109] tsS, none)) :=
  scanKey_canonical_order_independent [109] [120] [120]
    [([98], [49]), ([97], [50])] [([97], [50]), ([98], [49])]
    (by decide) (by decide) (by decide) (by decide) (by decide)

/-- Claim C2 (amended): a rendered key containing two tags with the same
name never yields successful canonical key bytes; whenever the capacity
recursion permits the scan to complete (the capacity-boundary panic of
C9 aside), scanKey returns a duplicate-tags error — whether the
duplicates are adjacent or not, sorted or not. -/
theorem scanKey_duplicate_names_no_success (m rest : List Nat) (ts : List Tag)
    (hm : PlainStr m) (hts : ∀ u ∈ ts, PlainTag u)
    (hdup : ¬ (ts.map (fun u => u.1)).Nodup) :
    okBytes (scanKey (renderLine m ts rest) 0) = none ∧
    (capOk ts.length 0 100 = true →
      ∃ i b, scanKey (renderLine m ts rest) 0 = .ok (i, b, some .duplicateTags)) := by
  cases ts with
  | nil => exact absurd (by simp) hdup
  | cons t r =>
    have hmain := scanKey_render_main m rest t r hm hts
    cases hcap : capOk (t :: r).length 0 100 with
    | false =>
      rw [hmain.1 hcap]
      refine ⟨rfl, ?_⟩
      intro hh
      exact Bool.noConfusion hh
    | true =>
      obtain ⟨hasc, hdupb, huns⟩ := hmain.2 hcap
      rcases hAS : adjSpec ((t :: r).map (fun u => u.1)) with _ | _ | _
      · rw [hdupb hAS]
        exact ⟨rfl, fun _ => ⟨_, _, rfl⟩⟩
      · obtain ⟨ts2, hperm2, hchain2, heq2⟩ := huns hAS
        have hAE : hasAdjEq (ts2.map (fun u => u.1)) = true :=
          hasAdjEq_true_of_dup _ _ (hperm2.map (fun u => u.1)) hchain2 hdup
        rw [heq2, hAE, if_pos rfl]
        exact ⟨rfl, fun _ => ⟨_, _, rfl⟩⟩
      · exact absurd hAS (adjSpec_dup_not_ascending _ hdup)

/-- Witness for claim C2 at a concrete input: the key m,a=1,a=2 with two
tags named a yields no canonical bytes, and reports duplicate tags. -/
theorem scanKey_duplicate_names_no_success_witness :
    okBytes (scanKey (renderLine [109] [([97], [49]), ([97], [50])] [120]) 0) = none ∧
    (capOk ([([97], [49]), ([97], [50])] : List Tag).length 0 100 = true →
      ∃ i b, scanKey (renderLine [109] [([97], [49]), ([97], [50])] [120]) 0 =
        .ok (i, b, some .duplicateTags)) :=
  scanKey_duplicate_names_no_success [109] [120] [([97], [49]), ([97], [50])]
    (by decide) (by decide) (by decide)

/-- One hundred identically-named tags. -/
def c2dupTags : List Tag := List.replicate 100 ([97], [49])

set_option maxRecDepth 100000 in
/-- Counterexample to claim C2 as stated: a key with one hundred tags all
named a makes scanKey hit the out-of-range index write (the Go panic)
instead of returning the promised duplicate-tags error. -/
theorem scanKey_hundred_duplicates_panic :
    scanKey (renderLine [109] c2dupTags [118, 61, 49]) 0 =
      .error .indexOutOfRange ∧
    ∀ i b, scanKey (renderLine [109] c2dupTags [118, 61, 49]) 0 ≠
      .ok (i, b, some .duplicateTags) := by
  have hrepl : c2dupTags = ([97], [49]) :: List.replicate 99 ([97], [49]) := rfl
  have h1 : scanKey (renderLine [109] c2dupTags [118, 61, 49]) 0 =
      .error .indexOutOfRange := by
    rw [hrepl]
    exact (scanKey_render_main [109] [118, 61, 49] ([97], [49])
      (List.replicate 99 ([97], [49])) (by decide) (by decide)).1 (by decide)
  refine ⟨h1, ?_⟩
  intro i b hcon
  rw [h1] at hcon
  exact Except.noConfusion hcon

/-- One hundred tags with distinct three-byte names a00 … a99 in
ascending order, each with value 1. -/
def c9tags : List Tag :=
  ([97, 48, 48], [49]) :: (List.range 99).map (fun i =>
    ([97, 48 + (i + 1) / 10, 48 + (i + 1) % 10], [49]))

set_option maxRecDepth 100000 in
/-- Claim C9: the index list is NOT effectively growable at the boundary:
a syntactically valid key with exactly one hundred distinct, already
sorted tags makes the fields-state index write go out of range — the Go
slice write panics — because growth only happens in the tag-key state
and the final write is unguarded. -/
theorem scanKey_hundred_tags_out_of_range :
    scanKey (renderLine [109] c9tags [118, 61, 49]) 0 =
      .error .indexOutOfRange := by
  unfold c9tags
  exact (scanKey_render_main [109] [118, 61, 49] ([97, 48, 48], [49])
    ((List.range 99).map (fun i =>
      ([97, 48 + (i + 1) / 10, 48 + (i + 1) % 10], [49])))
    (by decide) (by decide)).1 (by decide)

end Taggify
